import Mathlib

/-!
# Sudoku: constraint graph and backtracking solver

A shallow embedding of `Sudoku.h` (`SudokuGraph`, `SudokuPuzzle`, `PuzzleSolver`,
`checkPuzzle`).

Conventions of the embedding.

* C++ `int` is `Int`.  The quantities involved (`N = rows * cols`, indices `N * r + c`)
  stay far below `2^31` for every board that fits in memory, so no wrap-around is modelled;
  the theorem on `load`, whose shape comes from arbitrary input, assumes that `rows * cols`
  fits in an `int`.  Memory is unbounded.
* `std::vector<T>` is `List T`; `v[i]` is a checked lookup, `push_back` appends at the end.
* A failed `assert` or an out-of-range vector access makes the operation return `none`.
* `for (int x = 0; x < n; ++x)` runs over `intRange n`.
* `std::cout` is a list of reports, carried in the solver state.
* The recursion of `PuzzleSolver::solve` is driven by a fuel argument; running out of fuel
  is `none` as well.
* The input file of `load` is the list of its characters; a file that cannot be opened
  reads like the empty file.  One extraction `in >> val` is `readInt`: it skips whitespace,
  takes an optional sign and the longest run of digits, fails when there is no digit or
  the value does not fit in a 32-bit `int`, and leaves the input right after the last
  digit.  The empty `std::optional` is `none`.
* `PuzzleSolver.solveLog` is `solve` with a ghost log of its invocations; erasing the log
  gives `PuzzleSolver.solveFuel` back (`solveLog_erase`).
-/

namespace Sudoku

/-! ## Definitions -/

/-- Values taken by the counter of `for (int x = 0; x < n; ++x)`, in order. -/
def intRange (n : Int) : List Int :=
  (List.range n.toNat).map Int.ofNat

/-- Cell coordinate, the struct `SudokuGraph::Cell`. -/
structure Cell where
  row : Int
  col : Int
deriving DecidableEq

/-- The struct `SudokuGraph`: one adjacency list per cell, in row-major order. -/
structure SudokuGraph where
  g : List (List Cell)
  rows : Int
  cols : Int
  N : Int

/-- First inner loop of the constructor (lines 22-24): push `{r, x}` for `x != c`. -/
def SudokuGraph.pushRow (N r c : Int) (cells : List Cell) : List Cell :=
  (intRange N).foldl (fun cells x => if x ≠ c then cells ++ [⟨r, x⟩] else cells) cells

/-- Second inner loop of the constructor (lines 25-27): push `{x, c}` for `x != r`. -/
def SudokuGraph.pushCol (N r c : Int) (cells : List Cell) : List Cell :=
  (intRange N).foldl (fun cells x => if x ≠ r then cells ++ [⟨x, c⟩] else cells) cells

/-- Third, nested loop of the constructor (lines 30-35): push the cells of the block
that starts at `(startRow, startCol)`, except `(r, c)`. -/
def SudokuGraph.pushBlock (rows cols r c startRow startCol : Int) (cells : List Cell) :
    List Cell :=
  (intRange rows).foldl (fun cells x =>
    (intRange cols).foldl (fun cells y =>
      if startRow + x ≠ r ∨ startCol + y ≠ c then
        cells ++ [⟨startRow + x, startCol + y⟩]
      else cells) cells) cells

/-- Body of the double loop of the constructor (lines 21-35): the vector `cells`
built for the cell `(r, c)`.  C++ `%` truncates, hence `Int.tmod`. -/
def SudokuGraph.cellsFor (rows cols N r c : Int) : List Cell :=
  let cells : List Cell := []
  let cells := SudokuGraph.pushRow N r c cells
  let cells := SudokuGraph.pushCol N r c cells
  let startRow := r - r.tmod rows
  let startCol := c - c.tmod cols
  SudokuGraph.pushBlock rows cols r c startRow startCol cells

/-- The constructor `SudokuGraph::SudokuGraph(int rows, int cols)` (lines 18-39). -/
def SudokuGraph.new (rows cols : Int) : SudokuGraph :=
  let N := rows * cols
  let g : List (List Cell) :=
    (intRange N).foldl (fun g r =>
      (intRange N).foldl (fun g c => g ++ [SudokuGraph.cellsFor rows cols N r c]) g) []
  { g := g, rows := rows, cols := cols, N := N }

/-- The method `SudokuGraph::neighbors` (lines 41-45); `none` when an assertion fails
or the index is outside `g`. -/
def SudokuGraph.neighbors (G : SudokuGraph) (r c : Int) : Option (List Cell) :=
  if 0 ≤ r ∧ r < G.N then
    if 0 ≤ c ∧ c < G.N then
      G.g[(G.N * r + c).toNat]?
    else none
  else none

/-- Read access `v[i]` of a vector with an `int` index; `none` outside the vector. -/
def vget {α : Type} (v : List α) (i : Int) : Option α :=
  if 0 ≤ i then v[i.toNat]? else none

/-- Write access `v[i] = a` of a vector with an `int` index; `none` outside the vector. -/
def vset {α : Type} (v : List α) (i : Int) (a : α) : Option (List α) :=
  if 0 ≤ i ∧ i.toNat < v.length then some (v.set i.toNat a) else none

/-- The struct `SudokuPuzzle`. -/
structure SudokuPuzzle where
  cells : List Int
  rows : Int
  cols : Int
  N : Int
  graph : SudokuGraph

/-- The constructor `SudokuPuzzle(int rows, int cols)` (lines 53-54): no cells yet. -/
def SudokuPuzzle.new (rows cols : Int) : SudokuPuzzle :=
  { cells := [], rows := rows, cols := cols, N := rows * cols,
    graph := SudokuGraph.new rows cols }

/-- Reading through `SudokuPuzzle::at` (lines 89-99). -/
def SudokuPuzzle.atCell (P : SudokuPuzzle) (r c : Int) : Option Int :=
  if 0 ≤ r ∧ r < P.N then
    if 0 ≤ c ∧ c < P.N then
      vget P.cells (P.N * r + c)
    else none
  else none

/-- Writing through the reference returned by `SudokuPuzzle::at`: `at(r, c) = v`. -/
def SudokuPuzzle.setCell (P : SudokuPuzzle) (r c v : Int) : Option SudokuPuzzle :=
  if 0 ≤ r ∧ r < P.N then
    if 0 ≤ c ∧ c < P.N then
      (vset P.cells (P.N * r + c) v).map (fun cells => { P with cells := cells })
    else none
  else none

/-- The elimination loop of `forAllPossibleValuesOf` (lines 104-109) over the peers `nb`. -/
def SudokuPuzzle.eliminate (P : SudokuPuzzle) (nb : List Cell) (possible : List Bool) :
    Option (List Bool) :=
  nb.foldlM (fun possible cell => do
    let val ← P.atCell cell.row cell.col
    if val > 0 then vset possible (val - 1) false else some possible) possible

/-- The method `SudokuPuzzle::forAllPossibleValuesOf` (lines 101-116).  The callback `f`
acts on a state `σ` that is threaded through the calls. -/
def SudokuPuzzle.forAllPossibleValuesOf {σ : Type} (P : SudokuPuzzle) (row col : Int)
    (f : Int → σ → Option σ) (st : σ) : Option σ := do
  let possible := List.replicate P.N.toNat true
  let nb ← P.graph.neighbors row col
  let possible ← P.eliminate nb possible
  ((intRange P.N).map (fun i => i + 1)).foldlM (fun st val => do
    let b ← vget possible (val - 1)
    if b then f val st else some st) st

/-- One iteration of the loop of `countPossibleValuesOf` (lines 121-127). -/
def SudokuPuzzle.countStep (P : SudokuPuzzle) (acc : Int × List Bool) (cell : Cell) :
    Option (Int × List Bool) := do
  let val ← P.atCell cell.row cell.col
  if val > 0 then do
    let b ← vget acc.2 (val - 1)
    if b then do
      let possible ← vset acc.2 (val - 1) false
      some (acc.1 - 1, possible)
    else some acc
  else some acc

/-- The method `SudokuPuzzle::countPossibleValuesOf` (lines 118-129). -/
def SudokuPuzzle.countPossibleValuesOf (P : SudokuPuzzle) (row col : Int) : Option Int := do
  let nb ← P.graph.neighbors row col
  let acc ← nb.foldlM P.countStep (P.N, List.replicate P.N.toNat true)
  some acc.1

/-- The values written by `operator<<` (lines 135-142), in the order they are written. -/
def printPuzzle (P : SudokuPuzzle) : Option (List Int) :=
  (intRange P.N).foldlM (fun out r =>
    (intRange P.N).foldlM (fun out c => do
      let val ← P.atCell r c
      some (out ++ [val])) out) []

/-- What `solve` writes to `std::cout` for one solution (lines 186-187): the solution
index, the node counter, and the printed puzzle (shape and values). -/
structure Report where
  index : Int
  nodes : Int
  rows : Int
  cols : Int
  grid : List Int
deriving DecidableEq

/-- The struct `PuzzleSolver`, together with what it has written to `std::cout`. -/
structure PuzzleSolver where
  puzzle : SudokuPuzzle
  candidate : SudokuPuzzle
  rows : Int
  cols : Int
  N : Int
  nodes : Int
  s : Int
  out : List Report

/-- The constructor `PuzzleSolver(const SudokuPuzzle&)` (lines 155-162). -/
def PuzzleSolver.new (puzzle : SudokuPuzzle) : PuzzleSolver :=
  { puzzle := puzzle, candidate := puzzle, rows := puzzle.rows, cols := puzzle.cols,
    N := puzzle.rows * puzzle.cols, nodes := 0, s := 0, out := [] }

/-- State of the scan of `solve` (lines 165-183): either the `return` of line 174 was
taken, or the scan is running with the locals `lowerCount`, `row`, `col`. -/
inductive Scan where
  | deadEnd : Scan
  | running (lowerCount row col : Int) : Scan
deriving DecidableEq

/-- Body of the double loop of `solve` (lines 170-181) at `(r, c)`. -/
def PuzzleSolver.scanStep (S : PuzzleSolver) (r c : Int) : Scan → Option Scan
  | .deadEnd => some .deadEnd
  | .running lowerCount row col => do
    let v ← S.candidate.atCell r c
    if v = 0 then do
      let count ← S.candidate.countPossibleValuesOf r c
      if count = 0 then some .deadEnd
      else if lowerCount > count then some (.running count r c)
      else some (.running lowerCount row col)
    else some (.running lowerCount row col)

/-- The scan of `solve` (lines 165-183). -/
def PuzzleSolver.scan (S : PuzzleSolver) : Option Scan :=
  (intRange S.N).foldlM (fun st r =>
    (intRange S.N).foldlM (fun st c => S.scanStep r c st) st)
    (Scan.running (S.N + 1) (-1) (-1))

/-- The lambda passed to `forAllPossibleValuesOf` in `solve` (lines 192-196), with the
recursive call `solve()` as the parameter `rec`. -/
def PuzzleSolver.tryValue (rec : PuzzleSolver → Option PuzzleSolver) (row col val : Int)
    (S : PuzzleSolver) : Option PuzzleSolver := do
  let cand ← S.candidate.setCell row col val
  let S ← rec { S with candidate := cand }
  let cand ← S.candidate.setCell row col 0
  some { S with candidate := cand }

/-- The method `PuzzleSolver::solve` (lines 164-197), recursion depth bounded by the fuel. -/
def PuzzleSolver.solveFuel : Nat → PuzzleSolver → Option PuzzleSolver
  | 0, _ => none
  | fuel + 1, S => do
    match ← S.scan with
    | .deadEnd => some { S with nodes := S.nodes + 1 }
    | .running _ row col =>
      if row = -1 ∧ col = -1 then do
        let grid ← printPuzzle S.candidate
        some { S with
          s := S.s + 1
          nodes := 0
          out := S.out ++ [⟨S.s + 1, S.nodes, S.candidate.rows, S.candidate.cols, grid⟩] }
      else
        S.candidate.forAllPossibleValuesOf row col
          (PuzzleSolver.tryValue (PuzzleSolver.solveFuel fuel) row col) S

/-- Inner loop of `checkPuzzle` (lines 206-213): `false` at the first peer holding `val`. -/
def checkPuzzle.peers (P : SudokuPuzzle) (val : Int) : List Cell → Option Bool
  | [] => some true
  | cell :: rest => do
    let v ← P.atCell cell.row cell.col
    if v = val then some false else checkPuzzle.peers P val rest

/-- Loop over `col` of `checkPuzzle` (lines 203-214) for the row `row`. -/
def checkPuzzle.cols (P : SudokuPuzzle) (row : Int) : List Int → Option Bool
  | [] => some true
  | col :: rest => do
    let val ← P.atCell row col
    if val = 0 then checkPuzzle.cols P row rest
    else do
      let nb ← P.graph.neighbors row col
      let ok ← checkPuzzle.peers P val nb
      if ok then checkPuzzle.cols P row rest else some false

/-- Loop over `row` of `checkPuzzle` (lines 202-215). -/
def checkPuzzle.rows (P : SudokuPuzzle) : List Int → Option Bool
  | [] => some true
  | row :: rest => do
    let ok ← checkPuzzle.cols P row (intRange P.N)
    if ok then checkPuzzle.rows P rest else some false

/-- The function `checkPuzzle` (lines 200-218). -/
def checkPuzzle (P : SudokuPuzzle) : Option Bool :=
  checkPuzzle.rows P (intRange P.N)


/-- Row peers as the specification lists them: the cells `(r, x)` with `x ≠ c`, in
increasing `x`. -/
def specRowPeers (N r c : Int) : List Cell :=
  ((intRange N).filter (fun x => x ≠ c)).map (fun x => ⟨r, x⟩)

/-- Column peers as the specification lists them: the cells `(x, c)` with `x ≠ r`, in
increasing `x`. -/
def specColPeers (N r c : Int) : List Cell :=
  ((intRange N).filter (fun x => x ≠ r)).map (fun x => ⟨x, c⟩)

/-- All cells of the block with corner `(br, bc)`, in row-major order. -/
def blockCells (rows cols br bc : Int) : List Cell :=
  (intRange rows).flatMap (fun x => (intRange cols).map (fun y => ⟨br + x, bc + y⟩))

/-- Block peers as the specification lists them: the cells `(br + x, bc + y)` in row-major
order without `(r, c)`, where `br = r - r mod blockRows` and `bc = c - c mod blockCols`. -/
def specBlockPeers (rows cols r c : Int) : List Cell :=
  (blockCells rows cols (r - r % rows) (c - c % cols)).filter (fun b => b ≠ ⟨r, c⟩)

/-- The ordered peer sequence of section 4.1 of the specification. -/
def specPeers (rows cols r c : Int) : List Cell :=
  specRowPeers (rows * cols) r c ++ specColPeers (rows * cols) r c ++
    specBlockPeers rows cols r c

/-- Cell `b` lies in the block of cell `a`: same block row and same block column. -/
def sameBlock (rows cols : Int) (a b : Cell) : Prop :=
  b.row / rows = a.row / rows ∧ b.col / cols = a.col / cols

instance (rows cols : Int) (a b : Cell) : Decidable (sameBlock rows cols a b) := by
  unfold sameBlock; infer_instance

/-- Cell `a` has both coordinates in `[0, N)`. -/
def Cell.inRange (N : Int) (a : Cell) : Prop :=
  0 ≤ a.row ∧ a.row < N ∧ 0 ≤ a.col ∧ a.col < N

instance (N : Int) (a : Cell) : Decidable (a.inRange N) := by
  unfold Cell.inRange; infer_instance

/-- The invariants of a puzzle object that `load` has filled for a valid shape: positive
block dimensions, `N` and `graph` as the constructor sets them, `N * N` cell values, each
in `[0, N]`. -/
structure SudokuPuzzle.WF (P : SudokuPuzzle) : Prop where
  rows_pos : 1 ≤ P.rows
  cols_pos : 1 ≤ P.cols
  N_eq : P.N = P.rows * P.cols
  graph_eq : P.graph = SudokuGraph.new P.rows P.cols
  length_eq : P.cells.length = (P.N * P.N).toNat
  range : ∀ v ∈ P.cells, 0 ≤ v ∧ v ≤ P.N

/-- The sequence of values that `forAllPossibleValuesOf(row, col, visit)` passes to
`visit`: the callback appends its argument to a log. -/
def SudokuPuzzle.visited (P : SudokuPuzzle) (row col : Int) : Option (List Int) :=
  P.forAllPossibleValuesOf row col (fun val log => some (log ++ [val])) []

/-- Value `v` is held by none of the cells of `nb`. -/
def SudokuPuzzle.unheld (P : SudokuPuzzle) (nb : List Cell) (v : Int) : Prop :=
  ∀ cell ∈ nb, P.atCell cell.row cell.col ≠ some v

instance (P : SudokuPuzzle) (nb : List Cell) (v : Int) : Decidable (P.unheld nb v) := by
  unfold SudokuPuzzle.unheld; infer_instance

/-- The candidate values of the specification: the values of `1..N`, ascending, that none
of the cells of `nb` holds. -/
def SudokuPuzzle.candidates (P : SudokuPuzzle) (nb : List Cell) : List Int :=
  ((intRange P.N).map (fun i => i + 1)).filter (fun v => decide (P.unheld nb v))

/-- A 4×4 puzzle with 2×2 blocks and five given values, used to instantiate the theorems. -/
def examplePuzzle : SudokuPuzzle :=
  { SudokuPuzzle.new 2 2 with
    cells := [1, 0, 0, 0,
              0, 0, 3, 0,
              0, 4, 0, 0,
              2, 0, 0, 3] }

/-- Position of the cell `a` in the row-major cell vector of a board of side `N`. -/
def cellIndex (N : Int) (a : Cell) : Nat :=
  (N * a.row + a.col).toNat

/-- The peer relation of the specification: `b` is another cell in the row, the column or
the block of `a`. -/
def peer (rows cols : Int) (a b : Cell) : Prop :=
  b ≠ a ∧ (b.row = a.row ∨ b.col = a.col ∨ sameBlock rows cols a b)

/-- A complete valid grid: `N * N` values, all in `[1, N]`, no two peer cells equal. -/
structure IsSolution (rows cols : Int) (h : List Int) : Prop where
  length_eq : h.length = (rows * cols * (rows * cols)).toNat
  range : ∀ v ∈ h, 1 ≤ v ∧ v ≤ rows * cols
  distinct : ∀ a b : Cell, a.inRange (rows * cols) → b.inRange (rows * cols) →
    peer rows cols a b →
    h[cellIndex (rows * cols) a]? ≠ h[cellIndex (rows * cols) b]?

/-- Grid `h` agrees with grid `g` on every non-empty cell of `g`. -/
def Agrees (g h : List Int) : Prop :=
  h.length = g.length ∧ ∀ (i : Nat) (v : Int), g[i]? = some v → v ≠ 0 → h[i]? = some v

/-- No non-empty cell of the partial grid `g` holds the value of one of its peers. -/
def Consistent (rows cols : Int) (g : List Int) : Prop :=
  ∀ a b : Cell, a.inRange (rows * cols) → b.inRange (rows * cols) → peer rows cols a b →
    g[cellIndex (rows * cols) a]? ≠ some 0 →
    g[cellIndex (rows * cols) a]? ≠ g[cellIndex (rows * cols) b]?

/-- Number of empty cells of a grid. -/
def emptyCount (g : List Int) : Nat :=
  g.count 0

/-- The invariants of a solver object built from a well-formed puzzle. -/
structure PuzzleSolver.WF (S : PuzzleSolver) : Prop where
  cand : S.candidate.WF
  N_eq : S.N = S.candidate.N

/-- The grids written to `std::cout`, in order. -/
def PuzzleSolver.grids (S : PuzzleSolver) : List (List Int) :=
  S.out.map Report.grid

/-- All cells of a board of side `N`, in row-major order. -/
def allCells (N : Int) : List Cell :=
  (intRange N).flatMap (fun r => (intRange N).map (fun c => ⟨r, c⟩))

/-- Number of candidate values of the cell `a`, as the specification counts them. -/
def SudokuPuzzle.numCandidates (P : SudokuPuzzle) (a : Cell) : Nat :=
  (P.candidates (specPeers P.rows P.cols a.row a.col)).length

/-- Invariant of the scan of `solve` after the cells `pre` have been visited. -/
def ScanInv (P : SudokuPuzzle) (pre : List Cell) : Scan → Prop
  | .deadEnd => ∃ a ∈ pre, P.atCell a.row a.col = some 0 ∧ P.numCandidates a = 0
  | .running lowerCount row col =>
    (∀ a ∈ pre, P.atCell a.row a.col = some 0 →
      1 ≤ P.numCandidates a ∧ lowerCount ≤ (P.numCandidates a : Int)) ∧
    ((row = -1 ∧ col = -1 ∧ lowerCount = P.N + 1 ∧
        ∀ a ∈ pre, P.atCell a.row a.col ≠ some 0) ∨
      ((⟨row, col⟩ : Cell) ∈ pre ∧ P.atCell row col = some 0 ∧
        lowerCount = (P.numCandidates ⟨row, col⟩ : Int)))

/-- The puzzle `P` with the value `v` written into the cell `a`. -/
def SudokuPuzzle.withCell (P : SudokuPuzzle) (a : Cell) (v : Int) : SudokuPuzzle :=
  { P with cells := P.cells.set (cellIndex P.N a) v }

/-- The list `sols` enumerates the solutions of the partial grid of `P`: it contains every
solution that agrees with the grid, each of its entries agrees with the grid, its entries
are solutions when the grid is consistent, and no entry is repeated. -/
structure Enumerates (P : SudokuPuzzle) (sols : List (List Int)) : Prop where
  complete : ∀ h, IsSolution P.rows P.cols h → Agrees P.cells h → h ∈ sols
  agrees : ∀ h ∈ sols, Agrees P.cells h
  sound : Consistent P.rows P.cols P.cells → ∀ h ∈ sols, IsSolution P.rows P.cols h
  nodup : sols.Nodup

/-- As `Enumerates`, restricted to the grids whose value at the cell `a` is in `vs`. -/
structure BranchEnumerates (P : SudokuPuzzle) (a : Cell) (vs : List Int)
    (sols : List (List Int)) : Prop where
  complete : ∀ h, IsSolution P.rows P.cols h → Agrees P.cells h →
    (∃ v ∈ vs, h[cellIndex P.N a]? = some v) → h ∈ sols
  agrees : ∀ h ∈ sols, Agrees P.cells h ∧ ∃ v ∈ vs, h[cellIndex P.N a]? = some v
  sound : Consistent P.rows P.cols P.cells → ∀ h ∈ sols, IsSolution P.rows P.cols h
  nodup : sols.Nodup

/-- Relation between the solver state `S` at a call of `solve` and the state `T` at its
return: the working grid and the fixed fields are unchanged, and the reports written in
between enumerate the solutions of the working grid. -/
structure SolveSpec (S T : PuzzleSolver) : Prop where
  candidate_eq : T.candidate = S.candidate
  puzzle_eq : T.puzzle = S.puzzle
  N_eq : T.N = S.N
  out_eq : ∃ reps, T.out = S.out ++ reps ∧ Enumerates S.candidate (reps.map Report.grid)

/-- The function `std::isspace` in the "C" locale, which `in >> val` uses to skip leading
whitespace: the space and the characters `\t`, `\n`, `\v`, `\f`, `\r`. -/
def isSpace (c : Char) : Bool :=
  c.toNat = 32 || (9 ≤ c.toNat && c.toNat ≤ 13)

/-- The decimal digits `0` to `9`. -/
def isDigit (c : Char) : Bool :=
  48 ≤ c.toNat && c.toNat ≤ 57

/-- Value of a run of decimal digits, most significant digit first. -/
def digitsValue (ds : List Char) : Nat :=
  ds.foldl (fun n c => 10 * n + (c.toNat - 48)) 0

/-- Largest value of a 32-bit `int`. -/
def intMax : Int := 2147483647

/-- Smallest value of a 32-bit `int`. -/
def intMin : Int := -2147483648

/-- The optional sign at the start of an integer field: `-` (code 45) or `+` (code 43). -/
def readSign : List Char → Bool × List Char
  | [] => (false, [])
  | c :: t =>
    if c.toNat = 45 then (true, t)
    else if c.toNat = 43 then (false, t)
    else (false, c :: t)

/-- One extraction `in >> val` into an `int` (`std::istream::operator>>`, decimal base,
"C" locale) from the characters still unread: skip whitespace, take an optional sign and
the longest run of digits that follows; the extraction fails when there is no digit or
when the value is outside `int`, and otherwise leaves the stream right after the last
digit.  An unreadable file behaves as an empty one. -/
def readInt (s : List Char) : Option (Int × List Char) :=
  let p := readSign (s.dropWhile isSpace)
  let digits := p.2.takeWhile isDigit
  let rest := p.2.dropWhile isDigit
  if digits.isEmpty then none
  else
    let v : Int := if p.1 then -(digitsValue digits : Int) else (digitsValue digits : Int)
    if intMin ≤ v ∧ v ≤ intMax then some (v, rest) else none

/-- Body of the double loop of `load` (lines 76-82): read one value and append it. -/
def SudokuPuzzle.loadStep (st : List Char × SudokuPuzzle) :
    Option (List Char × SudokuPuzzle) :=
  match readInt st.1 with
  | some (val, input) => some (input, { st.2 with cells := st.2.cells ++ [val] })
  | none => none

/-- The function `SudokuPuzzle::load` (lines 56-87) on the characters of the file;
`none` is the empty `std::optional`. -/
def SudokuPuzzle.load (input : List Char) : Option SudokuPuzzle :=
  match readInt input with
  | none => none
  | some (rows, input) =>
    match readInt input with
    | none => none
    | some (cols, input) =>
      let puzzle := SudokuPuzzle.new rows cols
      let N := rows * cols
      ((intRange N).foldlM (fun st _ =>
        (intRange N).foldlM (fun st _ => SudokuPuzzle.loadStep st) st)
        (input, puzzle)).map Prod.snd

/-- What `main` (test.cc) has done when it returns: its exit code, the verdict of
`checkPuzzle` that it printed (if it got that far), the puzzle it echoed, and the state of
the solver after `solve()` when the solver was invoked. -/
structure MainRun where
  exitCode : Int
  checked : Option Bool
  echoed : Option (List Int)
  solver : Option PuzzleSolver

/-- The function `main` of test.cc on the characters of the input file. -/
def main (fuel : Nat) (input : List Char) : Option MainRun :=
  match SudokuPuzzle.load input with
  | none => some ⟨-1, none, none, none⟩
  | some puzzle => do
    let ok ← checkPuzzle puzzle
    if ok then do
      let echoed ← printPuzzle puzzle
      let T ← (PuzzleSolver.new puzzle).solveFuel fuel
      some ⟨0, some true, some echoed, some T⟩
    else some ⟨0, some false, none, none⟩

/-- The invariants of a puzzle object that `load` has filled for a valid shape, without
any condition on the cell values. -/
structure SudokuPuzzle.Shaped (P : SudokuPuzzle) : Prop where
  rows_pos : 1 ≤ P.rows
  cols_pos : 1 ≤ P.cols
  N_eq : P.N = P.rows * P.cols
  graph_eq : P.graph = SudokuGraph.new P.rows P.cols
  length_eq : P.cells.length = (P.N * P.N).toNat

/-- Some non-empty cell has a cell in its neighbor list that holds the same value. -/
def SudokuPuzzle.hasConflict (P : SudokuPuzzle) : Prop :=
  ∃ a : Cell, a.inRange P.N ∧ ∃ v : Int, v ≠ 0 ∧ P.atCell a.row a.col = some v ∧
    ∃ nb, P.graph.neighbors a.row a.col = some nb ∧
      ∃ b ∈ nb, P.atCell b.row b.col = some v

/-- Number of cell values that `load` reads for the shape `(rows, cols)`: the two loops run
`N` times each when `N = rows * cols` is positive, and not at all otherwise. -/
def cellCount (rows cols : Int) : Nat :=
  (rows * cols).toNat * (rows * cols).toNat

/-- The text `t` is a decimal numeral of the `int` value `v`: an optional sign `-` or `+`
followed by one or more digits, with the signed value in `[-2^31, 2^31 - 1]`. -/
def IsNumeral (t : List Char) (v : Int) : Prop :=
  ∃ (neg : Bool) (sign ds : List Char), t = sign ++ ds ∧
    ((neg = true ∧ sign = [Char.ofNat 45]) ∨
      (neg = false ∧ (sign = [] ∨ sign = [Char.ofNat 43]))) ∧
    ds ≠ [] ∧ (∀ c ∈ ds, isDigit c = true) ∧
    v = (if neg then -(digitsValue ds : Int) else (digitsValue ds : Int)) ∧
    intMin ≤ v ∧ v ≤ intMax

/-- The input `s` starts with an integer field of value `v` and continues with `rest`:
whitespace (possibly none), a numeral of `v`, and then `rest`, which does not start with a
digit (the run of digits of the numeral is maximal). -/
def IsField (s : List Char) (v : Int) (rest : List Char) : Prop :=
  ∃ ws t : List Char, s = ws ++ (t ++ rest) ∧ (∀ c ∈ ws, isSpace c = true) ∧
    IsNumeral t v ∧ ∀ c, rest.head? = some c → isDigit c = false

/-- The input `s` starts with consecutive integer fields of the values `vals` and continues
with `rest`. -/
def IsFields : List Char → List Int → List Char → Prop
  | s, [], rest => s = rest
  | s, v :: vals, rest => ∃ mid, IsField s v mid ∧ IsFields mid vals rest

/-- A 4×4 puzzle whose first row holds the value 3 twice. -/
def conflictPuzzle : SudokuPuzzle :=
  { SudokuPuzzle.new 2 2 with
    cells := [3, 0, 3, 0,
              0, 0, 0, 0,
              0, 0, 0, 0,
              0, 0, 0, 0] }

/-- The 1×1 puzzle with its single cell empty. -/
def unitPuzzle : SudokuPuzzle :=
  { SudokuPuzzle.new 1 1 with cells := [0] }

/-- A 4×4 puzzle in which the empty cell `(0, 0)` has no candidate value: its row holds 1
and 2, its column 3 and 4. -/
def deadPuzzle : SudokuPuzzle :=
  { SudokuPuzzle.new 2 2 with
    cells := [0, 1, 2, 0,
              3, 0, 0, 0,
              4, 0, 0, 0,
              0, 0, 0, 0] }

/-- A complete valid 4×4 grid. -/
def solvedPuzzle : SudokuPuzzle :=
  { SudokuPuzzle.new 2 2 with
    cells := [1, 3, 2, 4,
              4, 2, 3, 1,
              3, 4, 1, 2,
              2, 1, 4, 3] }

/-- The whitespace-delimited tokens of a text, `cur` being the token under construction. -/
def tokensFrom : List Char → List Char → List (List Char)
  | [], cur => if cur.isEmpty then [] else [cur]
  | c :: t, cur =>
    if isSpace c then
      if cur.isEmpty then tokensFrom t [] else cur :: tokensFrom t []
    else tokensFrom t (cur ++ [c])

/-- The whitespace-delimited tokens of a text: its maximal runs of non-whitespace. -/
def tokens (s : List Char) : List (List Char) :=
  tokensFrom s []

/-- An input file whose second token continues after the shape value: `1 1-0`. -/
def gluedInput : List Char := ("1 1-0").toList

/-- An input file whose third token has letters after a digit: `1 1 0abc`. -/
def trailingInput : List Char := ("1 1 0abc").toList

/-- An input file with a negative shape value and no cell value: `-1 2`. -/
def negativeInput : List Char := ("-1 2").toList

/-- An input file whose cell value does not fit in an `int`: `1 1 99999999999`. -/
def hugeInput : List Char := ("1 1 99999999999").toList

/-- An input file that holds `conflictPuzzle`. -/
def conflictInput : List Char :=
  ("2 2\n3 0 3 0\n0 0 0 0\n0 0 0 0\n0 0 0 0\n").toList

/-- The way one invocation of `solve` went: it returned at a dead end (line 174), it
reported a solution (printing the given node count), or it went on to the branching
loop. -/
inductive Call where
  | deadEnd : Call
  | solution (nodes : Int) : Call
  | branch : Call
deriving DecidableEq

/-- The lambda of `solve` (lines 192-196), as `PuzzleSolver.tryValue`, with a log of the
invocations of `solve` carried along. -/
def PuzzleSolver.tryValueLog
    (rec : PuzzleSolver × List Call → Option (PuzzleSolver × List Call))
    (row col val : Int) (st : PuzzleSolver × List Call) :
    Option (PuzzleSolver × List Call) := do
  let cand ← st.1.candidate.setCell row col val
  let st2 ← rec ({ st.1 with candidate := cand }, st.2)
  let cand ← st2.1.candidate.setCell row col 0
  some ({ st2.1 with candidate := cand }, st2.2)

/-- The method `PuzzleSolver::solve`, as `PuzzleSolver.solveFuel`, instrumented with a log
that records every invocation, in the order the invocations start. -/
def PuzzleSolver.solveLog : Nat → PuzzleSolver × List Call →
    Option (PuzzleSolver × List Call)
  | 0, _ => none
  | fuel + 1, (S, log) => do
    match ← S.scan with
    | .deadEnd => some ({ S with nodes := S.nodes + 1 }, log ++ [Call.deadEnd])
    | .running _ row col =>
      if row = -1 ∧ col = -1 then do
        let grid ← printPuzzle S.candidate
        some ({ S with
          s := S.s + 1
          nodes := 0
          out := S.out ++ [⟨S.s + 1, S.nodes, S.candidate.rows, S.candidate.cols, grid⟩] },
          log ++ [Call.solution S.nodes])
      else
        S.candidate.forAllPossibleValuesOf row col
          (PuzzleSolver.tryValueLog (PuzzleSolver.solveLog fuel) row col)
          (S, log ++ [Call.branch])

/-- Replaying a log of invocations: the first component counts the dead ends since the
last solution, the second collects that count at every solution. -/
def Call.replay (acc : Int × List Int) : Call → Int × List Int
  | .deadEnd => (acc.1 + 1, acc.2)
  | .solution _ => (0, acc.2 ++ [acc.1])
  | .branch => acc

/-- Replaying a log of invocations, counting every invocation: the first component counts
the invocations since the last solution, the second collects that count at every
solution (the reporting invocation not included). -/
def Call.replayAll (acc : Int × List Int) : Call → Int × List Int
  | .solution _ => (0, acc.2 ++ [acc.1])
  | _ => (acc.1 + 1, acc.2)

/-- The log `ev` leads from the state `st` to the state `st2`: it is what was appended,
and the node counter and the printed node counts of `st2` are those of `st` replayed
over `ev`. -/
def LogStep (st st2 : PuzzleSolver × List Call) : Prop :=
  ∃ ev : List Call, st2.2 = st.2 ++ ev ∧
    (st2.1.nodes, st2.1.out.map Report.nodes)
      = ev.foldl Call.replay (st.1.nodes, st.1.out.map Report.nodes)

/-- Second invariant of the scan of `solve` after the cells `pre` have been visited: the
cell held in `row`, `col` comes first, in row-major order, among the visited empty cells
whose candidate count equals `lowerCount`. -/
def ScanFirst (P : SudokuPuzzle) (pre : List Cell) : Scan → Prop
  | .deadEnd => True
  | .running lowerCount row col =>
    ∀ b ∈ pre, P.atCell b.row b.col = some 0 → (P.numCandidates b : Int) = lowerCount →
      cellIndex P.N ⟨row, col⟩ ≤ cellIndex P.N b

/-- The cell with row-major index `k` on a board of side `N`. -/
def cellOf (N : Int) (k : Nat) : Cell :=
  ⟨((k / N.toNat : Nat) : Int), ((k % N.toNat : Nat) : Int)⟩

/-- For the cell with index `k`: the peers with a smaller index `j`, each given by its
distance `k - 1 - j` back from `k`. -/
def peerOffsets (rows cols : Int) (k : Nat) : List Nat :=
  (((specPeers rows cols (cellOf (rows * cols) k).row (cellOf (rows * cols) k).col).map
    (cellIndex (rows * cols))).filter (fun j => decide (j < k))).map (fun j => k - 1 - j)

/-- Reference enumeration of the completions of a grid whose first cells, in row-major
order, are filled and whose other cells are empty: `acc` holds the filled values, last
one first, and the first argument the peer offsets of the cells still to fill.  Each cell
in turn takes every value of `vals` that no earlier peer holds. -/
def enumPrefix (vals : List Int) : List (List Nat) → List Int → List (List Int)
  | [], acc => [acc.reverse]
  | offs :: rest, acc =>
    (vals.filter (fun v => offs.all (fun o => acc.getD o 0 != v))).flatMap
      (fun v => enumPrefix vals rest (v :: acc))

/-- The peer offsets of the 16 cells of the 4×4 board with 2×2 blocks. -/
def offsets22 : List (List Nat) :=
  [[], [0, 0], [1, 0], [2, 1, 0, 0],
   [3, 3, 2], [0, 3, 4, 3, 0], [1, 0, 3, 3, 2], [2, 1, 0, 3, 4, 3, 0],
   [7, 3], [0, 7, 3, 0], [1, 0, 7, 3], [2, 1, 0, 7, 3, 0],
   [11, 7, 3, 3, 2], [0, 11, 7, 3, 4, 3, 0], [1, 0, 11, 7, 3, 3, 2],
   [2, 1, 0, 11, 7, 3, 4, 3, 0]]

/-- The 4×4 puzzle with 2×2 blocks and all 16 cells empty. -/
def emptyPuzzle22 : SudokuPuzzle :=
  { SudokuPuzzle.new 2 2 with cells := List.replicate 16 0 }

/-! ## Theorems -/

/-! ## The constraint graph -/

theorem mem_intRange {n x : Int} : x ∈ intRange n ↔ 0 ≤ x ∧ x < n := by
  simp only [intRange, List.mem_map, List.mem_range]
  constructor
  · rintro ⟨a, ha, rfl⟩
    simp only [Int.ofNat_eq_coe]
    omega
  · intro h
    exact ⟨x.toNat, by omega, by simp only [Int.ofNat_eq_coe]; omega⟩

theorem nodup_intRange (n : Int) : (intRange n).Nodup := by
  unfold intRange
  apply List.Nodup.map _ (List.nodup_range _)
  intro a b h
  exact Int.ofNat.inj h

theorem length_intRange (n : Int) : (intRange n).length = n.toNat := by
  simp [intRange]

theorem getElem?_intRange {n : Int} {i : Nat} (h : i < n.toNat) :
    (intRange n)[i]? = some (i : Int) := by
  simp [intRange, List.getElem?_range h]

/-- A loop that conditionally pushes `f x` builds `init ++ map f (filter p l)`. -/
theorem foldl_push_filter {α β : Type} (p : α → Prop) [DecidablePred p] (f : α → β)
    (l : List α) (init : List β) :
    l.foldl (fun acc x => if p x then acc ++ [f x] else acc) init
      = init ++ (l.filter (fun x => decide (p x))).map f := by
  induction l generalizing init with
  | nil => simp
  | cons a l ih =>
    simp only [List.foldl_cons, ih, List.filter_cons]
    by_cases h : p a <;> simp [h]

/-- A loop that appends a whole segment per iteration builds a `flatMap`. -/
theorem foldl_append_flatMap {α β : Type} (F : α → List β) (l : List α) (init : List β) :
    l.foldl (fun acc x => acc ++ F x) init = init ++ l.flatMap F := by
  induction l generalizing init with
  | nil => simp
  | cons a l ih => simp [List.foldl_cons, ih, List.flatMap_cons]

theorem pushRow_eq (N r c : Int) (cells : List Cell) :
    SudokuGraph.pushRow N r c cells = cells ++ specRowPeers N r c := by
  simp only [SudokuGraph.pushRow, specRowPeers]
  exact foldl_push_filter (fun x => x ≠ c) (fun x => (⟨r, x⟩ : Cell)) _ _

theorem pushCol_eq (N r c : Int) (cells : List Cell) :
    SudokuGraph.pushCol N r c cells = cells ++ specColPeers N r c := by
  simp only [SudokuGraph.pushCol, specColPeers]
  exact foldl_push_filter (fun x => x ≠ r) (fun x => (⟨x, c⟩ : Cell)) _ _

theorem pushBlock_eq (rows cols r c sr sc : Int) (cells : List Cell) :
    SudokuGraph.pushBlock rows cols r c sr sc cells
      = cells ++ (blockCells rows cols sr sc).filter (fun b => b ≠ ⟨r, c⟩) := by
  have inner : ∀ (x : Int) (acc : List Cell),
      (intRange cols).foldl (fun cells y =>
        if sr + x ≠ r ∨ sc + y ≠ c then cells ++ [(⟨sr + x, sc + y⟩ : Cell)] else cells) acc
      = acc ++ ((intRange cols).map (fun y => (⟨sr + x, sc + y⟩ : Cell))).filter
          (fun b => b ≠ ⟨r, c⟩) := by
    intro x acc
    rw [foldl_push_filter (fun y => sr + x ≠ r ∨ sc + y ≠ c)
      (fun y => (⟨sr + x, sc + y⟩ : Cell)), List.filter_map]
    congr 2
    apply List.filter_congr
    intro y _
    simp only [Function.comp, ne_eq, Cell.mk.injEq, not_and_or, decide_eq_decide]
  simp only [SudokuGraph.pushBlock, inner]
  rw [foldl_append_flatMap (fun x => ((intRange cols).map
    (fun y => (⟨sr + x, sc + y⟩ : Cell))).filter (fun b => b ≠ ⟨r, c⟩))]
  simp only [blockCells, List.filter_flatMap]

theorem cellsFor_eq {rows cols r c : Int} (hrows : 1 ≤ rows) (hcols : 1 ≤ cols)
    (hr : 0 ≤ r) (hc : 0 ≤ c) :
    SudokuGraph.cellsFor rows cols (rows * cols) r c = specPeers rows cols r c := by
  simp only [SudokuGraph.cellsFor, pushRow_eq, pushCol_eq, pushBlock_eq, specPeers,
    specBlockPeers, List.nil_append]
  rw [Int.tmod_eq_emod hr (by omega), Int.tmod_eq_emod hc (by omega)]

/-- Row-major indexing of a table built by two nested loops. -/
theorem getElem?_flatMap_map {α β γ : Type} (F : α → β → γ) (l₁ : List α) (l₂ : List β)
    (i j : Nat) (a : α) (b : β) (hi : l₁[i]? = some a) (hj : l₂[j]? = some b) :
    (l₁.flatMap (fun x => l₂.map (F x)))[l₂.length * i + j]? = some (F a b) := by
  induction l₁ generalizing i with
  | nil => simp at hi
  | cons x l₁ ih =>
    have hjlt : j < l₂.length := (List.getElem?_eq_some_iff.mp hj).1
    rw [List.flatMap_cons]
    cases i with
    | zero =>
      simp only [List.getElem?_cons_zero, Option.some.injEq] at hi
      subst hi
      rw [Nat.mul_zero, Nat.zero_add, List.getElem?_append_left (by simpa using hjlt)]
      simp [hj]
    | succ i =>
      simp only [List.getElem?_cons_succ] at hi
      rw [List.getElem?_append_right (by simp [Nat.mul_succ]; omega)]
      have : l₂.length * (i + 1) + j - (l₂.map (F x)).length = l₂.length * i + j := by
        simp [Nat.mul_succ]; omega
      rw [this]
      exact ih i hi

theorem new_g (rows cols : Int) :
    (SudokuGraph.new rows cols).g = (intRange (rows * cols)).flatMap (fun r =>
      (intRange (rows * cols)).map (fun c =>
        SudokuGraph.cellsFor rows cols (rows * cols) r c)) := by
  have inner : ∀ (r : Int) (g : List (List Cell)),
      (intRange (rows * cols)).foldl (fun g c =>
        g ++ [SudokuGraph.cellsFor rows cols (rows * cols) r c]) g
      = g ++ (intRange (rows * cols)).map (fun c =>
          SudokuGraph.cellsFor rows cols (rows * cols) r c) := by
    intro r g
    have := foldl_push_filter (fun _ : Int => True)
      (fun c => SudokuGraph.cellsFor rows cols (rows * cols) r c) (intRange (rows * cols)) g
    simpa using this
  simp only [SudokuGraph.new, inner]
  rw [foldl_append_flatMap]
  simp

theorem new_N (rows cols : Int) : (SudokuGraph.new rows cols).N = rows * cols := rfl

theorem neighbors_new_eq_cellsFor {rows cols r c : Int}
    (hr : 0 ≤ r ∧ r < rows * cols) (hc : 0 ≤ c ∧ c < rows * cols) :
    (SudokuGraph.new rows cols).neighbors r c
      = some (SudokuGraph.cellsFor rows cols (rows * cols) r c) := by
  simp only [SudokuGraph.neighbors, new_N, hr, hc, and_self, if_true, new_g]
  have hidx : (rows * cols * r + c).toNat
      = (intRange (rows * cols)).length * r.toNat + c.toNat := by
    rw [length_intRange]
    have h1 : ((rows * cols).toNat : Int) = rows * cols := Int.toNat_of_nonneg (by omega)
    have h2 : (r.toNat : Int) = r := Int.toNat_of_nonneg hr.1
    have h3 : (c.toNat : Int) = c := Int.toNat_of_nonneg hc.1
    have : rows * cols * r + c = (((rows * cols).toNat * r.toNat + c.toNat : Nat) : Int) := by
      push_cast; rw [h1, h2, h3]
    rw [this, Int.toNat_ofNat]
  rw [hidx]
  have gr : (intRange (rows * cols))[r.toNat]? = some r := by
    rw [getElem?_intRange (by omega)]; congr 1; omega
  have gc : (intRange (rows * cols))[c.toNat]? = some c := by
    rw [getElem?_intRange (by omega)]; congr 1; omega
  exact getElem?_flatMap_map _ _ _ _ _ r c gr gc

/-- On a board with positive block dimensions, the lookup of an in-range cell returns the
peer sequence of the specification. -/
theorem neighbors_new {rows cols r c : Int} (hrows : 1 ≤ rows) (hcols : 1 ≤ cols)
    (hr : 0 ≤ r ∧ r < rows * cols) (hc : 0 ≤ c ∧ c < rows * cols) :
    (SudokuGraph.new rows cols).neighbors r c = some (specPeers rows cols r c) := by
  rw [neighbors_new_eq_cellsFor hr hc, cellsFor_eq hrows hcols hr.1 hc.1]

/-- Claim C1. For every shape with `blockRows ≥ 1`, `blockCols ≥ 1` and every cell `(r, c)`
with `0 ≤ r, c < N`, the lookup `neighbors(r, c)` into the table built by the constructor
succeeds and returns exactly the row peers, then the column peers, then the block peers,
each in the order the specification gives. -/
theorem C1_neighbors_eq_specPeers (rows cols r c : Int) (hrows : 1 ≤ rows) (hcols : 1 ≤ cols)
    (hr : 0 ≤ r ∧ r < rows * cols) (hc : 0 ≤ c ∧ c < rows * cols) :
    (SudokuGraph.new rows cols).neighbors r c = some (specPeers rows cols r c) :=
  neighbors_new hrows hcols hr hc

theorem C1_witness :
    (SudokuGraph.new 2 3).neighbors 3 4 = some (specPeers 2 3 3 4) ∧
    specPeers 2 3 3 4 = [⟨3, 0⟩, ⟨3, 1⟩, ⟨3, 2⟩, ⟨3, 3⟩, ⟨3, 5⟩, ⟨0, 4⟩, ⟨1, 4⟩, ⟨2, 4⟩,
      ⟨4, 4⟩, ⟨5, 4⟩, ⟨2, 3⟩, ⟨2, 4⟩, ⟨2, 5⟩, ⟨3, 3⟩, ⟨3, 5⟩] :=
  ⟨C1_neighbors_eq_specPeers 2 3 3 4 (by decide) (by decide) (by decide) (by decide),
   by decide⟩

theorem mem_specRowPeers {N r c : Int} {b : Cell} :
    b ∈ specRowPeers N r c ↔ b.row = r ∧ b.col ≠ c ∧ 0 ≤ b.col ∧ b.col < N := by
  simp only [specRowPeers, List.mem_map, List.mem_filter, mem_intRange, ne_eq,
    decide_eq_true_eq]
  constructor
  · rintro ⟨x, ⟨hx, hne⟩, rfl⟩
    exact ⟨rfl, hne, hx.1, hx.2⟩
  · rintro ⟨h1, h2, h3, h4⟩
    exact ⟨b.col, ⟨⟨h3, h4⟩, h2⟩, by cases b; simp_all⟩

theorem mem_specColPeers {N r c : Int} {b : Cell} :
    b ∈ specColPeers N r c ↔ b.col = c ∧ b.row ≠ r ∧ 0 ≤ b.row ∧ b.row < N := by
  simp only [specColPeers, List.mem_map, List.mem_filter, mem_intRange, ne_eq,
    decide_eq_true_eq]
  constructor
  · rintro ⟨x, ⟨hx, hne⟩, rfl⟩
    exact ⟨rfl, hne, hx.1, hx.2⟩
  · rintro ⟨h1, h2, h3, h4⟩
    exact ⟨b.row, ⟨⟨h3, h4⟩, h2⟩, by cases b; simp_all⟩

theorem nodup_specRowPeers (N r c : Int) : (specRowPeers N r c).Nodup := by
  unfold specRowPeers
  apply List.Nodup.map _ ((nodup_intRange N).filter _)
  intro x y h
  simpa using h

theorem nodup_specColPeers (N r c : Int) : (specColPeers N r c).Nodup := by
  unfold specColPeers
  apply List.Nodup.map _ ((nodup_intRange N).filter _)
  intro x y h
  simpa using h

theorem mem_blockCells {rows cols br bc : Int} {b : Cell} :
    b ∈ blockCells rows cols br bc ↔
      (br ≤ b.row ∧ b.row < br + rows) ∧ (bc ≤ b.col ∧ b.col < bc + cols) := by
  simp only [blockCells, List.mem_flatMap, List.mem_map, mem_intRange]
  constructor
  · rintro ⟨x, hx, y, hy, rfl⟩
    simp only
    omega
  · rintro ⟨h1, h2⟩
    refine ⟨b.row - br, by omega, b.col - bc, by omega, ?_⟩
    cases b
    simp

theorem nodup_blockCells (rows cols br bc : Int) : (blockCells rows cols br bc).Nodup := by
  unfold blockCells
  rw [List.nodup_flatMap]
  refine ⟨fun x _ => ?_, ?_⟩
  · apply List.Nodup.map _ (nodup_intRange cols)
    intro y z h
    simpa using h
  · apply List.Pairwise.imp_of_mem _ (nodup_intRange rows)
    intro x y _ _ hxy
    simp only [Function.onFun, List.disjoint_left, List.mem_map]
    rintro b ⟨u, _, rfl⟩ ⟨v, _, h⟩
    simp only [Cell.mk.injEq] at h
    omega

theorem mem_specBlockPeers {rows cols r c : Int} {b : Cell} :
    b ∈ specBlockPeers rows cols r c ↔
      b ≠ ⟨r, c⟩ ∧ (r - r % rows ≤ b.row ∧ b.row < r - r % rows + rows) ∧
        (c - c % cols ≤ b.col ∧ b.col < c - c % cols + cols) := by
  simp only [specBlockPeers, List.mem_filter, mem_blockCells, ne_eq, decide_eq_true_eq]
  tauto

theorem nodup_specBlockPeers (rows cols r c : Int) : (specBlockPeers rows cols r c).Nodup :=
  (nodup_blockCells _ _ _ _).filter _

/-- Two coordinates have the same quotient by `n` exactly when the second lies in the
aligned window of width `n` around the first. -/
theorem ediv_eq_iff_window {n r r' : Int} (hn : 1 ≤ n) :
    r' / n = r / n ↔ r - r % n ≤ r' ∧ r' < r - r % n + n := by
  have e : r - r % n = n * (r / n) := by
    have := Int.ediv_add_emod r n
    omega
  rw [e]
  constructor
  · intro h
    rw [← h]
    have h1 := Int.ediv_add_emod r' n
    have h2 := Int.emod_nonneg r' (show n ≠ 0 by omega)
    have h3 := Int.emod_lt_of_pos r' (show 0 < n by omega)
    omega
  · rintro ⟨h1, h2⟩
    have := (Int.ediv_emod_unique (a := r') (r := r' - n * (r / n)) (q := r / n)
      (show 0 < n by omega)).2 ⟨by omega, by omega, by omega⟩
    exact this.1

theorem mem_specBlockPeers_iff {rows cols : Int} (hrows : 1 ≤ rows) (hcols : 1 ≤ cols)
    {a b : Cell} :
    b ∈ specBlockPeers rows cols a.row a.col ↔ b ≠ a ∧ sameBlock rows cols a b := by
  rw [mem_specBlockPeers, sameBlock, ediv_eq_iff_window hrows, ediv_eq_iff_window hcols]

theorem count_specPeers (rows cols : Int) (a b : Cell) :
    (specPeers rows cols a.row a.col).count b
      = (if b ∈ specRowPeers (rows * cols) a.row a.col then 1 else 0)
        + (if b ∈ specColPeers (rows * cols) a.row a.col then 1 else 0)
        + (if b ∈ specBlockPeers rows cols a.row a.col then 1 else 0) := by
  simp only [specPeers, List.count_append]
  rw [List.count_eq_of_nodup (nodup_specRowPeers _ _ _),
    List.count_eq_of_nodup (nodup_specColPeers _ _ _),
    List.count_eq_of_nodup (nodup_specBlockPeers _ _ _ _)]

/-- Membership in the specified peer sequence, for in-range cells. -/
theorem mem_specPeers_iff {rows cols : Int} (hrows : 1 ≤ rows) (hcols : 1 ≤ cols)
    {a b : Cell} (hb : b.inRange (rows * cols)) :
    b ∈ specPeers rows cols a.row a.col ↔
      b ≠ a ∧ (b.row = a.row ∨ b.col = a.col ∨ sameBlock rows cols a b) := by
  obtain ⟨hb1, hb2, hb3, hb4⟩ := hb
  simp only [specPeers, List.mem_append, mem_specRowPeers, mem_specColPeers,
    mem_specBlockPeers_iff hrows hcols]
  have hne : b ≠ a ↔ ¬ (b.row = a.row ∧ b.col = a.col) := by
    cases a; cases b; simp
  rw [hne]
  constructor
  · rintro ((⟨h1, h2, _⟩ | ⟨h1, h2, _⟩) | ⟨h1, h2⟩)
    · exact ⟨fun h => h2 h.2, Or.inl h1⟩
    · exact ⟨fun h => h2 h.1, Or.inr (Or.inl h1)⟩
    · exact ⟨h1, Or.inr (Or.inr h2)⟩
  · rintro ⟨h1, h2 | h2 | h2⟩
    · exact Or.inl (Or.inl ⟨h2, fun h => h1 ⟨h2, h⟩, hb3, hb4⟩)
    · exact Or.inl (Or.inr ⟨h2, fun h => h1 ⟨h, h2⟩, hb1, hb2⟩)
    · exact Or.inr ⟨h1, h2⟩

theorem length_filter_ne_of_nodup {α : Type} [DecidableEq α] {l : List α} {a : α}
    (hl : l.Nodup) (ha : a ∈ l) :
    (l.filter (fun x => decide (x ≠ a))).length = l.length - 1 := by
  have h := hl.erase_eq_filter a
  have e : l.filter (fun x => decide (x ≠ a)) = l.filter (fun x => x != a) := by
    apply List.filter_congr
    intro x _
    by_cases hx : x = a <;> simp [hx]
  rw [e, ← h, List.length_erase_of_mem ha]

theorem length_specRowPeers {N r c : Int} (hc : 0 ≤ c ∧ c < N) :
    ((specRowPeers N r c).length : Int) = N - 1 := by
  simp only [specRowPeers, List.length_map]
  rw [length_filter_ne_of_nodup (nodup_intRange N) (mem_intRange.2 hc), length_intRange]
  omega

theorem length_specColPeers {N r c : Int} (hr : 0 ≤ r ∧ r < N) :
    ((specColPeers N r c).length : Int) = N - 1 := by
  simp only [specColPeers, List.length_map]
  rw [length_filter_ne_of_nodup (nodup_intRange N) (mem_intRange.2 hr), length_intRange]
  omega

theorem length_blockCells (rows cols br bc : Int) :
    (blockCells rows cols br bc).length = rows.toNat * cols.toNat := by
  simp [blockCells, List.length_flatMap, Function.comp_def, length_intRange]

theorem length_specBlockPeers {rows cols r c : Int} (hrows : 1 ≤ rows) (hcols : 1 ≤ cols) :
    ((specBlockPeers rows cols r c).length : Int) = rows * cols - 1 := by
  have hmem : (⟨r, c⟩ : Cell) ∈ blockCells rows cols (r - r % rows) (c - c % cols) := by
    rw [mem_blockCells]
    have h1 := Int.emod_nonneg r (show rows ≠ 0 by omega)
    have h2 := Int.emod_lt_of_pos r (show 0 < rows by omega)
    have h3 := Int.emod_nonneg c (show cols ≠ 0 by omega)
    have h4 := Int.emod_lt_of_pos c (show 0 < cols by omega)
    simp only
    omega
  unfold specBlockPeers
  rw [length_filter_ne_of_nodup (nodup_blockCells _ _ _ _) hmem, length_blockCells]
  have hpos : 0 < rows.toNat * cols.toNat := Nat.mul_pos (by omega) (by omega)
  have h1 : ((rows.toNat * cols.toNat : Nat) : Int) = rows * cols := by
    push_cast
    rw [Int.toNat_of_nonneg (by omega), Int.toNat_of_nonneg (by omega)]
  omega

/-- Claim C2. For in-range cells `a` and `b` of a board with `blockRows, blockCols ≥ 1`, the
lookup `neighbors(a)` succeeds, and `b` occurs in it exactly when `b ≠ a` and `b` shares the
row, the column or the block of `a`; `a` itself never occurs. -/
theorem C2_mem_neighbors_iff (rows cols : Int) (a b : Cell) (hrows : 1 ≤ rows)
    (hcols : 1 ≤ cols) (ha : a.inRange (rows * cols)) (hb : b.inRange (rows * cols)) :
    ∃ nb, (SudokuGraph.new rows cols).neighbors a.row a.col = some nb ∧
      (b ∈ nb ↔ b ≠ a ∧ (b.row = a.row ∨ b.col = a.col ∨ sameBlock rows cols a b)) ∧
      a ∉ nb := by
  refine ⟨specPeers rows cols a.row a.col,
    neighbors_new hrows hcols ⟨ha.1, ha.2.1⟩ ⟨ha.2.2.1, ha.2.2.2⟩,
    mem_specPeers_iff hrows hcols hb, ?_⟩
  rw [mem_specPeers_iff hrows hcols ha]
  exact fun h => h.1 rfl

theorem C2_witness :
    ∃ nb, (SudokuGraph.new 2 3).neighbors 3 4 = some nb ∧
      ((⟨2, 5⟩ : Cell) ∈ nb ↔ (⟨2, 5⟩ : Cell) ≠ ⟨3, 4⟩ ∧
        ((2 : Int) = 3 ∨ (5 : Int) = 4 ∨ sameBlock 2 3 ⟨3, 4⟩ ⟨2, 5⟩)) ∧
      (⟨3, 4⟩ : Cell) ∉ nb :=
  C2_mem_neighbors_iff 2 3 ⟨3, 4⟩ ⟨2, 5⟩ (by decide) (by decide) (by decide) (by decide)

/-- Claim C8. For every shape with `blockRows, blockCols ≥ 1` and every in-range cell, the
sequence `neighbors(r, c)` has `(N - 1) + (N - 1) + (blockRows * blockCols - 1)` entries,
duplicates counted. -/
theorem C8_length_neighbors (rows cols r c : Int) (hrows : 1 ≤ rows) (hcols : 1 ≤ cols)
    (hr : 0 ≤ r ∧ r < rows * cols) (hc : 0 ≤ c ∧ c < rows * cols) :
    ∃ nb, (SudokuGraph.new rows cols).neighbors r c = some nb ∧
      (nb.length : Int) = (rows * cols - 1) + (rows * cols - 1) + (rows * cols - 1) := by
  refine ⟨specPeers rows cols r c, neighbors_new hrows hcols hr hc, ?_⟩
  simp only [specPeers, List.length_append, Nat.cast_add]
  rw [length_specRowPeers hc, length_specColPeers hr, length_specBlockPeers hrows hcols]

theorem C8_witness :
    ∃ nb, (SudokuGraph.new 2 3).neighbors 3 4 = some nb ∧
      (nb.length : Int) = (2 * 3 - 1) + (2 * 3 - 1) + (2 * 3 - 1) :=
  C8_length_neighbors 2 3 3 4 (by decide) (by decide) (by decide) (by decide)

theorem sameBlock_symm {rows cols : Int} {a b : Cell} :
    sameBlock rows cols a b ↔ sameBlock rows cols b a := by
  unfold sameBlock
  constructor <;> rintro ⟨h1, h2⟩ <;> exact ⟨h1.symm, h2.symm⟩

/-- Multiplicity of an in-range cell in the specified peer sequence. -/
theorem count_specPeers_eq {rows cols : Int} (hrows : 1 ≤ rows) (hcols : 1 ≤ cols)
    {a b : Cell} (hb : b.inRange (rows * cols)) :
    (specPeers rows cols a.row a.col).count b
      = (if b.row = a.row ∧ b.col ≠ a.col then 1 else 0)
        + (if b.col = a.col ∧ b.row ≠ a.row then 1 else 0)
        + (if b ≠ a ∧ sameBlock rows cols a b then 1 else 0) := by
  obtain ⟨hb1, hb2, hb3, hb4⟩ := hb
  rw [count_specPeers]
  simp only [mem_specRowPeers, mem_specColPeers, mem_specBlockPeers_iff hrows hcols,
    hb1, hb2, hb3, hb4, and_true]

theorem count_specPeers_symm {rows cols : Int} (hrows : 1 ≤ rows) (hcols : 1 ≤ cols)
    {a b : Cell} (ha : a.inRange (rows * cols)) (hb : b.inRange (rows * cols)) :
    (specPeers rows cols a.row a.col).count b = (specPeers rows cols b.row b.col).count a := by
  rw [count_specPeers_eq hrows hcols hb, count_specPeers_eq hrows hcols ha]
  have e1 : (b.row = a.row ∧ b.col ≠ a.col) ↔ (a.row = b.row ∧ a.col ≠ b.col) :=
    ⟨fun h => ⟨h.1.symm, fun e => h.2 e.symm⟩, fun h => ⟨h.1.symm, fun e => h.2 e.symm⟩⟩
  have e2 : (b.col = a.col ∧ b.row ≠ a.row) ↔ (a.col = b.col ∧ a.row ≠ b.row) :=
    ⟨fun h => ⟨h.1.symm, fun e => h.2 e.symm⟩, fun h => ⟨h.1.symm, fun e => h.2 e.symm⟩⟩
  have e3 : (b ≠ a ∧ sameBlock rows cols a b) ↔ (a ≠ b ∧ sameBlock rows cols b a) :=
    ⟨fun h => ⟨fun e => h.1 e.symm, sameBlock_symm.1 h.2⟩,
     fun h => ⟨fun e => h.1 e.symm, sameBlock_symm.1 h.2⟩⟩
  simp only [e1, e2, e3]

theorem mem_specPeers_symm {rows cols : Int} (hrows : 1 ≤ rows) (hcols : 1 ≤ cols)
    {a b : Cell} (ha : a.inRange (rows * cols)) (hb : b.inRange (rows * cols)) :
    b ∈ specPeers rows cols a.row a.col ↔ a ∈ specPeers rows cols b.row b.col := by
  rw [← List.count_pos_iff, ← List.count_pos_iff, count_specPeers_symm hrows hcols ha hb]

/-- Claim C9. The peer relation is symmetric with multiplicity: for in-range cells `a`, `b` of
a board with `blockRows, blockCols ≥ 1`, `b` occurs in `neighbors(a)` as often as `a` occurs
in `neighbors(b)`; in particular `b` is a peer of `a` iff `a` is a peer of `b`. -/
theorem C9_neighbors_symmetric (rows cols : Int) (a b : Cell) (hrows : 1 ≤ rows)
    (hcols : 1 ≤ cols) (ha : a.inRange (rows * cols)) (hb : b.inRange (rows * cols)) :
    ∃ na nb, (SudokuGraph.new rows cols).neighbors a.row a.col = some na ∧
      (SudokuGraph.new rows cols).neighbors b.row b.col = some nb ∧
      na.count b = nb.count a ∧ (b ∈ na ↔ a ∈ nb) :=
  ⟨specPeers rows cols a.row a.col, specPeers rows cols b.row b.col,
    neighbors_new hrows hcols ⟨ha.1, ha.2.1⟩ ⟨ha.2.2.1, ha.2.2.2⟩,
    neighbors_new hrows hcols ⟨hb.1, hb.2.1⟩ ⟨hb.2.2.1, hb.2.2.2⟩,
    count_specPeers_symm hrows hcols ha hb, mem_specPeers_symm hrows hcols ha hb⟩

theorem C9_witness :
    ∃ na nb, (SudokuGraph.new 2 3).neighbors 3 4 = some na ∧
      (SudokuGraph.new 2 3).neighbors 3 5 = some nb ∧
      na.count ⟨3, 5⟩ = nb.count ⟨3, 4⟩ ∧ ((⟨3, 5⟩ : Cell) ∈ na ↔ (⟨3, 4⟩ : Cell) ∈ nb) :=
  C9_neighbors_symmetric 2 3 ⟨3, 4⟩ ⟨3, 5⟩ (by decide) (by decide) (by decide) (by decide)

/-- Claim C10 fails as stated: on the 4×4 board with 2×2 blocks the sequence
`neighbors(0, 0)` lists the cell `(0, 1)` twice (once as a row peer, once as a block peer),
so it is not duplicate-free. -/
theorem C10_counterexample :
    ∃ nb, (SudokuGraph.new 2 2).neighbors 0 0 = some nb ∧ nb.count ⟨0, 1⟩ = 2 ∧
      ¬ nb.Nodup := by
  refine ⟨[⟨0, 1⟩, ⟨0, 2⟩, ⟨0, 3⟩, ⟨1, 0⟩, ⟨2, 0⟩, ⟨3, 0⟩, ⟨0, 1⟩, ⟨1, 0⟩, ⟨1, 1⟩],
    by decide, by decide, by decide⟩

/-- Claim C10, amended. For in-range cells `a`, `b` of a board with `blockRows, blockCols ≥ 1`,
where `b` is a peer of `a` (different from `a` and sharing its row, column or block): `b`
occurs in `neighbors(a)` twice when it lies in the block of `a` and also shares its row or
its column, and once otherwise.  Cells that are not peers do not occur. -/
theorem C10_neighbors_multiplicity (rows cols : Int) (a b : Cell) (hrows : 1 ≤ rows)
    (hcols : 1 ≤ cols) (ha : a.inRange (rows * cols)) (hb : b.inRange (rows * cols)) :
    ∃ nb, (SudokuGraph.new rows cols).neighbors a.row a.col = some nb ∧
      nb.count b =
        if b ≠ a ∧ (b.row = a.row ∨ b.col = a.col ∨ sameBlock rows cols a b) then
          (if sameBlock rows cols a b ∧ (b.row = a.row ∨ b.col = a.col) then 2 else 1)
        else 0 := by
  refine ⟨specPeers rows cols a.row a.col,
    neighbors_new hrows hcols ⟨ha.1, ha.2.1⟩ ⟨ha.2.2.1, ha.2.2.2⟩, ?_⟩
  rw [count_specPeers_eq hrows hcols hb]
  have hne : b ≠ a ↔ ¬ (b.row = a.row ∧ b.col = a.col) := by
    cases a; cases b; simp
  by_cases h1 : b.row = a.row <;> by_cases h2 : b.col = a.col <;>
    by_cases h3 : sameBlock rows cols a b <;> simp [hne, h1, h2, h3]

theorem C10_witness :
    ∃ nb, (SudokuGraph.new 2 3).neighbors 3 4 = some nb ∧
      nb.count ⟨3, 5⟩ =
        if (⟨3, 5⟩ : Cell) ≠ ⟨3, 4⟩ ∧
            ((3 : Int) = 3 ∨ (5 : Int) = 4 ∨ sameBlock 2 3 ⟨3, 4⟩ ⟨3, 5⟩) then
          (if sameBlock 2 3 ⟨3, 4⟩ ⟨3, 5⟩ ∧ ((3 : Int) = 3 ∨ (5 : Int) = 4) then 2 else 1)
        else 0 :=
  C10_neighbors_multiplicity 2 3 ⟨3, 4⟩ ⟨3, 5⟩ (by decide) (by decide) (by decide) (by decide)

/-! ## Candidate values of a cell -/

theorem index_lt {N r c : Int} (hr : 0 ≤ r ∧ r < N) (hc : 0 ≤ c ∧ c < N) :
    0 ≤ N * r + c ∧ N * r + c < N * N := by
  have h1 : N * r ≤ N * (N - 1) := Int.mul_le_mul_of_nonneg_left (by omega) (by omega)
  have h2 : 0 ≤ N * r := Int.mul_nonneg (by omega) hr.1
  rw [Int.mul_sub, Int.mul_one] at h1
  omega

theorem vget_of_nonneg {α : Type} (v : List α) {i : Int} (h : 0 ≤ i) :
    vget v i = v[i.toNat]? := by
  simp [vget, h]

theorem vset_of_lt {α : Type} (v : List α) {i : Int} (a : α) (h : 0 ≤ i)
    (h2 : i.toNat < v.length) : vset v i a = some (v.set i.toNat a) := by
  simp [vset, h, h2]

theorem atCell_eq {P : SudokuPuzzle} {r c : Int} (hr : 0 ≤ r ∧ r < P.N)
    (hc : 0 ≤ c ∧ c < P.N) : P.atCell r c = P.cells[(P.N * r + c).toNat]? := by
  simp only [SudokuPuzzle.atCell, hr, hc, and_self, if_true]
  exact vget_of_nonneg _ (index_lt hr hc).1

theorem atCell_some {P : SudokuPuzzle} (hP : P.WF) {r c : Int} (hr : 0 ≤ r ∧ r < P.N)
    (hc : 0 ≤ c ∧ c < P.N) : ∃ v, P.atCell r c = some v ∧ 0 ≤ v ∧ v ≤ P.N := by
  have hlt : (P.N * r + c).toNat < P.cells.length := by
    rw [hP.length_eq]
    have := index_lt hr hc
    omega
  refine ⟨P.cells[(P.N * r + c).toNat], ?_, hP.range _ (List.getElem_mem _)⟩
  rw [atCell_eq hr hc, List.getElem?_eq_getElem hlt]

theorem inRange_of_mem_specPeers {rows cols r c : Int} (hrows : 1 ≤ rows) (hcols : 1 ≤ cols)
    (hr : 0 ≤ r ∧ r < rows * cols) (hc : 0 ≤ c ∧ c < rows * cols) {b : Cell}
    (hb : b ∈ specPeers rows cols r c) : b.inRange (rows * cols) := by
  simp only [specPeers, List.mem_append, mem_specRowPeers, mem_specColPeers,
    mem_specBlockPeers] at hb
  unfold Cell.inRange
  rcases hb with (⟨h1, _, h3, h4⟩ | ⟨h1, _, h3, h4⟩) | ⟨_, h2, h3⟩
  · omega
  · omega
  · have er : r - r % rows = rows * (r / rows) := by
      have := Int.ediv_add_emod r rows
      omega
    have ec : c - c % cols = cols * (c / cols) := by
      have := Int.ediv_add_emod c cols
      omega
    have qr0 : 0 ≤ r / rows := Int.ediv_nonneg hr.1 (by omega)
    have qc0 : 0 ≤ c / cols := Int.ediv_nonneg hc.1 (by omega)
    have qr1 : r / rows < cols := by
      apply Int.ediv_lt_of_lt_mul (by omega)
      rw [Int.mul_comm]; exact hr.2
    have qc1 : c / cols < rows := by
      apply Int.ediv_lt_of_lt_mul (by omega)
      exact hc.2
    have m1 : rows * (r / rows) ≤ rows * (cols - 1) :=
      Int.mul_le_mul_of_nonneg_left (by omega) (by omega)
    have m2 : cols * (c / cols) ≤ cols * (rows - 1) :=
      Int.mul_le_mul_of_nonneg_left (by omega) (by omega)
    have m3 : 0 ≤ rows * (r / rows) := Int.mul_nonneg (by omega) qr0
    have m4 : 0 ≤ cols * (c / cols) := Int.mul_nonneg (by omega) qc0
    rw [Int.mul_sub, Int.mul_one] at m1 m2
    rw [Int.mul_comm cols rows] at m2
    rw [er] at h2
    rw [ec] at h3
    omega

theorem neighbors_wf {P : SudokuPuzzle} (hP : P.WF) {r c : Int} (hr : 0 ≤ r ∧ r < P.N)
    (hc : 0 ≤ c ∧ c < P.N) :
    P.graph.neighbors r c = some (specPeers P.rows P.cols r c) := by
  rw [hP.graph_eq]
  rw [hP.N_eq] at hr hc
  exact neighbors_new hP.rows_pos hP.cols_pos hr hc

/-- Every peer of an in-range cell can be read, and holds a value in `[0, N]`. -/
theorem atCell_peer {P : SudokuPuzzle} (hP : P.WF) {r c : Int} (hr : 0 ≤ r ∧ r < P.N)
    (hc : 0 ≤ c ∧ c < P.N) {b : Cell} (hb : b ∈ specPeers P.rows P.cols r c) :
    ∃ v, P.atCell b.row b.col = some v ∧ 0 ≤ v ∧ v ≤ P.N := by
  rw [hP.N_eq] at hr hc
  have := inRange_of_mem_specPeers hP.rows_pos hP.cols_pos hr hc hb
  rw [← hP.N_eq] at this
  exact atCell_some hP ⟨this.1, this.2.1⟩ ⟨this.2.2.1, this.2.2.2⟩

theorem eliminate_nil (P : SudokuPuzzle) (possible : List Bool) :
    P.eliminate [] possible = some possible := rfl

theorem eliminate_cons (P : SudokuPuzzle) (cell : Cell) (nb : List Cell)
    (possible : List Bool) :
    P.eliminate (cell :: nb) possible =
      (P.atCell cell.row cell.col).bind (fun val =>
        (if val > 0 then vset possible (val - 1) false else some possible).bind
          (fun p => P.eliminate nb p)) := by
  simp only [SudokuPuzzle.eliminate, List.foldlM_cons]
  cases P.atCell cell.row cell.col <;> rfl

/-- The elimination loop succeeds and clears exactly the flags of the values held by the
cells it visits. -/
theorem eliminate_spec (P : SudokuPuzzle) (nb : List Cell) (possible : List Bool)
    (H : ∀ cell ∈ nb, ∃ v, P.atCell cell.row cell.col = some v ∧ v ≤ (possible.length : Int)) :
    ∃ p, P.eliminate nb possible = some p ∧ p.length = possible.length ∧
      ∀ i : Nat, p[i]? = some true ↔
        (possible[i]? = some true ∧ P.unheld nb ((i : Int) + 1)) := by
  induction nb generalizing possible with
  | nil =>
    exact ⟨possible, rfl, rfl, fun i => by simp [SudokuPuzzle.unheld]⟩
  | cons cell nb ih =>
    obtain ⟨v, hv, hvle⟩ := H cell (List.mem_cons_self _ _)
    rw [eliminate_cons, hv, Option.some_bind]
    by_cases hpos : v > 0
    · have hset : vset possible (v - 1) false = some (possible.set (v - 1).toNat false) :=
        vset_of_lt _ _ (by omega) (by omega)
      rw [if_pos hpos, hset, Option.some_bind]
      obtain ⟨p, hp, hlen, hiff⟩ := ih (possible.set (v - 1).toNat false) (by
        intro b hb
        obtain ⟨w, hw, hwle⟩ := H b (List.mem_cons_of_mem _ hb)
        exact ⟨w, hw, by simpa using hwle⟩)
      refine ⟨p, hp, by simpa using hlen, fun i => ?_⟩
      rw [hiff i]
      have hkv : ((v - 1).toNat : Int) = v - 1 := by omega
      have hklt : (v - 1).toNat < possible.length := by omega
      generalize (v - 1).toNat = k at hkv hklt
      simp only [SudokuPuzzle.unheld, List.mem_cons, forall_eq_or_imp, hv, ne_eq,
        Option.some.injEq, List.getElem?_set]
      by_cases hi : k = i
      · have : v = (i : Int) + 1 := by omega
        simp [hi, this]
      · have : ¬ v = (i : Int) + 1 := by omega
        simp [hi, this]
    · rw [if_neg hpos, Option.some_bind]
      obtain ⟨p, hp, hlen, hiff⟩ := ih possible (fun b hb => H b (List.mem_cons_of_mem _ hb))
      refine ⟨p, hp, hlen, fun i => ?_⟩
      rw [hiff i]
      have : ¬ v = (i : Int) + 1 := by omega
      simp [SudokuPuzzle.unheld, hv, this]

theorem foldlM_log (l init : List Int) :
    l.foldlM (fun log v => some (log ++ [v])) init = some (init ++ l) := by
  induction l generalizing init with
  | nil => simp
  | cons a l ih =>
    rw [List.foldlM_cons]
    show (some (init ++ [a])).bind _ = _
    rw [Option.some_bind, ih]
    simp

/-- The visiting loop calls `f` on the values whose flag is set, in list order. -/
theorem visit_loop {σ : Type} (p : List Bool) (Q : Int → Prop) [DecidablePred Q]
    (f : Int → σ → Option σ) (l : List Int)
    (H : ∀ val ∈ l, ∃ b, vget p (val - 1) = some b ∧ (b = true ↔ Q val)) (st : σ) :
    l.foldlM (fun st val => do
        let b ← vget p (val - 1)
        if b then f val st else some st) st
      = (l.filter (fun v => decide (Q v))).foldlM (fun st v => f v st) st := by
  induction l generalizing st with
  | nil => rfl
  | cons a l ih =>
    obtain ⟨b, hb, hbQ⟩ := H a (List.mem_cons_self _ _)
    have ih2 := fun st => ih (fun val hval => H val (List.mem_cons_of_mem _ hval)) st
    rw [List.foldlM_cons, List.filter_cons]
    simp only [hb]
    show (Option.bind (some b) _).bind _ = _
    rw [Option.some_bind]
    cases b with
    | true =>
      have hQ : Q a := hbQ.1 rfl
      simp only [hQ, decide_True, if_true, List.foldlM_cons]
      show (f a st).bind _ = (f a st).bind _
      congr 1
      funext st2
      exact ih2 st2
    | false =>
      have hQ : ¬ Q a := fun h => by simpa using hbQ.2 h
      simp only [hQ, decide_False, Bool.false_eq_true, if_false]
      show (some st).bind _ = _
      rw [Option.some_bind]
      exact ih2 st

theorem mem_oneToN {N v : Int} :
    v ∈ (intRange N).map (fun i => i + 1) ↔ 1 ≤ v ∧ v ≤ N := by
  simp only [List.mem_map, mem_intRange]
  constructor
  · rintro ⟨i, hi, rfl⟩
    omega
  · intro h
    exact ⟨v - 1, by omega, by omega⟩

theorem pairwise_oneToN (N : Int) : ((intRange N).map (fun i => i + 1)).Pairwise (· < ·) := by
  unfold intRange
  rw [List.map_map, List.pairwise_map]
  apply List.Pairwise.imp _ (List.pairwise_lt_range N.toNat)
  intro a b hab
  simp only [Function.comp, Int.ofNat_eq_coe]
  omega

/-- The flags left by the elimination loop, started from all-true, mark the unheld values. -/
theorem eliminate_wf {P : SudokuPuzzle} (hP : P.WF) {r c : Int} (hr : 0 ≤ r ∧ r < P.N)
    (hc : 0 ≤ c ∧ c < P.N) :
    ∃ p, P.eliminate (specPeers P.rows P.cols r c) (List.replicate P.N.toNat true) = some p ∧
      p.length = P.N.toNat ∧
      ∀ i : Nat, i < P.N.toNat →
        (p[i]? = some true ↔ P.unheld (specPeers P.rows P.cols r c) ((i : Int) + 1)) := by
  obtain ⟨p, hp, hlen, hiff⟩ := eliminate_spec P (specPeers P.rows P.cols r c)
    (List.replicate P.N.toNat true) (by
      intro b hb
      obtain ⟨v, hv, _, hv2⟩ := atCell_peer hP hr hc hb
      refine ⟨v, hv, ?_⟩
      rw [List.length_replicate]
      omega)
  rw [List.length_replicate] at hlen
  refine ⟨p, hp, hlen, fun i hi => ?_⟩
  rw [hiff i]
  simp [List.getElem?_replicate, hi]

theorem flags_oneToN {P : SudokuPuzzle} {nb : List Cell} {p : List Bool}
    (hlen : p.length = P.N.toNat)
    (hiff : ∀ i : Nat, i < P.N.toNat → (p[i]? = some true ↔ P.unheld nb ((i : Int) + 1))) :
    ∀ val ∈ (intRange P.N).map (fun i => i + 1),
      ∃ b, vget p (val - 1) = some b ∧ (b = true ↔ P.unheld nb val) := by
  intro val hval
  rw [mem_oneToN] at hval
  have hi : (val - 1).toNat < p.length := by omega
  refine ⟨p[(val - 1).toNat], ?_, ?_⟩
  · rw [vget_of_nonneg _ (by omega), List.getElem?_eq_getElem hi]
  · have := hiff (val - 1).toNat (by omega)
    rw [List.getElem?_eq_getElem hi, Option.some.injEq] at this
    rw [this]
    have e : (((val - 1).toNat : Nat) : Int) + 1 = val := by omega
    rw [e]

/-- The enumeration runs the callback over the candidate values of the specification. -/
theorem forAllPossibleValuesOf_eq {σ : Type} {P : SudokuPuzzle} (hP : P.WF) {r c : Int}
    (hr : 0 ≤ r ∧ r < P.N) (hc : 0 ≤ c ∧ c < P.N) (f : Int → σ → Option σ) (st : σ) :
    P.forAllPossibleValuesOf r c f st
      = (P.candidates (specPeers P.rows P.cols r c)).foldlM (fun st v => f v st) st := by
  obtain ⟨p, hp, hlen, hiff⟩ := eliminate_wf hP hr hc
  unfold SudokuPuzzle.forAllPossibleValuesOf
  rw [neighbors_wf hP hr hc]
  show (Option.bind (some _) _) = _
  rw [Option.some_bind, hp]
  show (Option.bind (some _) _) = _
  rw [Option.some_bind]
  exact visit_loop p (P.unheld (specPeers P.rows P.cols r c)) f _
    (flags_oneToN hlen hiff) st

theorem visited_eq {P : SudokuPuzzle} (hP : P.WF) {r c : Int}
    (hr : 0 ≤ r ∧ r < P.N) (hc : 0 ≤ c ∧ c < P.N) :
    P.visited r c = some (P.candidates (specPeers P.rows P.cols r c)) := by
  unfold SudokuPuzzle.visited
  rw [forAllPossibleValuesOf_eq hP hr hc, foldlM_log]
  simp

theorem mem_candidates {P : SudokuPuzzle} {nb : List Cell} {v : Int} :
    v ∈ P.candidates nb ↔ 1 ≤ v ∧ v ≤ P.N ∧ P.unheld nb v := by
  simp only [SudokuPuzzle.candidates, List.mem_filter, mem_oneToN, decide_eq_true_eq]
  tauto

theorem pairwise_candidates (P : SudokuPuzzle) (nb : List Cell) :
    (P.candidates nb).Pairwise (· < ·) :=
  (pairwise_oneToN P.N).filter _

/-- Claim C6. For a grid of `N * N` values in `[0, N]` and an in-range cell `(r, c)`,
`forAllPossibleValuesOf(r, c, visit)` runs without fault and calls `visit` on a strictly
ascending sequence of values (so each at most once) that consists exactly of the values
`v` in `[1, N]` held by no cell of `neighbors(r, c)`; for any callback, the effect is that
of calling it on these values in this order. -/
theorem C6_forAllPossibleValuesOf (P : SudokuPuzzle) (r c : Int) (hP : P.WF)
    (hr : 0 ≤ r ∧ r < P.N) (hc : 0 ≤ c ∧ c < P.N) :
    ∃ nb vs, P.graph.neighbors r c = some nb ∧ P.visited r c = some vs ∧
      vs.Pairwise (· < ·) ∧
      (∀ v, v ∈ vs ↔ 1 ≤ v ∧ v ≤ P.N ∧ ∀ cell ∈ nb, P.atCell cell.row cell.col ≠ some v) ∧
      ∀ (σ : Type) (f : Int → σ → Option σ) (st : σ),
        P.forAllPossibleValuesOf r c f st = vs.foldlM (fun st v => f v st) st :=
  ⟨specPeers P.rows P.cols r c, P.candidates (specPeers P.rows P.cols r c),
    neighbors_wf hP hr hc, visited_eq hP hr hc, pairwise_candidates _ _,
    fun _ => mem_candidates, fun _ f st => forAllPossibleValuesOf_eq hP hr hc f st⟩

theorem examplePuzzle_wf : examplePuzzle.WF :=
  ⟨by decide, by decide, rfl, rfl, by decide, by decide⟩

theorem C6_witness :
    (∃ nb vs, examplePuzzle.graph.neighbors 1 1 = some nb ∧
      examplePuzzle.visited 1 1 = some vs ∧ vs.Pairwise (· < ·) ∧
      (∀ v, v ∈ vs ↔ 1 ≤ v ∧ v ≤ examplePuzzle.N ∧
        ∀ cell ∈ nb, examplePuzzle.atCell cell.row cell.col ≠ some v) ∧
      ∀ (σ : Type) (f : Int → σ → Option σ) (st : σ),
        examplePuzzle.forAllPossibleValuesOf 1 1 f st = vs.foldlM (fun st v => f v st) st) ∧
    examplePuzzle.visited 1 1 = some [2] :=
  ⟨C6_forAllPossibleValuesOf examplePuzzle 1 1 examplePuzzle_wf (by decide) (by decide),
   by decide⟩

theorem count_set_false {l : List Bool} {k : Nat} (h : l[k]? = some true) :
    ((l.set k false).count true : Int) = (l.count true : Int) - 1 := by
  induction l generalizing k with
  | nil => simp at h
  | cons a l ih =>
    cases k with
    | zero =>
      simp only [List.getElem?_cons_zero, Option.some.injEq] at h
      subst h
      simp [List.count_cons]
    | succ k =>
      simp only [List.getElem?_cons_succ] at h
      have := ih h
      simp only [List.set_cons_succ, List.count_cons, Nat.cast_add]
      omega

theorem set_false_of_false {l : List Bool} {k : Nat} (h : l[k]? = some false) :
    l.set k false = l := by
  induction l generalizing k with
  | nil => simp
  | cons a l ih =>
    cases k with
    | zero =>
      simp only [List.getElem?_cons_zero, Option.some.injEq] at h
      subst h
      rfl
    | succ k =>
      simp only [List.getElem?_cons_succ] at h
      simp [ih h]

theorem countStep_eq (P : SudokuPuzzle) (cnt : Int) (possible : List Bool) (cell : Cell) :
    P.countStep (cnt, possible) cell =
      (P.atCell cell.row cell.col).bind (fun val =>
        if val > 0 then
          (vget possible (val - 1)).bind (fun b =>
            if b then (vset possible (val - 1) false).bind (fun p => some (cnt - 1, p))
            else some (cnt, possible))
        else some (cnt, possible)) := rfl

/-- The counting loop keeps `count` in step with the number of flags still set, and its
flags are those of the elimination loop. -/
theorem count_loop (P : SudokuPuzzle) (nb : List Cell) (possible : List Bool) (cnt : Int)
    (H : ∀ cell ∈ nb, ∃ v, P.atCell cell.row cell.col = some v ∧ v ≤ (possible.length : Int)) :
    ∃ p, P.eliminate nb possible = some p ∧
      nb.foldlM P.countStep (cnt, possible)
        = some (cnt - (possible.count true : Int) + (p.count true : Int), p) := by
  induction nb generalizing possible cnt with
  | nil =>
    refine ⟨possible, rfl, ?_⟩
    simp only [List.foldlM_nil]
    show some (cnt, possible) = _
    congr 2
    omega
  | cons cell nb ih =>
    obtain ⟨v, hv, hvle⟩ := H cell (List.mem_cons_self _ _)
    have Hrest : ∀ (q : List Bool), q.length = possible.length →
        ∀ b ∈ nb, ∃ w, P.atCell b.row b.col = some w ∧ w ≤ (q.length : Int) := by
      intro q hq b hb
      obtain ⟨w, hw, hwle⟩ := H b (List.mem_cons_of_mem _ hb)
      exact ⟨w, hw, by rw [hq]; exact hwle⟩
    have hstep : (cell :: nb).foldlM P.countStep (cnt, possible)
        = (P.countStep (cnt, possible) cell).bind (fun acc => nb.foldlM P.countStep acc) :=
      List.foldlM_cons _ _ _ _
    rw [eliminate_cons, hv, Option.some_bind, hstep, countStep_eq, hv, Option.some_bind]
    by_cases hpos : v > 0
    · have hk : (v - 1).toNat < possible.length := by omega
      have hset : vset possible (v - 1) false = some (possible.set (v - 1).toNat false) :=
        vset_of_lt _ _ (by omega) hk
      have hget : vget possible (v - 1) = some (possible[(v - 1).toNat]) := by
        rw [vget_of_nonneg _ (by omega), List.getElem?_eq_getElem hk]
      have hget2 : possible[(v - 1).toNat]? = some (possible[(v - 1).toNat]) :=
        List.getElem?_eq_getElem hk
      rw [if_pos hpos, if_pos hpos, hset, hget, Option.some_bind, Option.some_bind]
      generalize possible[(v - 1).toNat] = b at hget2
      cases b with
      | true =>
        obtain ⟨p, hp, hfold⟩ := ih (possible.set (v - 1).toNat false) (cnt - 1)
          (Hrest _ (by simp))
        refine ⟨p, hp, ?_⟩
        rw [if_pos rfl, Option.some_bind, Option.some_bind, hfold, count_set_false hget2]
        congr 2
        omega
      | false =>
        rw [set_false_of_false hget2]
        obtain ⟨p, hp, hfold⟩ := ih possible cnt (Hrest _ rfl)
        refine ⟨p, hp, ?_⟩
        rw [if_neg (by simp), Option.some_bind]
        exact hfold
    · rw [if_neg hpos, if_neg hpos, Option.some_bind, Option.some_bind]
      exact ih possible cnt (Hrest _ rfl)

theorem count_true_eq (p : List Bool) :
    p.count true = ((List.range p.length).filter (fun i => decide (p[i]? = some true))).length := by
  induction p using List.reverseRecOn with
  | nil => rfl
  | append_singleton p b ih =>
    rw [List.length_append, List.length_singleton, List.range_succ, List.filter_append,
      List.length_append, List.count_append, ih]
    congr 1
    · congr 1
      apply List.filter_congr
      intro i hi
      rw [List.mem_range] at hi
      rw [List.getElem?_append_left hi]
    · cases b <;> simp

theorem length_candidates {P : SudokuPuzzle} {nb : List Cell} {p : List Bool}
    (hlen : p.length = P.N.toNat)
    (hiff : ∀ i : Nat, i < P.N.toNat → (p[i]? = some true ↔ P.unheld nb ((i : Int) + 1))) :
    (P.candidates nb).length = p.count true := by
  rw [count_true_eq, hlen]
  simp only [SudokuPuzzle.candidates, intRange, List.map_map, List.filter_map,
    List.length_map]
  congr 1
  apply List.filter_congr
  intro i hi
  rw [List.mem_range] at hi
  simp only [Function.comp, Int.ofNat_eq_coe, decide_eq_decide]
  exact (hiff i hi).symm

theorem countPossibleValuesOf_eq {P : SudokuPuzzle} (hP : P.WF) {r c : Int}
    (hr : 0 ≤ r ∧ r < P.N) (hc : 0 ≤ c ∧ c < P.N) :
    P.countPossibleValuesOf r c
      = some ((P.candidates (specPeers P.rows P.cols r c)).length : Int) := by
  obtain ⟨p, hp, hlen, hiff⟩ := eliminate_wf hP hr hc
  obtain ⟨q, hq, hfold⟩ := count_loop P (specPeers P.rows P.cols r c)
    (List.replicate P.N.toNat true) P.N (by
      intro b hb
      obtain ⟨v, hv, _, hv2⟩ := atCell_peer hP hr hc hb
      refine ⟨v, hv, ?_⟩
      rw [List.length_replicate]
      omega)
  rw [hp, Option.some.injEq] at hq
  subst hq
  unfold SudokuPuzzle.countPossibleValuesOf
  rw [neighbors_wf hP hr hc]
  show (Option.bind (some _) _) = _
  rw [Option.some_bind, hfold]
  show some _ = some _
  rw [length_candidates hlen hiff]
  have hN : 0 ≤ P.N := by omega
  simp only [List.count_replicate_self, Option.some.injEq]
  omega

/-- Claim C7. For a grid of `N * N` values in `[0, N]` and an in-range cell `(r, c)`,
`countPossibleValuesOf(r, c)` returns the number of values that
`forAllPossibleValuesOf(r, c, visit)` passes to `visit`. -/
theorem C7_count_eq_visited (P : SudokuPuzzle) (r c : Int) (hP : P.WF)
    (hr : 0 ≤ r ∧ r < P.N) (hc : 0 ≤ c ∧ c < P.N) :
    ∃ vs, P.visited r c = some vs ∧ P.countPossibleValuesOf r c = some (vs.length : Int) :=
  ⟨P.candidates (specPeers P.rows P.cols r c), visited_eq hP hr hc,
    countPossibleValuesOf_eq hP hr hc⟩

theorem C7_witness :
    (∃ vs, examplePuzzle.visited 0 1 = some vs ∧
      examplePuzzle.countPossibleValuesOf 0 1 = some (vs.length : Int)) ∧
    examplePuzzle.countPossibleValuesOf 0 1 = some 2 :=
  ⟨C7_count_eq_visited examplePuzzle 0 1 examplePuzzle_wf (by decide) (by decide),
   by decide⟩

/-! ## Grids and cell indices -/

theorem cellIndex_lt {N : Int} {a : Cell} (ha : a.inRange N) :
    cellIndex N a < (N * N).toNat := by
  have := index_lt (N := N) ⟨ha.1, ha.2.1⟩ ⟨ha.2.2.1, ha.2.2.2⟩
  unfold cellIndex
  omega

theorem cellIndex_inj {N : Int} {a b : Cell} (ha : a.inRange N) (hb : b.inRange N)
    (h : cellIndex N a = cellIndex N b) : a = b := by
  obtain ⟨a1, a2, a3, a4⟩ := ha
  obtain ⟨b1, b2, b3, b4⟩ := hb
  have ia := index_lt (N := N) ⟨a1, a2⟩ ⟨a3, a4⟩
  have ib := index_lt (N := N) ⟨b1, b2⟩ ⟨b3, b4⟩
  have e : N * a.row + a.col = N * b.row + b.col := by
    unfold cellIndex at h
    omega
  have hrow : a.row = b.row := by
    rcases Int.lt_trichotomy a.row b.row with hlt | heq | hgt
    · have := Int.mul_le_mul_of_nonneg_left (show a.row + 1 ≤ b.row by omega)
        (show 0 ≤ N by omega)
      rw [Int.mul_add, Int.mul_one] at this
      omega
    · exact heq
    · have := Int.mul_le_mul_of_nonneg_left (show b.row + 1 ≤ a.row by omega)
        (show 0 ≤ N by omega)
      rw [Int.mul_add, Int.mul_one] at this
      omega
  have hcol : a.col = b.col := by
    rw [hrow] at e
    omega
  cases a; cases b
  simp only [Cell.mk.injEq]
  exact ⟨hrow, hcol⟩

theorem mem_allCells {N : Int} {a : Cell} : a ∈ allCells N ↔ a.inRange N := by
  simp only [allCells, List.mem_flatMap, List.mem_map, mem_intRange, Cell.inRange]
  constructor
  · rintro ⟨r, hr, c, hc, rfl⟩
    exact ⟨hr.1, hr.2, hc.1, hc.2⟩
  · rintro ⟨h1, h2, h3, h4⟩
    exact ⟨a.row, ⟨h1, h2⟩, a.col, ⟨h3, h4⟩, rfl⟩

/-- Every position of the cell vector is the index of an in-range cell. -/
theorem exists_cell_of_index {N : Int} (hN : 1 ≤ N) {i : Nat} (hi : i < (N * N).toNat) :
    ∃ a : Cell, a.inRange N ∧ cellIndex N a = i := by
  have hn : (N.toNat : Int) = N := Int.toNat_of_nonneg (by omega)
  have hnn : (N * N).toNat = N.toNat * N.toNat := by
    have : N * N = ((N.toNat * N.toNat : Nat) : Int) := by push_cast; rw [hn]
    rw [this, Int.toNat_ofNat]
  rw [hnn] at hi
  have hpos : 0 < N.toNat := by omega
  have hq : i / N.toNat < N.toNat := Nat.div_lt_of_lt_mul hi
  have hm : i % N.toNat < N.toNat := Nat.mod_lt _ hpos
  have hdm : N.toNat * (i / N.toNat) + i % N.toNat = i := Nat.div_add_mod i N.toNat
  generalize i / N.toNat = q at hq hdm
  generalize i % N.toNat = m at hm hdm
  refine ⟨⟨(q : Nat), (m : Nat)⟩, ?_, ?_⟩
  · unfold Cell.inRange
    dsimp only
    omega
  unfold cellIndex
  dsimp only
  have : N * (q : Int) + (m : Int) = ((N.toNat * q + m : Nat) : Int) := by
    push_cast; rw [hn]
  rw [this, Int.toNat_ofNat]
  exact hdm

theorem atCell_eq_index {P : SudokuPuzzle} {a : Cell} (ha : a.inRange P.N) :
    P.atCell a.row a.col = P.cells[cellIndex P.N a]? :=
  atCell_eq ⟨ha.1, ha.2.1⟩ ⟨ha.2.2.1, ha.2.2.2⟩

/-- Two nested loops over `intRange N` visit the cells of `allCells N` in order. -/
theorem foldlM_nested {σ : Type} (step : Int → Int → σ → Option σ) (N : Int) (l : List Int)
    (init : σ) :
    l.foldlM (fun st r => (intRange N).foldlM (fun st c => step r c st) st) init
      = (l.flatMap (fun r => (intRange N).map (fun c => (⟨r, c⟩ : Cell)))).foldlM
          (fun st a => step a.row a.col st) init := by
  induction l generalizing init with
  | nil => rfl
  | cons r l ih =>
    rw [List.foldlM_cons, List.flatMap_cons, List.foldlM_append, List.foldlM_map]
    show Option.bind _ _ = Option.bind _ _
    congr 1
    funext st
    exact ih st

/-- A loop invariant indexed by the prefix already processed. -/
theorem foldlM_invariant {α σ : Type} (step : σ → α → Option σ) (Inv : List α → σ → Prop)
    (l : List α)
    (hstep : ∀ pre a st, a ∈ l → Inv pre st → ∃ st2, step st a = some st2 ∧ Inv (pre ++ [a]) st2)
    (pre : List α) (init : σ) (h0 : Inv pre init) (rest : List α) (hrest : ∀ a ∈ rest, a ∈ l) :
    ∃ st, rest.foldlM step init = some st ∧ Inv (pre ++ rest) st := by
  induction rest generalizing pre init with
  | nil => exact ⟨init, rfl, by simpa using h0⟩
  | cons a rest ih =>
    obtain ⟨st2, h2, hinv⟩ := hstep pre a init (hrest a (List.mem_cons_self _ _)) h0
    obtain ⟨st, h3, hinv3⟩ := ih (pre ++ [a]) st2 hinv
      (fun b hb => hrest b (List.mem_cons_of_mem _ hb))
    refine ⟨st, ?_, by simpa using hinv3⟩
    rw [List.foldlM_cons, h2]
    exact h3

/-! ## The scan of `solve` -/

theorem numCandidates_le (P : SudokuPuzzle) (a : Cell) :
    (P.numCandidates a : Int) ≤ max P.N 0 := by
  have h : P.numCandidates a ≤ P.N.toNat := by
    unfold SudokuPuzzle.numCandidates SudokuPuzzle.candidates
    refine (List.length_filter_le _ _).trans ?_
    rw [List.length_map, length_intRange]
  omega

theorem scanStep_running (S : PuzzleSolver) (r c lc row col : Int) :
    S.scanStep r c (Scan.running lc row col) =
      (S.candidate.atCell r c).bind (fun v =>
        if v = 0 then
          (S.candidate.countPossibleValuesOf r c).bind (fun count =>
            if count = 0 then some Scan.deadEnd
            else if lc > count then some (Scan.running count r c)
            else some (Scan.running lc row col))
        else some (Scan.running lc row col)) := rfl

theorem scanStep_inv {S : PuzzleSolver} (hS : S.WF) (pre : List Cell) (a : Cell) (st : Scan)
    (ha : a ∈ allCells S.candidate.N) (hinv : ScanInv S.candidate pre st) :
    ∃ st2, S.scanStep a.row a.col st = some st2 ∧ ScanInv S.candidate (pre ++ [a]) st2 := by
  have hP := hS.cand
  rw [mem_allCells] at ha
  have hr : 0 ≤ a.row ∧ a.row < S.candidate.N := ⟨ha.1, ha.2.1⟩
  have hc : 0 ≤ a.col ∧ a.col < S.candidate.N := ⟨ha.2.2.1, ha.2.2.2⟩
  cases st with
  | deadEnd =>
    obtain ⟨b, hb, hb2⟩ := hinv
    exact ⟨Scan.deadEnd, rfl, b, List.mem_append_left _ hb, hb2⟩
  | running lc row col =>
    obtain ⟨hmin, hsel⟩ := hinv
    obtain ⟨v, hv, _, _⟩ := atCell_some hP hr hc
    rw [scanStep_running, hv, Option.some_bind]
    by_cases hv0 : v = 0
    · subst hv0
      rw [if_pos rfl, countPossibleValuesOf_eq hP hr hc, Option.some_bind]
      have hnum : (S.candidate.candidates
          (specPeers S.candidate.rows S.candidate.cols a.row a.col)).length
          = S.candidate.numCandidates a := rfl
      rw [hnum]
      have hle := numCandidates_le S.candidate a
      have hN : 0 ≤ S.candidate.N := by omega
      by_cases h0 : (S.candidate.numCandidates a : Int) = 0
      · rw [if_pos h0]
        exact ⟨Scan.deadEnd, rfl, a, by simp, hv, by omega⟩
      · rw [if_neg h0]
        by_cases hlt : lc > (S.candidate.numCandidates a : Int)
        · rw [if_pos hlt]
          refine ⟨_, rfl, ?_, Or.inr ⟨by simp, hv, rfl⟩⟩
          intro b hb hb0
          rcases List.mem_append.1 hb with hb | hb
          · have := hmin b hb hb0
            omega
          · rw [List.mem_singleton] at hb
            subst hb
            omega
        · rw [if_neg hlt]
          refine ⟨_, rfl, ?_, ?_⟩
          · intro b hb hb0
            rcases List.mem_append.1 hb with hb | hb
            · exact hmin b hb hb0
            · rw [List.mem_singleton] at hb
              subst hb
              omega
          · rcases hsel with ⟨_, _, h3, _⟩ | ⟨h1, h2, h3⟩
            · omega
            · exact Or.inr ⟨List.mem_append_left _ h1, h2, h3⟩
    · rw [if_neg hv0]
      have hne : S.candidate.atCell a.row a.col ≠ some 0 := by
        rw [hv]
        simpa using hv0
      refine ⟨_, rfl, ?_, ?_⟩
      · intro b hb hb0
        rcases List.mem_append.1 hb with hb | hb
        · exact hmin b hb hb0
        · rw [List.mem_singleton] at hb
          subst hb
          exact absurd hb0 hne
      · rcases hsel with ⟨h1, h2, h3, h4⟩ | ⟨h1, h2, h3⟩
        · refine Or.inl ⟨h1, h2, h3, ?_⟩
          intro b hb
          rcases List.mem_append.1 hb with hb | hb
          · exact h4 b hb
          · rw [List.mem_singleton] at hb
            subst hb
            exact hne
        · exact Or.inr ⟨List.mem_append_left _ h1, h2, h3⟩

/-- The scan returns, and its result satisfies the invariant for all cells of the board. -/
theorem scan_spec {S : PuzzleSolver} (hS : S.WF) :
    ∃ st, S.scan = some st ∧ ScanInv S.candidate (allCells S.candidate.N) st := by
  unfold PuzzleSolver.scan
  rw [foldlM_nested (fun r c st => S.scanStep r c st), hS.N_eq]
  have := foldlM_invariant (fun st (a : Cell) => S.scanStep a.row a.col st)
    (ScanInv S.candidate) (allCells S.candidate.N)
    (fun pre a st ha hinv => scanStep_inv hS pre a st ha hinv) []
    (Scan.running (S.candidate.N + 1) (-1) (-1))
    ⟨by simp, Or.inl ⟨rfl, rfl, rfl, by simp⟩⟩ (allCells S.candidate.N) (fun _ h => h)
  simpa [allCells] using this

/-! ## Printing and complete grids -/

theorem length_allCells (N : Int) : (allCells N).length = N.toNat * N.toNat := by
  simp [allCells, List.length_flatMap, Function.comp_def, length_intRange]

theorem toNat_mul_self {N : Int} (hN : 0 ≤ N) : (N * N).toNat = N.toNat * N.toNat := by
  have hn : (N.toNat : Int) = N := Int.toNat_of_nonneg hN
  have : N * N = ((N.toNat * N.toNat : Nat) : Int) := by push_cast; rw [hn]
  rw [this, Int.toNat_ofNat]

/-- The cell at position `cellIndex N a` of `allCells N` is `a`. -/
theorem getElem?_allCells {N : Int} {a : Cell} (ha : a.inRange N) :
    (allCells N)[cellIndex N a]? = some a := by
  obtain ⟨h1, h2, h3, h4⟩ := ha
  have hidx : cellIndex N a = (intRange N).length * a.row.toNat + a.col.toNat := by
    rw [length_intRange]
    unfold cellIndex
    have e1 : (N.toNat : Int) = N := Int.toNat_of_nonneg (by omega)
    have e2 : (a.row.toNat : Int) = a.row := Int.toNat_of_nonneg h1
    have e3 : (a.col.toNat : Int) = a.col := Int.toNat_of_nonneg h3
    have : N * a.row + a.col = ((N.toNat * a.row.toNat + a.col.toNat : Nat) : Int) := by
      push_cast; rw [e1, e2, e3]
    rw [this, Int.toNat_ofNat]
  have gr : (intRange N)[a.row.toNat]? = some a.row := by
    rw [getElem?_intRange (by omega)]; congr 1; omega
  have gc : (intRange N)[a.col.toNat]? = some a.col := by
    rw [getElem?_intRange (by omega)]; congr 1; omega
  rw [hidx]
  exact getElem?_flatMap_map (fun r c => (⟨r, c⟩ : Cell)) _ _ _ _ a.row a.col gr gc

/-- Reading all cells in row-major order gives back the cell vector. -/
theorem map_allCells_cells {P : SudokuPuzzle} (hP : P.WF) :
    (allCells P.N).map (fun a => P.cells.getD (cellIndex P.N a) 0) = P.cells := by
  have hN : 1 ≤ P.N := by
    rw [hP.N_eq]
    exact Int.mul_pos (by have := hP.rows_pos; omega) (by have := hP.cols_pos; omega)
  have hlen : P.cells.length = P.N.toNat * P.N.toNat := by
    rw [hP.length_eq, toNat_mul_self (by omega)]
  apply List.ext_getElem?
  intro i
  by_cases hi : i < P.cells.length
  · obtain ⟨a, ha, rfl⟩ := exists_cell_of_index hN (by rw [← hP.length_eq]; exact hi)
    rw [List.getElem?_map, getElem?_allCells ha, Option.map_some', List.getD_eq_getElem?_getD,
      List.getElem?_eq_getElem hi]
    rfl
  · rw [List.getElem?_eq_none (by rw [List.length_map, length_allCells]; omega),
      List.getElem?_eq_none (by omega)]

theorem foldlM_collect (P : SudokuPuzzle) (l : List Cell) (init : List Int)
    (H : ∀ a ∈ l, P.atCell a.row a.col = some (P.cells.getD (cellIndex P.N a) 0)) :
    l.foldlM (fun out a => do
        let val ← P.atCell a.row a.col
        some (out ++ [val])) init
      = some (init ++ l.map (fun a => P.cells.getD (cellIndex P.N a) 0)) := by
  induction l generalizing init with
  | nil => simp
  | cons a l ih =>
    rw [List.foldlM_cons, H a (List.mem_cons_self _ _)]
    show Option.bind (Option.bind (some _) _) _ = _
    rw [Option.some_bind, Option.some_bind, ih _ (fun b hb => H b (List.mem_cons_of_mem _ hb))]
    simp

theorem atCell_getD {P : SudokuPuzzle} (hP : P.WF) {a : Cell} (ha : a.inRange P.N) :
    P.atCell a.row a.col = some (P.cells.getD (cellIndex P.N a) 0) := by
  have hlt : cellIndex P.N a < P.cells.length := by
    rw [hP.length_eq]
    exact cellIndex_lt ha
  rw [atCell_eq_index ha, List.getD_eq_getElem?_getD, List.getElem?_eq_getElem hlt]
  rfl

/-- Printing a well-formed puzzle writes its cell vector. -/
theorem printPuzzle_eq {P : SudokuPuzzle} (hP : P.WF) : printPuzzle P = some P.cells := by
  unfold printPuzzle
  rw [foldlM_nested (fun r c out => do
    let val ← P.atCell r c
    some (out ++ [val]))]
  have := foldlM_collect P (allCells P.N) [] (fun a ha => atCell_getD hP (mem_allCells.1 ha))
  rw [map_allCells_cells hP, List.nil_append] at this
  exact this

/-- A grid whose scan met no empty cell has no zero entry. -/
theorem no_zero_of_scan {P : SudokuPuzzle} (hP : P.WF)
    (H : ∀ a ∈ allCells P.N, P.atCell a.row a.col ≠ some 0) : ∀ v ∈ P.cells, v ≠ 0 := by
  have hN : 1 ≤ P.N := by
    rw [hP.N_eq]
    exact Int.mul_pos (by have := hP.rows_pos; omega) (by have := hP.cols_pos; omega)
  intro v hv hv0
  subst hv0
  obtain ⟨i, hi, hget⟩ := List.getElem_of_mem hv
  obtain ⟨a, ha, rfl⟩ := exists_cell_of_index hN (by rw [← hP.length_eq]; exact hi)
  apply H a (mem_allCells.2 ha)
  rw [atCell_eq_index ha, List.getElem?_eq_getElem hi, hget]

/-! ## Writing a cell -/

theorem wf_N_pos {P : SudokuPuzzle} (hP : P.WF) : 1 ≤ P.N := by
  rw [hP.N_eq]
  exact Int.mul_pos (by have := hP.rows_pos; omega) (by have := hP.cols_pos; omega)

theorem wf_cellIndex_lt {P : SudokuPuzzle} (hP : P.WF) {a : Cell} (ha : a.inRange P.N) :
    cellIndex P.N a < P.cells.length := by
  rw [hP.length_eq]
  exact cellIndex_lt ha

theorem setCell_eq {P : SudokuPuzzle} (hP : P.WF) {a : Cell} (ha : a.inRange P.N) (v : Int) :
    P.setCell a.row a.col v = some (P.withCell a v) := by
  have hr : 0 ≤ a.row ∧ a.row < P.N := ⟨ha.1, ha.2.1⟩
  have hc : 0 ≤ a.col ∧ a.col < P.N := ⟨ha.2.2.1, ha.2.2.2⟩
  have hlt := wf_cellIndex_lt hP ha
  simp only [SudokuPuzzle.setCell, hr, hc, and_self, if_true]
  rw [vset_of_lt _ _ (index_lt hr hc).1 hlt]
  rfl

theorem withCell_wf {P : SudokuPuzzle} (hP : P.WF) (a : Cell) {v : Int}
    (hv : 0 ≤ v ∧ v ≤ P.N) : (P.withCell a v).WF := by
  refine ⟨hP.rows_pos, hP.cols_pos, hP.N_eq, hP.graph_eq, ?_, ?_⟩
  · simp only [SudokuPuzzle.withCell, List.length_set]
    exact hP.length_eq
  · intro w hw
    simp only [SudokuPuzzle.withCell] at hw
    rcases List.mem_or_eq_of_mem_set hw with h | h
    · exact hP.range w h
    · rw [h]; exact hv

theorem set_eq_self {α : Type} {l : List α} {k : Nat} {a : α} (h : l[k]? = some a) :
    l.set k a = l := by
  induction l generalizing k with
  | nil => simp
  | cons x l ih =>
    cases k with
    | zero =>
      simp only [List.getElem?_cons_zero, Option.some.injEq] at h
      subst h
      rfl
    | succ k =>
      simp only [List.getElem?_cons_succ] at h
      simp [ih h]

theorem set_set_restore {g : List Int} {i : Nat} {v w : Int} (h : g[i]? = some w) :
    (g.set i v).set i w = g := by
  rw [List.set_set]
  exact set_eq_self h

theorem withCell_restore {P : SudokuPuzzle} {a : Cell} {v w : Int}
    (h : P.cells[cellIndex P.N a]? = some w) : (P.withCell a v).withCell a w = P := by
  cases P
  simp only [SudokuPuzzle.withCell] at h ⊢
  rw [set_set_restore h]

theorem count_zero_set {g : List Int} {i : Nat} {v : Int} (h : g[i]? = some 0) (hv : v ≠ 0) :
    (g.set i v).count 0 + 1 = g.count 0 := by
  induction g generalizing i with
  | nil => simp at h
  | cons x g ih =>
    cases i with
    | zero =>
      simp only [List.getElem?_cons_zero, Option.some.injEq] at h
      subst h
      simp [List.count_cons, hv]
    | succ i =>
      simp only [List.getElem?_cons_succ] at h
      have := ih h
      simp only [List.set_cons_succ, List.count_cons]
      omega

theorem emptyCount_withCell {P : SudokuPuzzle} {a : Cell} {v : Int}
    (h : P.cells[cellIndex P.N a]? = some 0) (hv : v ≠ 0) :
    emptyCount (P.withCell a v).cells + 1 = emptyCount P.cells :=
  count_zero_set h hv

theorem peer_symm {rows cols : Int} {a b : Cell} : peer rows cols a b ↔ peer rows cols b a := by
  unfold peer
  constructor
  · rintro ⟨h1, h2⟩
    refine ⟨fun e => h1 e.symm, ?_⟩
    rcases h2 with h | h | h
    · exact Or.inl h.symm
    · exact Or.inr (Or.inl h.symm)
    · exact Or.inr (Or.inr (sameBlock_symm.1 h))
  · rintro ⟨h1, h2⟩
    refine ⟨fun e => h1 e.symm, ?_⟩
    rcases h2 with h | h | h
    · exact Or.inl h.symm
    · exact Or.inr (Or.inl h.symm)
    · exact Or.inr (Or.inr (sameBlock_symm.1 h))

/-- A value is held by no cell of the neighbor list exactly when no peer holds it. -/
theorem unheld_iff {P : SudokuPuzzle} (hP : P.WF) {a : Cell} (ha : a.inRange P.N) (v : Int) :
    P.unheld (specPeers P.rows P.cols a.row a.col) v ↔
      ∀ b : Cell, b.inRange P.N → peer P.rows P.cols a b →
        P.cells[cellIndex P.N b]? ≠ some v := by
  have hr : 0 ≤ a.row ∧ a.row < P.rows * P.cols := by rw [← hP.N_eq]; exact ⟨ha.1, ha.2.1⟩
  have hc : 0 ≤ a.col ∧ a.col < P.rows * P.cols := by
    rw [← hP.N_eq]; exact ⟨ha.2.2.1, ha.2.2.2⟩
  unfold SudokuPuzzle.unheld
  constructor
  · intro H b hb hpeer
    rw [← atCell_eq_index hb]
    apply H b
    rw [mem_specPeers_iff hP.rows_pos hP.cols_pos (by rw [← hP.N_eq]; exact hb)]
    exact hpeer
  · intro H b hb
    have hbr := inRange_of_mem_specPeers hP.rows_pos hP.cols_pos hr hc hb
    rw [mem_specPeers_iff hP.rows_pos hP.cols_pos hbr] at hb
    rw [← hP.N_eq] at hbr
    rw [atCell_eq_index hbr]
    exact H b hbr hb

/-! ## Solutions of a partial grid -/

theorem IsSolution.distinctN {P : SudokuPuzzle} (hP : P.WF) {h : List Int}
    (hs : IsSolution P.rows P.cols h) {a b : Cell} (ha : a.inRange P.N) (hb : b.inRange P.N)
    (hpeer : peer P.rows P.cols a b) :
    h[cellIndex P.N a]? ≠ h[cellIndex P.N b]? := by
  have := hs.distinct a b (by rw [← hP.N_eq]; exact ha) (by rw [← hP.N_eq]; exact hb) hpeer
  rw [← hP.N_eq] at this
  exact this

theorem IsSolution.lengthN {P : SudokuPuzzle} (hP : P.WF) {h : List Int}
    (hs : IsSolution P.rows P.cols h) : h.length = P.cells.length := by
  rw [hs.length_eq, hP.length_eq, hP.N_eq]

/-- In a solution that agrees with the grid, the value of any cell is one of the candidate
values of that cell. -/
theorem solution_value_mem_candidates {P : SudokuPuzzle} (hP : P.WF) {a : Cell}
    (ha : a.inRange P.N) {h : List Int} (hs : IsSolution P.rows P.cols h)
    (hag : Agrees P.cells h) :
    ∃ v, h[cellIndex P.N a]? = some v ∧
      v ∈ P.candidates (specPeers P.rows P.cols a.row a.col) := by
  have hlt : cellIndex P.N a < h.length := by
    rw [IsSolution.lengthN hP hs]
    exact wf_cellIndex_lt hP ha
  have hget : h[cellIndex P.N a]? = some (h[cellIndex P.N a]) := List.getElem?_eq_getElem hlt
  refine ⟨h[cellIndex P.N a], hget, ?_⟩
  have hrange := hs.range _ (List.getElem_mem hlt)
  rw [← hP.N_eq] at hrange
  rw [mem_candidates, unheld_iff hP ha]
  refine ⟨hrange.1, hrange.2, fun b hb hpeer hb2 => ?_⟩
  have := hag.2 _ _ hb2 (by omega)
  exact IsSolution.distinctN hP hs ha hb hpeer (by rw [hget, this])

theorem agrees_refl (g : List Int) : Agrees g g :=
  ⟨rfl, fun _ _ h _ => h⟩

theorem agrees_set {g h : List Int} {i : Nat} {v : Int} (hag : Agrees g h)
    (hv : h[i]? = some v) : Agrees (g.set i v) h := by
  refine ⟨by rw [List.length_set]; exact hag.1, fun j w hj hw => ?_⟩
  rw [List.getElem?_set] at hj
  by_cases hij : i = j
  · subst hij
    rw [if_pos rfl] at hj
    split at hj
    · rw [Option.some.injEq] at hj
      rw [← hj]; exact hv
    · exact absurd hj (by simp)
  · rw [if_neg hij] at hj
    exact hag.2 j w hj hw

theorem agrees_of_set {g h : List Int} {i : Nat} {v : Int} (h0 : g[i]? = some 0)
    (hag : Agrees (g.set i v) h) : Agrees g h := by
  refine ⟨by rw [hag.1, List.length_set], fun j w hj hw => ?_⟩
  apply hag.2 j w _ hw
  rw [List.getElem?_set]
  by_cases hij : i = j
  · subst hij
    rw [h0, Option.some.injEq] at hj
    exact absurd hj.symm hw
  · rw [if_neg hij]
    exact hj

theorem agrees_set_value {g h : List Int} {i : Nat} {v : Int} (hi : i < g.length)
    (hv : v ≠ 0) (hag : Agrees (g.set i v) h) : h[i]? = some v := by
  apply hag.2 i v _ hv
  rw [List.getElem?_set, if_pos rfl, if_pos hi]

theorem agrees_eq_of_no_zero {g h : List Int} (hz : ∀ v ∈ g, v ≠ 0) (hag : Agrees g h) :
    h = g := by
  apply List.ext_getElem?
  intro j
  by_cases hj : j < g.length
  · have hgj : g[j]? = some g[j] := List.getElem?_eq_getElem hj
    rw [hgj]
    exact hag.2 j _ hgj (hz _ (List.getElem_mem hj))
  · rw [List.getElem?_eq_none (by rw [hag.1]; omega), List.getElem?_eq_none (by omega)]

/-- Writing a candidate value into a cell of a consistent grid keeps the grid
consistent. -/
theorem consistent_withCell {P : SudokuPuzzle} (hP : P.WF) {a : Cell} (ha : a.inRange P.N)
    {v : Int} (hcons : Consistent P.rows P.cols P.cells)
    (hv : v ∈ P.candidates (specPeers P.rows P.cols a.row a.col)) :
    Consistent P.rows P.cols (P.withCell a v).cells := by
  rw [mem_candidates, unheld_iff hP ha] at hv
  obtain ⟨_, _, hun⟩ := hv
  have hia := wf_cellIndex_lt hP ha
  intro x y hx hy hpeer hx0
  rw [← hP.N_eq] at hx hy hx0 ⊢
  have hxy : x ≠ y := fun e => hpeer.1 e.symm
  simp only [SudokuPuzzle.withCell, List.getElem?_set] at hx0 ⊢
  by_cases hxa : cellIndex P.N a = cellIndex P.N x
  · have exa : a = x := cellIndex_inj ha hx hxa
    have hya : ¬ cellIndex P.N a = cellIndex P.N y := fun e =>
      hxy (exa ▸ cellIndex_inj ha hy e)
    rw [if_pos hxa, if_pos hia, if_neg hya]
    exact fun e => hun y hy (exa ▸ hpeer) e.symm
  · rw [if_neg hxa] at hx0 ⊢
    by_cases hya : cellIndex P.N a = cellIndex P.N y
    · have eya : a = y := cellIndex_inj ha hy hya
      rw [if_pos hya, if_pos hia]
      exact hun x hx (eya ▸ peer_symm.1 hpeer)
    · rw [if_neg hya]
      have := hcons x y (by rw [← hP.N_eq]; exact hx) (by rw [← hP.N_eq]; exact hy) hpeer
      rw [← hP.N_eq] at this
      exact this hx0

/-- A consistent grid without empty cells is a solution. -/
theorem isSolution_of_complete {P : SudokuPuzzle} (hP : P.WF) (hz : ∀ v ∈ P.cells, v ≠ 0)
    (hcons : Consistent P.rows P.cols P.cells) : IsSolution P.rows P.cols P.cells := by
  refine ⟨by rw [hP.length_eq, hP.N_eq], fun v hv => ?_, fun a b ha hb hpeer => ?_⟩
  · have h1 := hP.range v hv
    have h2 := hz v hv
    rw [← hP.N_eq]
    omega
  · apply hcons a b ha hb hpeer
    rw [← hP.N_eq] at ha ⊢
    have hlt := wf_cellIndex_lt hP ha
    rw [List.getElem?_eq_getElem hlt]
    intro e
    rw [Option.some.injEq] at e
    exact hz _ (List.getElem_mem hlt) e

/-! ## The recursion of `solve` -/

theorem solveFuel_succ (fuel : Nat) (S : PuzzleSolver) :
    S.solveFuel (fuel + 1) = S.scan.bind (fun sc =>
      match sc with
      | .deadEnd => some { S with nodes := S.nodes + 1 }
      | .running _ row col =>
        if row = -1 ∧ col = -1 then
          (printPuzzle S.candidate).bind (fun grid =>
            some { S with
              s := S.s + 1
              nodes := 0
              out := S.out ++
                [⟨S.s + 1, S.nodes, S.candidate.rows, S.candidate.cols, grid⟩] })
        else
          S.candidate.forAllPossibleValuesOf row col
            (PuzzleSolver.tryValue (PuzzleSolver.solveFuel fuel) row col) S) := rfl

theorem tryValue_eq (rec : PuzzleSolver → Option PuzzleSolver) (row col val : Int)
    (S : PuzzleSolver) :
    PuzzleSolver.tryValue rec row col val S =
      (S.candidate.setCell row col val).bind (fun cand =>
        (rec { S with candidate := cand }).bind (fun T =>
          (T.candidate.setCell row col 0).bind (fun cand =>
            some { T with candidate := cand }))) := rfl

/-- A dead end: a cell without candidate values rules out every solution. -/
theorem enumerates_nil_of_dead {P : SudokuPuzzle} (hP : P.WF) {a : Cell} (ha : a.inRange P.N)
    (h0 : P.numCandidates a = 0) : Enumerates P [] := by
  refine ⟨fun h hs hag => ?_, fun _ hh => by simp at hh, fun _ _ hh => by simp at hh,
    List.nodup_nil⟩
  obtain ⟨v, _, hv⟩ := solution_value_mem_candidates hP ha hs hag
  unfold SudokuPuzzle.numCandidates at h0
  rw [List.length_eq_zero] at h0
  rw [h0] at hv
  simp at hv

/-- A grid without empty cells has itself as its only possible solution. -/
theorem enumerates_singleton {P : SudokuPuzzle} (hP : P.WF) (hz : ∀ v ∈ P.cells, v ≠ 0) :
    Enumerates P [P.cells] := by
  refine ⟨fun h _ hag => ?_, fun h hh => ?_, fun hcons h hh => ?_, List.nodup_singleton _⟩
  · rw [agrees_eq_of_no_zero hz hag]
    simp
  · rw [List.mem_singleton] at hh
    rw [hh]
    exact agrees_refl _
  · rw [List.mem_singleton] at hh
    rw [hh]
    exact isSolution_of_complete hP hz hcons

/-- The branches over all candidate values of an empty cell cover all solutions. -/
theorem enumerates_of_branch {P : SudokuPuzzle} (hP : P.WF) {a : Cell} (ha : a.inRange P.N)
    {sols : List (List Int)}
    (hb : BranchEnumerates P a (P.candidates (specPeers P.rows P.cols a.row a.col)) sols) :
    Enumerates P sols :=
  ⟨fun h hs hag => hb.complete h hs hag (by
      obtain ⟨v, hv1, hv2⟩ := solution_value_mem_candidates hP ha hs hag
      exact ⟨v, hv2, hv1⟩),
    fun h hh => (hb.agrees h hh).1, hb.sound, hb.nodup⟩

/-- One iteration of the branching loop, given the specification of the recursive call:
the value is written, the recursive call enumerates the solutions of the extended grid,
and the cell is emptied again. -/
theorem tryValue_spec {rec : PuzzleSolver → Option PuzzleSolver} {bound : Nat}
    (hrec : ∀ S : PuzzleSolver, S.WF → emptyCount S.candidate.cells < bound →
      ∃ T, rec S = some T ∧ SolveSpec S T)
    {S : PuzzleSolver} (hS : S.WF) {a : Cell} (ha : a.inRange S.candidate.N)
    (h0 : S.candidate.cells[cellIndex S.candidate.N a]? = some 0)
    (hbound : emptyCount S.candidate.cells < bound + 1)
    {v : Int} (hv : 1 ≤ v ∧ v ≤ S.candidate.N) :
    ∃ T, PuzzleSolver.tryValue rec a.row a.col v S = some T ∧
      T.candidate = S.candidate ∧ T.puzzle = S.puzzle ∧ T.N = S.N ∧
      ∃ reps, T.out = S.out ++ reps ∧
        Enumerates (S.candidate.withCell a v) (reps.map Report.grid) := by
  have hP := hS.cand
  have hwf : ({ S with candidate := S.candidate.withCell a v } : PuzzleSolver).WF :=
    ⟨withCell_wf hP a ⟨by omega, hv.2⟩, hS.N_eq⟩
  have hcount := emptyCount_withCell (P := S.candidate) (a := a) (v := v) h0 (by omega)
  obtain ⟨T, hT, hspec⟩ := hrec _ hwf (by
    show emptyCount (S.candidate.withCell a v).cells < bound
    omega)
  obtain ⟨reps, hout, henum⟩ := hspec.out_eq
  have hTc : T.candidate = S.candidate.withCell a v := hspec.candidate_eq
  have hback : T.candidate.setCell a.row a.col 0 = some S.candidate := by
    rw [hTc, setCell_eq (withCell_wf hP a ⟨by omega, hv.2⟩) ha]
    exact congrArg some (withCell_restore h0)
  refine ⟨{ T with candidate := S.candidate }, ?_, rfl, hspec.puzzle_eq, hspec.N_eq,
    reps, hout, henum⟩
  rw [tryValue_eq, setCell_eq hP ha, Option.some_bind, hT, Option.some_bind, hback,
    Option.some_bind]

/-- The branching loop over the values `vs` enumerates the solutions whose value at the
chosen cell is in `vs`, and leaves the working grid as it found it. -/
theorem branch_loop {rec : PuzzleSolver → Option PuzzleSolver} {bound : Nat}
    (hrec : ∀ S : PuzzleSolver, S.WF → emptyCount S.candidate.cells < bound →
      ∃ T, rec S = some T ∧ SolveSpec S T)
    (P : SudokuPuzzle) (hP : P.WF) {a : Cell} (ha : a.inRange P.N)
    (h0 : P.cells[cellIndex P.N a]? = some 0) (hbound : emptyCount P.cells < bound + 1)
    (vs : List Int) (hvs : ∀ v ∈ vs, v ∈ P.candidates (specPeers P.rows P.cols a.row a.col))
    (hnd : vs.Nodup) (S : PuzzleSolver) (hSc : S.candidate = P) (hSN : S.N = P.N) :
    ∃ T, vs.foldlM (fun st v => PuzzleSolver.tryValue rec a.row a.col v st) S = some T ∧
      T.candidate = P ∧ T.puzzle = S.puzzle ∧ T.N = S.N ∧
      ∃ reps, T.out = S.out ++ reps ∧ BranchEnumerates P a vs (reps.map Report.grid) := by
  induction vs generalizing S with
  | nil =>
    exact ⟨S, rfl, hSc, rfl, rfl, [], by simp,
      ⟨fun h _ _ hex => by simp at hex, fun _ hh => by simp at hh,
       fun _ _ hh => by simp at hh, List.nodup_nil⟩⟩
  | cons v vs ih =>
    have hvmem := hvs v (List.mem_cons_self _ _)
    have hvr := mem_candidates.1 hvmem
    subst hSc
    have hS : S.WF := ⟨hP, hSN⟩
    obtain ⟨T1, hT1, hc1, hp1, hN1, reps1, hout1, henum1⟩ :=
      tryValue_spec hrec hS ha h0 hbound ⟨hvr.1, hvr.2.1⟩
    obtain ⟨T2, hT2, hc2, hp2, hN2, reps2, hout2, henum2⟩ :=
      ih (fun w hw => hvs w (List.mem_cons_of_mem _ hw)) (List.nodup_cons.1 hnd).2 T1 hc1
        (by rw [hN1, hSN])
    refine ⟨T2, ?_, hc2, by rw [hp2, hp1], by rw [hN2, hN1], reps1 ++ reps2,
      by rw [hout2, hout1, List.append_assoc], ?_⟩
    · rw [List.foldlM_cons, hT1]
      exact hT2
    · have hia := wf_cellIndex_lt hP ha
      rw [List.map_append]
      refine ⟨fun h hs hag hex => ?_, fun h hh => ?_, fun hcons h hh => ?_, ?_⟩
      · obtain ⟨w, hw, hget⟩ := hex
        rcases List.mem_cons.1 hw with hw | hw
        · subst hw
          exact List.mem_append_left _ (henum1.complete h hs (agrees_set hag hget))
        · exact List.mem_append_right _ (henum2.complete h hs hag ⟨w, hw, hget⟩)
      · rcases List.mem_append.1 hh with hh | hh
        · have hag := henum1.agrees h hh
          exact ⟨agrees_of_set h0 hag, v, List.mem_cons_self _ _,
            agrees_set_value hia (by omega) hag⟩
        · obtain ⟨hag, w, hw, hget⟩ := henum2.agrees h hh
          exact ⟨hag, w, List.mem_cons_of_mem _ hw, hget⟩
      · rcases List.mem_append.1 hh with hh | hh
        · exact henum1.sound (consistent_withCell hP ha hcons hvmem) h hh
        · exact henum2.sound hcons h hh
      · refine List.Nodup.append henum1.nodup henum2.nodup ?_
        intro h hh1 hh2
        have e1 := agrees_set_value hia (by omega) (henum1.agrees h hh1)
        obtain ⟨_, w, hw, hget⟩ := henum2.agrees h hh2
        rw [e1, Option.some.injEq] at hget
        subst hget
        exact (List.nodup_cons.1 hnd).1 hw

/-- With more fuel than empty cells, `solve` returns; the working grid is unchanged and the
reports written enumerate the solutions of the working grid. -/
theorem solve_spec (fuel : Nat) : ∀ S : PuzzleSolver, S.WF →
    emptyCount S.candidate.cells < fuel → ∃ T, S.solveFuel fuel = some T ∧ SolveSpec S T := by
  induction fuel with
  | zero => intro S _ h; omega
  | succ fuel ih =>
    intro S hS hfuel
    have hP := hS.cand
    obtain ⟨st, hscan, hinv⟩ := scan_spec hS
    rw [solveFuel_succ, hscan, Option.some_bind]
    cases st with
    | deadEnd =>
      obtain ⟨a, ha, _, hnum⟩ := hinv
      exact ⟨_, rfl, rfl, rfl, rfl, [], by simp,
        enumerates_nil_of_dead hP (mem_allCells.1 ha) hnum⟩
    | running lc row col =>
      rcases hinv.2 with ⟨h1, h2, _, h4⟩ | ⟨h1, h2, _⟩
      · have hz := no_zero_of_scan hP h4
        simp only [h1, h2, and_self, if_true]
        rw [printPuzzle_eq hP, Option.some_bind]
        exact ⟨_, rfl, rfl, rfl, rfl, [_], rfl, enumerates_singleton hP hz⟩
      · have ha : (⟨row, col⟩ : Cell).inRange S.candidate.N := mem_allCells.1 h1
        have hne : ¬ (row = -1 ∧ col = -1) := fun e => by
          have := ha.1
          simp only at this
          omega
        simp only [hne, if_false]
        rw [forAllPossibleValuesOf_eq hP ⟨ha.1, ha.2.1⟩ ⟨ha.2.2.1, ha.2.2.2⟩]
        have h0 : S.candidate.cells[cellIndex S.candidate.N ⟨row, col⟩]? = some 0 := by
          rw [← atCell_eq_index ha]
          exact h2
        obtain ⟨T, hT, hc, hp, hN, reps, hout, henum⟩ :=
          branch_loop ih S.candidate hP ha h0 hfuel
            (S.candidate.candidates (specPeers S.candidate.rows S.candidate.cols row col))
            (fun _ hv => hv) (pairwise_candidates _ _).nodup S rfl hS.N_eq
        exact ⟨T, hT, hc, hp, hN, reps, hout, enumerates_of_branch hP ha henum⟩

/-! ## Independence of the fuel -/

theorem foldlM_mono {α σ : Type} {f g : σ → α → Option σ}
    (hfg : ∀ st a st2, f st a = some st2 → g st a = some st2) (l : List α) (st r : σ)
    (h : l.foldlM f st = some r) : l.foldlM g st = some r := by
  induction l generalizing st with
  | nil => exact h
  | cons a l ih =>
    rw [List.foldlM_cons] at h ⊢
    obtain ⟨st1, h1, h2⟩ := Option.bind_eq_some.1 h
    rw [hfg st a st1 h1]
    exact ih st1 h2

theorem forAllPossibleValuesOf_mono {σ : Type} {f g : Int → σ → Option σ}
    (hfg : ∀ v st st2, f v st = some st2 → g v st = some st2) (P : SudokuPuzzle)
    (row col : Int) (st r : σ) (h : P.forAllPossibleValuesOf row col f st = some r) :
    P.forAllPossibleValuesOf row col g st = some r := by
  unfold SudokuPuzzle.forAllPossibleValuesOf at h ⊢
  obtain ⟨nb, h1, h⟩ := Option.bind_eq_some.1 h
  obtain ⟨p, h2, h⟩ := Option.bind_eq_some.1 h
  rw [h1]
  show Option.bind (some nb) _ = _
  rw [Option.some_bind, h2]
  show Option.bind (some p) _ = _
  rw [Option.some_bind]
  refine foldlM_mono ?_ _ st r h
  intro st1 val st2 hstep
  obtain ⟨b, hb, hstep⟩ := Option.bind_eq_some.1 hstep
  show Option.bind _ _ = _
  rw [hb, Option.some_bind]
  cases b with
  | true => exact hfg val st1 st2 hstep
  | false => exact hstep

theorem tryValue_mono {rec rec2 : PuzzleSolver → Option PuzzleSolver}
    (hrec : ∀ S T, rec S = some T → rec2 S = some T) (row col val : Int)
    (S T : PuzzleSolver) (h : PuzzleSolver.tryValue rec row col val S = some T) :
    PuzzleSolver.tryValue rec2 row col val S = some T := by
  rw [tryValue_eq] at h ⊢
  obtain ⟨cand, h1, h⟩ := Option.bind_eq_some.1 h
  obtain ⟨T1, h2, h⟩ := Option.bind_eq_some.1 h
  rw [h1, Option.some_bind, hrec _ _ h2, Option.some_bind]
  exact h

theorem solveFuel_succ_mono (fuel : Nat) :
    ∀ S T : PuzzleSolver, S.solveFuel fuel = some T → S.solveFuel (fuel + 1) = some T := by
  induction fuel with
  | zero => intro S T h; exact absurd h (by simp [PuzzleSolver.solveFuel])
  | succ fuel ih =>
    intro S T h
    rw [solveFuel_succ] at h ⊢
    obtain ⟨sc, hsc, h⟩ := Option.bind_eq_some.1 h
    rw [hsc, Option.some_bind]
    cases sc with
    | deadEnd => exact h
    | running lc row col =>
      by_cases hcond : row = -1 ∧ col = -1
      · simp only [hcond, and_self, if_true] at h ⊢
        exact h
      · simp only [hcond, if_false] at h ⊢
        exact forAllPossibleValuesOf_mono
          (fun v st st2 hv => tryValue_mono ih row col v st st2 hv) _ _ _ _ _ h

/-- More fuel does not change the result of a call that returned. -/
theorem solveFuel_mono {fuel fuel2 : Nat} (hle : fuel ≤ fuel2) (S T : PuzzleSolver)
    (h : S.solveFuel fuel = some T) : S.solveFuel fuel2 = some T := by
  induction hle with
  | refl => exact h
  | step _ ih => exact solveFuel_succ_mono _ S T ih

/-- Every call of `solve` that returns, whatever the fuel, satisfies the specification. -/
theorem solveSpec_of_returns {S T : PuzzleSolver} (hS : S.WF) {fuel : Nat}
    (h : S.solveFuel fuel = some T) : SolveSpec S T := by
  obtain ⟨T2, hT2, hspec⟩ := solve_spec (max fuel (emptyCount S.candidate.cells + 1)) S hS
    (by omega)
  have := solveFuel_mono (Nat.le_max_left fuel (emptyCount S.candidate.cells + 1)) S T h
  rw [hT2, Option.some.injEq] at this
  rw [← this]
  exact hspec

/-! ## The validity check -/

theorem checkPuzzle_peers_true (P : SudokuPuzzle) (val : Int) (nb : List Cell)
    (h : checkPuzzle.peers P val nb = some true) :
    ∀ b ∈ nb, P.atCell b.row b.col ≠ some val := by
  induction nb with
  | nil => intro b hb; simp at hb
  | cons cell nb ih =>
    have e : checkPuzzle.peers P val (cell :: nb) =
        (P.atCell cell.row cell.col).bind (fun v =>
          if v = val then some false else checkPuzzle.peers P val nb) := rfl
    rw [e] at h
    obtain ⟨v, hv, h⟩ := Option.bind_eq_some.1 h
    by_cases hvv : v = val
    · rw [if_pos hvv] at h
      exact absurd h (by simp)
    · rw [if_neg hvv] at h
      intro b hb
      rcases List.mem_cons.1 hb with hb | hb
      · rw [hb, hv]
        simpa using hvv
      · exact ih h b hb

theorem checkPuzzle_cols_true (P : SudokuPuzzle) (row : Int) (l : List Int)
    (h : checkPuzzle.cols P row l = some true) :
    ∀ col ∈ l, ∀ val, P.atCell row col = some val → val ≠ 0 →
      ∃ nb, P.graph.neighbors row col = some nb ∧
        ∀ b ∈ nb, P.atCell b.row b.col ≠ some val := by
  induction l with
  | nil => intro col hcol; simp at hcol
  | cons c l ih =>
    have e : checkPuzzle.cols P row (c :: l) =
        (P.atCell row c).bind (fun val =>
          if val = 0 then checkPuzzle.cols P row l
          else (P.graph.neighbors row c).bind (fun nb =>
            (checkPuzzle.peers P val nb).bind (fun ok =>
              if ok then checkPuzzle.cols P row l else some false))) := rfl
    rw [e] at h
    obtain ⟨v, hv, h⟩ := Option.bind_eq_some.1 h
    intro col hcol val hval hval0
    by_cases hv0 : v = 0
    · rw [if_pos hv0] at h
      rcases List.mem_cons.1 hcol with hc | hc
      · subst hc
        rw [hv, Option.some.injEq] at hval
        omega
      · exact ih h col hc val hval hval0
    · rw [if_neg hv0] at h
      obtain ⟨nb, hnb, h⟩ := Option.bind_eq_some.1 h
      obtain ⟨ok, hok, h⟩ := Option.bind_eq_some.1 h
      cases ok with
      | false => exact absurd h (by simp)
      | true =>
        rw [if_pos rfl] at h
        rcases List.mem_cons.1 hcol with hc | hc
        · subst hc
          rw [hv, Option.some.injEq] at hval
          subst hval
          exact ⟨nb, hnb, checkPuzzle_peers_true P v nb hok⟩
        · exact ih h col hc val hval hval0

theorem checkPuzzle_rows_true (P : SudokuPuzzle) (l : List Int)
    (h : checkPuzzle.rows P l = some true) :
    ∀ row ∈ l, checkPuzzle.cols P row (intRange P.N) = some true := by
  induction l with
  | nil => intro row hrow; simp at hrow
  | cons r l ih =>
    have e : checkPuzzle.rows P (r :: l) =
        (checkPuzzle.cols P r (intRange P.N)).bind (fun ok =>
          if ok then checkPuzzle.rows P l else some false) := rfl
    rw [e] at h
    obtain ⟨ok, hok, h⟩ := Option.bind_eq_some.1 h
    cases ok with
    | false => exact absurd h (by simp)
    | true =>
      rw [if_pos rfl] at h
      intro row hrow
      rcases List.mem_cons.1 hrow with hr | hr
      · rw [hr]; exact hok
      · exact ih h row hr

/-- A grid that passes `checkPuzzle` is consistent. -/
theorem consistent_of_checkPuzzle {P : SudokuPuzzle} (hP : P.WF)
    (h : checkPuzzle P = some true) : Consistent P.rows P.cols P.cells := by
  intro a b ha hb hpeer ha0
  rw [← hP.N_eq] at ha hb ha0 ⊢
  have hcols := checkPuzzle_rows_true P _ h a.row (mem_intRange.2 ⟨ha.1, ha.2.1⟩)
  obtain ⟨v, hv, _, _⟩ := atCell_some hP ⟨ha.1, ha.2.1⟩ ⟨ha.2.2.1, ha.2.2.2⟩
  have hva : P.cells[cellIndex P.N a]? = some v := by rw [← atCell_eq_index ha]; exact hv
  have hv0 : v ≠ 0 := fun e => ha0 (by rw [hva, e])
  obtain ⟨nb, hnb, hall⟩ := checkPuzzle_cols_true P a.row _ hcols a.col
    (mem_intRange.2 ⟨ha.2.2.1, ha.2.2.2⟩) v hv hv0
  rw [neighbors_wf hP ⟨ha.1, ha.2.1⟩ ⟨ha.2.2.1, ha.2.2.2⟩, Option.some.injEq] at hnb
  subst hnb
  have hbm : b ∈ specPeers P.rows P.cols a.row a.col :=
    (mem_specPeers_iff hP.rows_pos hP.cols_pos (by rw [← hP.N_eq]; exact hb)).2 hpeer
  have := hall b hbm
  rw [atCell_eq_index hb] at this
  rw [hva]
  exact fun e => this e.symm

/-! ## The solver started on a loaded puzzle -/

/-- The puzzle object made by the constructor and filled with `N * N` values of `[0, N]`
satisfies the invariants. -/
theorem wf_of_new {rows cols : Int} {cells : List Int} (hrows : 1 ≤ rows) (hcols : 1 ≤ cols)
    (hlen : cells.length = (rows * cols * (rows * cols)).toNat)
    (hrange : ∀ v ∈ cells, 0 ≤ v ∧ v ≤ rows * cols) :
    ({ SudokuPuzzle.new rows cols with cells := cells } : SudokuPuzzle).WF :=
  ⟨hrows, hcols, rfl, rfl, hlen, hrange⟩

theorem new_wf {P : SudokuPuzzle} (hP : P.WF) : (PuzzleSolver.new P).WF :=
  ⟨hP, hP.N_eq.symm⟩

/-- The run of the solver on a well-formed puzzle. -/
theorem solve_new {P : SudokuPuzzle} (hP : P.WF) {fuel : Nat}
    (hfuel : emptyCount P.cells < fuel) :
    ∃ T, (PuzzleSolver.new P).solveFuel fuel = some T ∧ T.candidate = P ∧
      Enumerates P T.grids := by
  obtain ⟨T, hT, hspec⟩ := solve_spec fuel (PuzzleSolver.new P) (new_wf hP) hfuel
  obtain ⟨reps, hout, henum⟩ := hspec.out_eq
  refine ⟨T, hT, hspec.candidate_eq, ?_⟩
  have : T.out = reps := by rw [hout]; rfl
  unfold PuzzleSolver.grids
  rw [this]
  exact henum

/-- Claim C3. For a board with `blockRows, blockCols ≥ 1` and an initial grid of `N * N`
values in `[0, N]` that passes `checkPuzzle`, `solve` run with more fuel than there are
empty cells returns, every complete grid with values in `[1, N]` and no two equal peers
that agrees with the initial grid on its non-empty cells is among the reported grids, and
no grid is reported twice. -/
theorem C3_solve_enumerates_all (P : SudokuPuzzle) (fuel : Nat) (hP : P.WF)
    (_hcheck : checkPuzzle P = some true) (hfuel : emptyCount P.cells < fuel) :
    ∃ T, (PuzzleSolver.new P).solveFuel fuel = some T ∧
      (∀ h, IsSolution P.rows P.cols h → Agrees P.cells h → h ∈ T.grids) ∧
      T.grids.Nodup := by
  obtain ⟨T, hT, _, henum⟩ := solve_new hP hfuel
  exact ⟨T, hT, henum.complete, henum.nodup⟩

theorem C3_witness :
    (∃ T, (PuzzleSolver.new examplePuzzle).solveFuel 12 = some T ∧
      (∀ h, IsSolution examplePuzzle.rows examplePuzzle.cols h →
        Agrees examplePuzzle.cells h → h ∈ T.grids) ∧
      T.grids.Nodup) ∧
    ((PuzzleSolver.new examplePuzzle).solveFuel 12).map PuzzleSolver.grids
      = some [[1, 3, 2, 4, 4, 2, 3, 1, 3, 4, 1, 2, 2, 1, 4, 3]] :=
  ⟨C3_solve_enumerates_all examplePuzzle 12 examplePuzzle_wf (by decide) (by decide),
   by decide⟩

/-- Claim C4. For an initial grid of `N * N` values in `[0, N]` that passes `checkPuzzle`,
every grid that `solve` reports has `N * N` cells, none of them empty, has all values in
`[1, N]`, holds different values in any two peer cells, and agrees with the initial grid
on every cell that was non-empty initially. -/
theorem C4_reported_grids_valid (P : SudokuPuzzle) (fuel : Nat) (hP : P.WF)
    (hcheck : checkPuzzle P = some true) (hfuel : emptyCount P.cells < fuel) :
    ∃ T, (PuzzleSolver.new P).solveFuel fuel = some T ∧
      ∀ rep ∈ T.out, rep.grid.length = P.cells.length ∧ (∀ v ∈ rep.grid, v ≠ 0) ∧
        IsSolution P.rows P.cols rep.grid ∧ Agrees P.cells rep.grid := by
  obtain ⟨T, hT, _, henum⟩ := solve_new hP hfuel
  refine ⟨T, hT, fun rep hrep => ?_⟩
  have hmem : rep.grid ∈ T.grids := List.mem_map_of_mem _ hrep
  have hsol := henum.sound (consistent_of_checkPuzzle hP hcheck) _ hmem
  have hag := henum.agrees _ hmem
  exact ⟨hag.1, fun v hv => by have := hsol.range v hv; omega, hsol, hag⟩

theorem C4_witness :
    ∃ T, (PuzzleSolver.new examplePuzzle).solveFuel 12 = some T ∧
      ∀ rep ∈ T.out, rep.grid.length = examplePuzzle.cells.length ∧
        (∀ v ∈ rep.grid, v ≠ 0) ∧
        IsSolution examplePuzzle.rows examplePuzzle.cols rep.grid ∧
        Agrees examplePuzzle.cells rep.grid :=
  C4_reported_grids_valid examplePuzzle 12 examplePuzzle_wf (by decide) (by decide)

/-- Claim C5. For a solver whose working grid has `N * N` values in `[0, N]`: a call of
`solve` with more fuel than empty cells returns; whenever a call returns, with solutions or
at a dead end, the working grid `candidate` equals the one at the time of the call; and
after the callback of the branching loop has tried a value in an empty cell (write,
recurse, reset) the working grid equals the one before the value was tried; with at least
as much fuel as empty cells the callback returns. -/
theorem C5_solve_restores_candidate (S : PuzzleSolver) (hS : S.WF) :
    (∀ fuel, emptyCount S.candidate.cells < fuel →
      ∃ T, S.solveFuel fuel = some T ∧ T.candidate = S.candidate) ∧
    (∀ fuel T, S.solveFuel fuel = some T → T.candidate = S.candidate) ∧
    (∀ fuel (a : Cell) (v : Int) T, a.inRange S.candidate.N →
      S.candidate.atCell a.row a.col = some 0 → 1 ≤ v ∧ v ≤ S.candidate.N →
      PuzzleSolver.tryValue (PuzzleSolver.solveFuel fuel) a.row a.col v S = some T →
      T.candidate = S.candidate) ∧
    (∀ fuel (a : Cell) (v : Int), a.inRange S.candidate.N →
      S.candidate.atCell a.row a.col = some 0 → 1 ≤ v ∧ v ≤ S.candidate.N →
      emptyCount S.candidate.cells < fuel + 1 →
      ∃ T, PuzzleSolver.tryValue (PuzzleSolver.solveFuel fuel) a.row a.col v S = some T ∧
        T.candidate = S.candidate) := by
  refine ⟨fun fuel hfuel => ?_, fun fuel T hT => (solveSpec_of_returns hS hT).candidate_eq,
    fun fuel a v T ha h0 hv hT => ?_, fun fuel a v ha h0 hv hfuel => ?_⟩
  · obtain ⟨T, hT, hspec⟩ := solve_spec fuel S hS hfuel
    exact ⟨T, hT, hspec.candidate_eq⟩
  · have hP := hS.cand
    rw [tryValue_eq, setCell_eq hP ha, Option.some_bind] at hT
    obtain ⟨T1, hT1, hT⟩ := Option.bind_eq_some.1 hT
    have hwf : ({ S with candidate := S.candidate.withCell a v } : PuzzleSolver).WF :=
      ⟨withCell_wf hP a ⟨by omega, hv.2⟩, hS.N_eq⟩
    have hc1 : T1.candidate = S.candidate.withCell a v :=
      (solveSpec_of_returns hwf hT1).candidate_eq
    rw [hc1, setCell_eq (withCell_wf hP a ⟨by omega, hv.2⟩) ha, Option.some_bind,
      Option.some.injEq] at hT
    rw [← hT]
    rw [atCell_eq_index ha] at h0
    exact withCell_restore h0
  · rw [atCell_eq_index ha] at h0
    obtain ⟨T, hT, hc, _⟩ := tryValue_spec (solve_spec fuel) hS ha h0 hfuel hv
    exact ⟨T, hT, hc⟩

theorem C5_witness :
    (∀ fuel, emptyCount (PuzzleSolver.new examplePuzzle).candidate.cells < fuel →
      ∃ T, (PuzzleSolver.new examplePuzzle).solveFuel fuel = some T ∧
        T.candidate = (PuzzleSolver.new examplePuzzle).candidate) ∧
    (∀ fuel T, (PuzzleSolver.new examplePuzzle).solveFuel fuel = some T →
      T.candidate = (PuzzleSolver.new examplePuzzle).candidate) ∧
    (∀ fuel (a : Cell) (v : Int) T,
      a.inRange (PuzzleSolver.new examplePuzzle).candidate.N →
      (PuzzleSolver.new examplePuzzle).candidate.atCell a.row a.col = some 0 →
      1 ≤ v ∧ v ≤ (PuzzleSolver.new examplePuzzle).candidate.N →
      PuzzleSolver.tryValue (PuzzleSolver.solveFuel fuel) a.row a.col v
        (PuzzleSolver.new examplePuzzle) = some T →
      T.candidate = (PuzzleSolver.new examplePuzzle).candidate) ∧
    (∀ fuel (a : Cell) (v : Int),
      a.inRange (PuzzleSolver.new examplePuzzle).candidate.N →
      (PuzzleSolver.new examplePuzzle).candidate.atCell a.row a.col = some 0 →
      1 ≤ v ∧ v ≤ (PuzzleSolver.new examplePuzzle).candidate.N →
      emptyCount (PuzzleSolver.new examplePuzzle).candidate.cells < fuel + 1 →
      ∃ T, PuzzleSolver.tryValue (PuzzleSolver.solveFuel fuel) a.row a.col v
          (PuzzleSolver.new examplePuzzle) = some T ∧
        T.candidate = (PuzzleSolver.new examplePuzzle).candidate) :=
  C5_solve_restores_candidate (PuzzleSolver.new examplePuzzle) (new_wf examplePuzzle_wf)

/-! ## The validity check, in full -/

theorem shaped_of_wf {P : SudokuPuzzle} (hP : P.WF) : P.Shaped :=
  ⟨hP.rows_pos, hP.cols_pos, hP.N_eq, hP.graph_eq, hP.length_eq⟩

theorem atCell_shaped {P : SudokuPuzzle} (hP : P.Shaped) {a : Cell} (ha : a.inRange P.N) :
    P.atCell a.row a.col = some (P.cells.getD (cellIndex P.N a) 0) := by
  have hlt : cellIndex P.N a < P.cells.length := by
    rw [hP.length_eq]
    exact cellIndex_lt ha
  rw [atCell_eq_index ha, List.getD_eq_getElem?_getD, List.getElem?_eq_getElem hlt]
  rfl

theorem neighbors_shaped {P : SudokuPuzzle} (hP : P.Shaped) {a : Cell} (ha : a.inRange P.N) :
    P.graph.neighbors a.row a.col = some (specPeers P.rows P.cols a.row a.col) := by
  rw [hP.graph_eq]
  rw [hP.N_eq] at ha
  exact neighbors_new hP.rows_pos hP.cols_pos ⟨ha.1, ha.2.1⟩ ⟨ha.2.2.1, ha.2.2.2⟩

theorem inRange_peer_shaped {P : SudokuPuzzle} (hP : P.Shaped) {a b : Cell}
    (ha : a.inRange P.N) (hb : b ∈ specPeers P.rows P.cols a.row a.col) : b.inRange P.N := by
  rw [hP.N_eq] at ha ⊢
  exact inRange_of_mem_specPeers hP.rows_pos hP.cols_pos ⟨ha.1, ha.2.1⟩
    ⟨ha.2.2.1, ha.2.2.2⟩ hb

theorem checkPuzzle_peers_spec (P : SudokuPuzzle) (val : Int) (nb : List Cell)
    (H : ∀ c ∈ nb, ∃ w, P.atCell c.row c.col = some w) :
    ∃ ok, checkPuzzle.peers P val nb = some ok ∧
      (ok = false ↔ ∃ c ∈ nb, P.atCell c.row c.col = some val) := by
  induction nb with
  | nil => exact ⟨true, rfl, by simp⟩
  | cons cell nb ih =>
    have e : checkPuzzle.peers P val (cell :: nb) =
        (P.atCell cell.row cell.col).bind (fun v =>
          if v = val then some false else checkPuzzle.peers P val nb) := rfl
    obtain ⟨w, hw⟩ := H cell (List.mem_cons_self _ _)
    obtain ⟨ok, hok, hiff⟩ := ih (fun c hc => H c (List.mem_cons_of_mem _ hc))
    rw [e, hw, Option.some_bind]
    by_cases hwv : w = val
    · rw [if_pos hwv]
      exact ⟨false, rfl, fun _ => ⟨cell, List.mem_cons_self _ _, by rw [hw, hwv]⟩,
        fun _ => rfl⟩
    · rw [if_neg hwv]
      refine ⟨ok, hok, ?_⟩
      rw [hiff]
      constructor
      · rintro ⟨c, hc, hcv⟩
        exact ⟨c, List.mem_cons_of_mem _ hc, hcv⟩
      · rintro ⟨c, hc, hcv⟩
        rcases List.mem_cons.1 hc with hc | hc
        · subst hc
          rw [hw, Option.some.injEq] at hcv
          exact absurd hcv hwv
        · exact ⟨c, hc, hcv⟩

/-- The cell `(row, col)` is non-empty and one of its listed neighbors holds its value. -/
theorem checkPuzzle_cols_spec {P : SudokuPuzzle} (hP : P.Shaped) {row : Int}
    (hrow : 0 ≤ row ∧ row < P.N) (l : List Int) (hl : ∀ col ∈ l, 0 ≤ col ∧ col < P.N) :
    ∃ ok, checkPuzzle.cols P row l = some ok ∧
      (ok = false ↔ ∃ col ∈ l, ∃ v : Int, v ≠ 0 ∧ P.atCell row col = some v ∧
        ∃ b ∈ specPeers P.rows P.cols row col, P.atCell b.row b.col = some v) := by
  induction l with
  | nil => exact ⟨true, rfl, by simp⟩
  | cons c l ih =>
    have e : checkPuzzle.cols P row (c :: l) =
        (P.atCell row c).bind (fun val =>
          if val = 0 then checkPuzzle.cols P row l
          else (P.graph.neighbors row c).bind (fun nb =>
            (checkPuzzle.peers P val nb).bind (fun ok =>
              if ok then checkPuzzle.cols P row l else some false))) := rfl
    have hc := hl c (List.mem_cons_self _ _)
    have ha : (⟨row, c⟩ : Cell).inRange P.N := ⟨hrow.1, hrow.2, hc.1, hc.2⟩
    have hat := atCell_shaped hP ha
    obtain ⟨ok, hok, hiff⟩ := ih (fun col hcol => hl col (List.mem_cons_of_mem _ hcol))
    simp only at hat
    rw [e, hat, Option.some_bind]
    generalize P.cells.getD (cellIndex P.N ⟨row, c⟩) 0 = w at hat
    by_cases hw0 : w = 0
    · rw [if_pos hw0]
      refine ⟨ok, hok, ?_⟩
      rw [hiff]
      constructor
      · rintro ⟨col, hcol, h⟩
        exact ⟨col, List.mem_cons_of_mem _ hcol, h⟩
      · rintro ⟨col, hcol, v, hv0, hv, h⟩
        rcases List.mem_cons.1 hcol with hcol | hcol
        · subst hcol
          rw [hat, Option.some.injEq] at hv
          exact absurd (hv ▸ hw0) hv0
        · exact ⟨col, hcol, v, hv0, hv, h⟩
    · rw [if_neg hw0, neighbors_shaped hP ha, Option.some_bind]
      obtain ⟨okp, hokp, hiffp⟩ := checkPuzzle_peers_spec P w
        (specPeers P.rows P.cols row c) (fun b hb =>
          ⟨_, atCell_shaped hP (inRange_peer_shaped hP ha hb)⟩)
      rw [hokp, Option.some_bind]
      cases okp with
      | false =>
        have := hiffp.1 rfl
        exact ⟨false, by simp, fun _ => ⟨c, List.mem_cons_self _ _, w, hw0, hat, this⟩,
          fun _ => rfl⟩
      | true =>
        rw [if_pos rfl]
        refine ⟨ok, hok, ?_⟩
        rw [hiff]
        constructor
        · rintro ⟨col, hcol, h⟩
          exact ⟨col, List.mem_cons_of_mem _ hcol, h⟩
        · rintro ⟨col, hcol, v, hv0, hv, h⟩
          rcases List.mem_cons.1 hcol with hcol | hcol
          · subst hcol
            rw [hat, Option.some.injEq] at hv
            subst hv
            exact absurd (hiffp.2 h) (by simp)
          · exact ⟨col, hcol, v, hv0, hv, h⟩

theorem checkPuzzle_rows_spec {P : SudokuPuzzle} (hP : P.Shaped) (l : List Int)
    (hl : ∀ row ∈ l, 0 ≤ row ∧ row < P.N) :
    ∃ ok, checkPuzzle.rows P l = some ok ∧
      (ok = false ↔ ∃ row ∈ l, ∃ col, (0 ≤ col ∧ col < P.N) ∧ ∃ v : Int, v ≠ 0 ∧
        P.atCell row col = some v ∧
        ∃ b ∈ specPeers P.rows P.cols row col, P.atCell b.row b.col = some v) := by
  induction l with
  | nil => exact ⟨true, rfl, by simp⟩
  | cons r l ih =>
    have e : checkPuzzle.rows P (r :: l) =
        (checkPuzzle.cols P r (intRange P.N)).bind (fun ok =>
          if ok then checkPuzzle.rows P l else some false) := rfl
    have hr := hl r (List.mem_cons_self _ _)
    obtain ⟨okc, hokc, hiffc⟩ := checkPuzzle_cols_spec hP hr (intRange P.N)
      (fun col hcol => mem_intRange.1 hcol)
    obtain ⟨ok, hok, hiff⟩ := ih (fun row hrow => hl row (List.mem_cons_of_mem _ hrow))
    rw [e, hokc, Option.some_bind]
    cases okc with
    | false =>
      obtain ⟨col, hcol, h⟩ := hiffc.1 rfl
      exact ⟨false, by simp, fun _ => ⟨r, List.mem_cons_self _ _, col, mem_intRange.1 hcol, h⟩,
        fun _ => rfl⟩
    | true =>
      rw [if_pos rfl]
      refine ⟨ok, hok, ?_⟩
      rw [hiff]
      constructor
      · rintro ⟨row, hrow, h⟩
        exact ⟨row, List.mem_cons_of_mem _ hrow, h⟩
      · rintro ⟨row, hrow, col, hcol, h⟩
        rcases List.mem_cons.1 hrow with hrow | hrow
        · subst hrow
          exact absurd (hiffc.2 ⟨col, mem_intRange.2 hcol, h⟩) (by simp)
        · exact ⟨row, hrow, col, hcol, h⟩

/-- On a puzzle of valid shape `checkPuzzle` returns, and it returns `false` exactly when
some non-empty cell has a listed neighbor with the same value. -/
theorem checkPuzzle_spec {P : SudokuPuzzle} (hP : P.Shaped) :
    ∃ ok, checkPuzzle P = some ok ∧ (ok = false ↔ P.hasConflict) := by
  obtain ⟨ok, hok, hiff⟩ := checkPuzzle_rows_spec hP (intRange P.N)
    (fun row hrow => mem_intRange.1 hrow)
  refine ⟨ok, hok, ?_⟩
  rw [hiff]
  unfold SudokuPuzzle.hasConflict
  constructor
  · rintro ⟨row, hrow, col, hcol, v, hv0, hv, b, hb, hbv⟩
    have hrow2 := mem_intRange.1 hrow
    have ha : (⟨row, col⟩ : Cell).inRange P.N := ⟨hrow2.1, hrow2.2, hcol.1, hcol.2⟩
    exact ⟨⟨row, col⟩, ha, v, hv0, hv, _, neighbors_shaped hP ha, b, hb, hbv⟩
  · rintro ⟨a, ha, v, hv0, hv, nb, hnb, b, hb, hbv⟩
    rw [neighbors_shaped hP ha, Option.some.injEq] at hnb
    subst hnb
    exact ⟨a.row, mem_intRange.2 ⟨ha.1, ha.2.1⟩, a.col, ⟨ha.2.2.1, ha.2.2.2⟩, v, hv0, hv,
      b, hb, hbv⟩
/-! ## Reading integers from the input -/

theorem not_isSpace_of_isDigit {c : Char} (h : isDigit c = true) : isSpace c = false := by
  unfold isDigit at h
  unfold isSpace
  simp only [Bool.and_eq_true, decide_eq_true_eq] at h
  simp only [Bool.or_eq_false_iff, Bool.and_eq_false_iff, decide_eq_false_iff_not]
  omega

theorem not_sign_of_isDigit {c : Char} (h : isDigit c = true) :
    c.toNat ≠ 45 ∧ c.toNat ≠ 43 := by
  unfold isDigit at h
  simp only [Bool.and_eq_true, decide_eq_true_eq] at h
  omega

theorem dropWhile_append_stop {α : Type} (p : α → Bool) (ws l : List α)
    (hws : ∀ c ∈ ws, p c = true) (hl : ∀ c, l.head? = some c → p c = false) :
    (ws ++ l).dropWhile p = l := by
  induction ws with
  | nil =>
    cases l with
    | nil => rfl
    | cons c t =>
      have := hl c rfl
      simp [List.dropWhile_cons, this]
  | cons w ws ih =>
    have hw := hws w (List.mem_cons_self _ _)
    rw [List.cons_append, List.dropWhile_cons, if_pos hw]
    exact ih (fun c hc => hws c (List.mem_cons_of_mem _ hc))

theorem takeWhile_append_stop {α : Type} (p : α → Bool) (ws l : List α)
    (hws : ∀ c ∈ ws, p c = true) (hl : ∀ c, l.head? = some c → p c = false) :
    (ws ++ l).takeWhile p = ws := by
  induction ws with
  | nil =>
    cases l with
    | nil => rfl
    | cons c t =>
      have := hl c rfl
      simp [List.takeWhile_cons, this]
  | cons w ws ih =>
    have hw := hws w (List.mem_cons_self _ _)
    rw [List.cons_append, List.takeWhile_cons, if_pos hw,
      ih (fun c hc => hws c (List.mem_cons_of_mem _ hc))]

theorem head_dropWhile_stop {α : Type} (p : α → Bool) (l : List α) :
    ∀ c, (l.dropWhile p).head? = some c → p c = false := by
  intro c hc
  have := List.head?_dropWhile_not p l
  rw [hc] at this
  exact this

/-- The sign step on a text that starts with a numeral. -/
theorem readSign_numeral {neg : Bool} {sign ds rest : List Char}
    (hsign : (neg = true ∧ sign = [Char.ofNat 45]) ∨
      (neg = false ∧ (sign = [] ∨ sign = [Char.ofNat 43])))
    (hne : ds ≠ []) (hds : ∀ c ∈ ds, isDigit c = true) :
    readSign (sign ++ ds ++ rest) = (neg, ds ++ rest) := by
  rcases hsign with ⟨hn, hs⟩ | ⟨hn, hs | hs⟩
  · subst hn hs
    rfl
  · subst hn hs
    cases ds with
    | nil => exact absurd rfl hne
    | cons d ds =>
      have := not_sign_of_isDigit (hds d (List.mem_cons_self _ _))
      simp [readSign, this.1, this.2]
  · subst hn hs
    rfl

/-- An integer field at the start of the input is what the extraction reads. -/
theorem readInt_of_field {s rest : List Char} {v : Int} (h : IsField s v rest) :
    readInt s = some (v, rest) := by
  obtain ⟨ws, t, hs, hws, ⟨neg, sign, ds, ht, hsign, hne, hds, hv, hmin, hmax⟩, hrest⟩ := h
  subst hs ht
  have hfirst : ∀ c, (sign ++ ds ++ rest).head? = some c → isSpace c = false := by
    intro c hc
    cases ds with
    | nil => exact absurd rfl hne
    | cons d ds =>
      rcases hsign with ⟨_, hs⟩ | ⟨_, hs | hs⟩
      · subst hs
        simp only [List.singleton_append, List.cons_append, List.head?_cons,
          Option.some.injEq] at hc
        subst hc
        decide
      · subst hs
        simp only [List.nil_append, List.cons_append, List.head?_cons,
          Option.some.injEq] at hc
        subst hc
        exact not_isSpace_of_isDigit (hds _ (List.mem_cons_self _ _))
      · subst hs
        simp only [List.singleton_append, List.cons_append, List.head?_cons,
          Option.some.injEq] at hc
        subst hc
        decide
  unfold readInt
  rw [dropWhile_append_stop isSpace ws _ hws hfirst, readSign_numeral hsign hne hds]
  simp only
  rw [takeWhile_append_stop isDigit ds rest hds hrest,
    dropWhile_append_stop isDigit ds rest hds hrest]
  have hemp : ds.isEmpty = false := by
    cases ds with
    | nil => exact absurd rfl hne
    | cons d ds => rfl
  rw [hemp]
  simp only [Bool.false_eq_true, if_false]
  rw [← hv, if_pos ⟨hmin, hmax⟩]

/-- What the extraction reads is an integer field at the start of the input. -/
theorem field_of_readInt {s rest : List Char} {v : Int} (h : readInt s = some (v, rest)) :
    IsField s v rest := by
  unfold readInt at h
  simp only at h
  have hsplit := List.takeWhile_append_dropWhile isSpace s
  generalize hs1 : s.dropWhile isSpace = s1 at h hsplit
  have hsign : ∃ (neg : Bool) (sign : List Char), readSign s1 = (neg, (readSign s1).2) ∧
      neg = (readSign s1).1 ∧ s1 = sign ++ (readSign s1).2 ∧
      ((neg = true ∧ sign = [Char.ofNat 45]) ∨
        (neg = false ∧ (sign = [] ∨ sign = [Char.ofNat 43]))) := by
    cases s1 with
    | nil => exact ⟨false, [], rfl, rfl, rfl, Or.inr ⟨rfl, Or.inl rfl⟩⟩
    | cons c t =>
      by_cases h45 : c.toNat = 45
      · have hc : c = Char.ofNat 45 := by rw [← h45, Char.ofNat_toNat]
        refine ⟨true, [c], ?_, ?_, ?_, Or.inl ⟨rfl, by rw [hc]⟩⟩ <;> simp [readSign, h45]
      · by_cases h43 : c.toNat = 43
        · have hc : c = Char.ofNat 43 := by rw [← h43, Char.ofNat_toNat]
          refine ⟨false, [c], ?_, ?_, ?_, Or.inr ⟨rfl, Or.inr (by rw [hc])⟩⟩ <;>
            simp [readSign, h45, h43]
        · refine ⟨false, [], ?_, ?_, ?_, Or.inr ⟨rfl, Or.inl rfl⟩⟩ <;>
            simp [readSign, h45, h43]
  obtain ⟨neg, sign, _, hneg, hs1eq, hsigncases⟩ := hsign
  generalize (readSign s1).2 = body at h hs1eq
  rw [← hneg] at h
  have hbody := List.takeWhile_append_dropWhile isDigit body
  by_cases hemp : (body.takeWhile isDigit).isEmpty = true
  · rw [if_pos hemp] at h
    exact absurd h (by simp)
  · rw [if_neg hemp] at h
    by_cases hrange : intMin ≤ (if neg = true then -(digitsValue (body.takeWhile isDigit) : Int)
        else (digitsValue (body.takeWhile isDigit) : Int)) ∧
        (if neg = true then -(digitsValue (body.takeWhile isDigit) : Int)
        else (digitsValue (body.takeWhile isDigit) : Int)) ≤ intMax
    · rw [if_pos hrange, Option.some.injEq, Prod.mk.injEq] at h
      obtain ⟨hv, hrest⟩ := h
      refine ⟨s.takeWhile isSpace, sign ++ body.takeWhile isDigit, ?_,
        fun c hc => List.mem_takeWhile_imp hc,
        ⟨neg, sign, body.takeWhile isDigit, rfl, hsigncases, ?_,
          fun c hc => List.mem_takeWhile_imp hc, hv.symm, by rw [← hv]; exact hrange.1,
          by rw [← hv]; exact hrange.2⟩, ?_⟩
      · rw [← hrest, List.append_assoc, hbody, ← hs1eq, hsplit]
      · intro e
        rw [e] at hemp
        exact hemp rfl
      · rw [← hrest]
        exact head_dropWhile_stop isDigit body
    · rw [if_neg hrange] at h
      exact absurd h (by simp)

theorem readInt_iff_field (s rest : List Char) (v : Int) :
    readInt s = some (v, rest) ↔ IsField s v rest :=
  ⟨field_of_readInt, readInt_of_field⟩

/-! ## Loading a puzzle -/

/-- The fields at the start of a text are determined by the text. -/
theorem isFields_unique {s : List Char} {vals vals2 : List Int} {rest rest2 : List Char}
    (h : IsFields s vals rest) (h2 : IsFields s vals2 rest2) (hlen : vals.length = vals2.length) :
    vals = vals2 ∧ rest = rest2 := by
  induction vals generalizing s vals2 with
  | nil =>
    cases vals2 with
    | nil => exact ⟨rfl, h.symm.trans h2⟩
    | cons w vals2 => simp at hlen
  | cons v vals ih =>
    cases vals2 with
    | nil => simp at hlen
    | cons w vals2 =>
      obtain ⟨mid, hf, hrest⟩ := h
      obtain ⟨mid2, hf2, hrest2⟩ := h2
      have e := (readInt_of_field hf).symm.trans (readInt_of_field hf2)
      rw [Option.some.injEq, Prod.mk.injEq] at e
      obtain ⟨e1, e2⟩ := e
      subst e1 e2
      obtain ⟨e3, e4⟩ := ih hrest hrest2 (by simpa using hlen)
      exact ⟨by rw [e3], e4⟩

/-- A loop of `k` reads succeeds exactly when the input starts with `k` integer fields; it
appends their values to the cells and consumes them. -/
theorem loadLoop_spec {α : Type} (l : List α) (s s2 : List Char) (P P2 : SudokuPuzzle) :
    l.foldlM (fun st _ => SudokuPuzzle.loadStep st) (s, P) = some (s2, P2) ↔
      ∃ vals : List Int, vals.length = l.length ∧ IsFields s vals s2 ∧
        P2 = { P with cells := P.cells ++ vals } := by
  induction l generalizing s P with
  | nil =>
    simp only [List.foldlM_nil, List.length_nil]
    constructor
    · intro h
      have h2 : (s, P) = (s2, P2) := Option.some.inj h
      rw [Prod.mk.injEq] at h2
      exact ⟨[], rfl, h2.1, by simp [← h2.2]⟩
    · rintro ⟨vals, hlen, hs, hP2⟩
      rw [List.length_eq_zero] at hlen
      subst hlen
      simp only [List.append_nil] at hP2
      have hs2 : s = s2 := hs
      rw [hs2, hP2]
      rfl
  | cons x l ih =>
    rw [List.foldlM_cons]
    cases hr : readInt s with
    | none =>
      have e : SudokuPuzzle.loadStep (s, P) = none := by
        unfold SudokuPuzzle.loadStep
        simp only [hr]
      rw [e]
      constructor
      · intro h; exact absurd h (by simp)
      · rintro ⟨vals, hlen, hs, _⟩
        cases vals with
        | nil => simp at hlen
        | cons w vals =>
          obtain ⟨mid, hf, _⟩ := hs
          rw [readInt_of_field hf] at hr
          exact absurd hr (by simp)
    | some p =>
      obtain ⟨v, mid⟩ := p
      have e : SudokuPuzzle.loadStep (s, P) = some (mid, { P with cells := P.cells ++ [v] }) := by
        unfold SudokuPuzzle.loadStep
        simp only [hr]
      rw [e]
      show (Option.bind (some _) _ = _) ↔ _
      rw [Option.some_bind, ih]
      constructor
      · rintro ⟨vals, hlen, hs, hP2⟩
        refine ⟨v :: vals, by simp [hlen], ⟨mid, field_of_readInt hr, hs⟩, ?_⟩
        rw [hP2]
        simp
      · rintro ⟨vals, hlen, hs, hP2⟩
        cases vals with
        | nil => simp at hlen
        | cons w vals =>
          obtain ⟨mid2, hf, hrest⟩ := hs
          have e2 := hr.symm.trans (readInt_of_field hf)
          rw [Option.some.injEq, Prod.mk.injEq] at e2
          obtain ⟨e3, e4⟩ := e2
          subst e3 e4
          refine ⟨vals, by simpa using hlen, hrest, ?_⟩
          rw [hP2]
          simp

/-- The two shape reads of `load` succeed exactly when the input starts with two integer
fields. -/
theorem shape_spec (s mid : List Char) (rows cols : Int) :
    (∃ m1, readInt s = some (rows, m1) ∧ readInt m1 = some (cols, mid)) ↔
      IsFields s [rows, cols] mid := by
  constructor
  · rintro ⟨m1, h1, h2⟩
    exact ⟨m1, field_of_readInt h1, mid, field_of_readInt h2, rfl⟩
  · rintro ⟨m1, h1, m2, h2, h3⟩
    have h3 : m2 = mid := h3
    subst h3
    exact ⟨m1, readInt_of_field h1, readInt_of_field h2⟩

/-- Success of `load`: the input starts with two integer fields for the shape and then as
many integer fields as the loops read, and the puzzle holds exactly their values. -/
theorem load_spec (s : List Char) (P : SudokuPuzzle) :
    SudokuPuzzle.load s = some P ↔
      ∃ (rows cols : Int) (mid : List Char) (cells : List Int) (rest : List Char),
        IsFields s [rows, cols] mid ∧ cells.length = cellCount rows cols ∧
        IsFields mid cells rest ∧
        P = { SudokuPuzzle.new rows cols with cells := cells } := by
  have key : ∀ (rows cols : Int) (mid : List Char),
      ((intRange (rows * cols)).foldlM (fun st _ =>
        (intRange (rows * cols)).foldlM (fun st _ => SudokuPuzzle.loadStep st) st)
        (mid, SudokuPuzzle.new rows cols)).map Prod.snd = some P ↔
      ∃ (cells : List Int) (rest : List Char), cells.length = cellCount rows cols ∧
        IsFields mid cells rest ∧
        P = { SudokuPuzzle.new rows cols with cells := cells } := by
    intro rows cols mid
    rw [foldlM_nested (fun _ _ st => SudokuPuzzle.loadStep st)]
    have hlen : ((intRange (rows * cols)).flatMap (fun r =>
        (intRange (rows * cols)).map (fun c => (⟨r, c⟩ : Cell)))).length
        = cellCount rows cols := length_allCells (rows * cols)
    rw [Option.map_eq_some']
    constructor
    · rintro ⟨⟨s2, P2⟩, h, hP⟩
      simp only at hP
      subst hP
      obtain ⟨vals, hvlen, hs, hP2⟩ := (loadLoop_spec _ _ _ _ _).1 h
      exact ⟨vals, s2, by rw [hvlen, hlen], hs, by rw [hP2]; rfl⟩
    · rintro ⟨cells, rest, hclen, hs, hP⟩
      refine ⟨(rest, P), (loadLoop_spec _ _ _ _ _).2 ⟨cells, by rw [hclen, hlen], hs, ?_⟩,
        rfl⟩
      rw [hP]
      rfl
  cases h1 : readInt s with
  | none =>
    have e : SudokuPuzzle.load s = none := by
      unfold SudokuPuzzle.load
      simp only [h1]
    rw [e]
    constructor
    · intro h; exact absurd h (by simp)
    · rintro ⟨rows, cols, mid, _, _, hs, _⟩
      obtain ⟨m1, hr, _⟩ := (shape_spec s mid rows cols).2 hs
      rw [hr] at h1
      exact absurd h1 (by simp)
  | some p1 =>
    obtain ⟨rows, m1⟩ := p1
    cases h2 : readInt m1 with
    | none =>
      have e : SudokuPuzzle.load s = none := by
        unfold SudokuPuzzle.load
        simp only [h1, h2]
      rw [e]
      constructor
      · intro h; exact absurd h (by simp)
      · rintro ⟨rows2, cols, mid, _, _, hs, _⟩
        obtain ⟨m1b, hr, hc⟩ := (shape_spec s mid rows2 cols).2 hs
        rw [h1, Option.some.injEq, Prod.mk.injEq] at hr
        rw [← hr.2, h2] at hc
        exact absurd hc (by simp)
    | some p2 =>
      obtain ⟨cols, mid⟩ := p2
      have e : SudokuPuzzle.load s =
          ((intRange (rows * cols)).foldlM (fun st _ =>
            (intRange (rows * cols)).foldlM (fun st _ => SudokuPuzzle.loadStep st) st)
            (mid, SudokuPuzzle.new rows cols)).map Prod.snd := by
        unfold SudokuPuzzle.load
        simp only [h1, h2]
      rw [e, key]
      constructor
      · rintro ⟨cells, rest, hlen, hs, hP⟩
        exact ⟨rows, cols, mid, cells, rest, (shape_spec s mid rows cols).1 ⟨m1, h1, h2⟩,
          hlen, hs, hP⟩
      · rintro ⟨rows2, cols2, mid2, cells, rest, hshape, hlen, hs, hP⟩
        obtain ⟨m1b, hr, hc⟩ := (shape_spec s mid2 rows2 cols2).2 hshape
        rw [h1, Option.some.injEq, Prod.mk.injEq] at hr
        obtain ⟨e1, e2⟩ := hr
        subst e1 e2
        rw [h2, Option.some.injEq, Prod.mk.injEq] at hc
        obtain ⟨e3, e4⟩ := hc
        subst e3 e4
        exact ⟨cells, rest, hlen, hs, hP⟩

/-- Failure and success of `load` in terms of the integer fields at the start of the
input. -/
theorem load_fields (s : List Char) :
    (SudokuPuzzle.load s = none ↔
      (¬ ∃ (rows cols : Int) (mid : List Char), IsFields s [rows, cols] mid) ∨
      ∃ (rows cols : Int) (mid : List Char), IsFields s [rows, cols] mid ∧
        ¬ ∃ (cells : List Int) (rest : List Char),
          cells.length = cellCount rows cols ∧ IsFields mid cells rest) ∧
    (∀ P, SudokuPuzzle.load s = some P ↔
      ∃ (rows cols : Int) (mid : List Char) (cells : List Int) (rest : List Char),
        IsFields s [rows, cols] mid ∧ cells.length = cellCount rows cols ∧
        IsFields mid cells rest ∧
        P.rows = rows ∧ P.cols = cols ∧ P.N = rows * cols ∧
        P.graph = SudokuGraph.new rows cols ∧ P.cells = cells) := by
  have hsome : ∀ P, SudokuPuzzle.load s = some P ↔
      ∃ (rows cols : Int) (mid : List Char) (cells : List Int) (rest : List Char),
        IsFields s [rows, cols] mid ∧ cells.length = cellCount rows cols ∧
        IsFields mid cells rest ∧
        P.rows = rows ∧ P.cols = cols ∧ P.N = rows * cols ∧
        P.graph = SudokuGraph.new rows cols ∧ P.cells = cells := by
    intro P
    rw [load_spec]
    constructor
    · rintro ⟨rows, cols, mid, cells, rest, h1, h2, h3, hP⟩
      subst hP
      exact ⟨rows, cols, mid, cells, rest, h1, h2, h3, rfl, rfl, rfl, rfl, rfl⟩
    · rintro ⟨rows, cols, mid, cells, rest, h1, h2, h3, e1, e2, e3, e4, e5⟩
      refine ⟨rows, cols, mid, cells, rest, h1, h2, h3, ?_⟩
      cases P
      simp only at e1 e2 e3 e4 e5
      subst e1 e2 e3 e4 e5
      rfl
  refine ⟨?_, hsome⟩
  constructor
  · intro h
    by_cases hshape : ∃ (rows cols : Int) (mid : List Char), IsFields s [rows, cols] mid
    · obtain ⟨rows, cols, mid, hs⟩ := hshape
      refine Or.inr ⟨rows, cols, mid, hs, ?_⟩
      rintro ⟨cells, rest, hlen, hc⟩
      have := (load_spec s _).2 ⟨rows, cols, mid, cells, rest, hs, hlen, hc, rfl⟩
      rw [h] at this
      exact absurd this (by simp)
    · exact Or.inl hshape
  · intro h
    cases hl : SudokuPuzzle.load s with
    | none => rfl
    | some P =>
      obtain ⟨rows, cols, mid, cells, rest, h1, h2, h3, _⟩ := (load_spec s P).1 hl
      rcases h with h | ⟨rows2, cols2, mid2, hs, hno⟩
      · exact absurd ⟨rows, cols, mid, h1⟩ h
      · obtain ⟨e1, e2⟩ := isFields_unique h1 hs rfl
        simp only [List.cons.injEq, and_true] at e1
        obtain ⟨e3, e4⟩ := e1
        subst e2 e3 e4
        exact absurd ⟨cells, rest, h2, h3⟩ hno

/-- Claim C15 fails as stated.  The file `1 1-0` has two whitespace-delimited tokens, so
the cell token of the 1×1 board is missing, yet `load` yields the puzzle with the cell 0:
an extraction stops at the first character that cannot continue the number, which need
not be whitespace.  The file `1 1 0abc` has the third token `0abc`, which is not a
numeral, yet `load` yields the same puzzle.  The file `-1 2` gives `N = -2`, so
`N * N = 4` cell tokens are expected and none is present, yet the read loops do not run
and `load` yields a puzzle with no cells. -/
theorem C15_counterexample :
    ((∃ P, SudokuPuzzle.load gluedInput = some P ∧ P.rows = 1 ∧ P.cols = 1 ∧
        P.cells = [0]) ∧ (tokens gluedInput).length = 2) ∧
    ((∃ P, SudokuPuzzle.load trailingInput = some P ∧ P.rows = 1 ∧ P.cols = 1 ∧
        P.cells = [0]) ∧
      (∃ t, tokens trailingInput = [['1'], ['1'], t] ∧ ¬ ∃ v, IsNumeral t v)) ∧
    ((∃ P, SudokuPuzzle.load negativeInput = some P ∧ P.N = -2 ∧ P.cells = []) ∧
      (tokens negativeInput).length = 2 ∧ ((-1 : Int) * 2) * ((-1) * 2) = 4) := by
  refine ⟨⟨⟨_, rfl, rfl, rfl, rfl⟩, by decide⟩,
    ⟨⟨_, rfl, rfl, rfl, rfl⟩, ['0', 'a', 'b', 'c'], by decide, ?_⟩,
    ⟨_, rfl, rfl, rfl⟩, by decide, by decide⟩
  rintro ⟨v, neg, sign, ds, ht, hsign, _, hds, _⟩
  have ha : isDigit 'a' = false := by decide
  rcases hsign with ⟨_, hs⟩ | ⟨_, hs | hs⟩
  · subst hs
    simp only [List.singleton_append, List.cons.injEq] at ht
    exact absurd ht.1 (by decide)
  · subst hs
    simp only [List.nil_append] at ht
    subst ht
    rw [hds 'a' (by simp)] at ha
    exact absurd ha (by simp)
  · subst hs
    simp only [List.singleton_append, List.cons.injEq] at ht
    exact absurd ht.1 (by decide)

/-- Claim C15, amended.  Take the input as the characters of the file, and an integer field
as what one extraction `in >> val` consumes: whitespace (possibly none), an optional sign,
and a maximal non-empty run of digits whose signed value lies in `[-2^31, 2^31 - 1]`; a
field ends at the first character that is not a digit, which need not be whitespace.  For
an input whose shape product `N = blockRows * blockCols` fits in an `int`, `load` yields
no puzzle exactly when the input does not start with two integer fields (`blockRows`,
`blockCols`), or these are not followed by `n` further integer fields, where `n = N * N`
for `N ≥ 0` and `n = 0` for `N < 0`; and it yields the puzzle `P` exactly when the input
starts with `2 + n` integer fields, `rows` and `cols` of `P` are the first two values, `N`
and `graph` are those of the constructor, and the cells of `P` are the next `n` values, in
the order read. -/
theorem C15_load_fields (s : List Char)
    (_hfit : ∀ (rows cols : Int) (mid : List Char), IsFields s [rows, cols] mid →
      intMin ≤ rows * cols ∧ rows * cols ≤ intMax) :
    (SudokuPuzzle.load s = none ↔
      (¬ ∃ (rows cols : Int) (mid : List Char), IsFields s [rows, cols] mid) ∨
      ∃ (rows cols : Int) (mid : List Char), IsFields s [rows, cols] mid ∧
        ¬ ∃ (cells : List Int) (rest : List Char),
          cells.length = cellCount rows cols ∧ IsFields mid cells rest) ∧
    (∀ P, SudokuPuzzle.load s = some P ↔
      ∃ (rows cols : Int) (mid : List Char) (cells : List Int) (rest : List Char),
        IsFields s [rows, cols] mid ∧ cells.length = cellCount rows cols ∧
        IsFields mid cells rest ∧
        P.rows = rows ∧ P.cols = cols ∧ P.N = rows * cols ∧
        P.graph = SudokuGraph.new rows cols ∧ P.cells = cells) :=
  load_fields s

theorem C15_witness :
    (∀ (rows cols : Int) (mid : List Char), IsFields hugeInput [rows, cols] mid →
      intMin ≤ rows * cols ∧ rows * cols ≤ intMax) ∧
    ((SudokuPuzzle.load hugeInput = none ↔
      (¬ ∃ (rows cols : Int) (mid : List Char), IsFields hugeInput [rows, cols] mid) ∨
      ∃ (rows cols : Int) (mid : List Char), IsFields hugeInput [rows, cols] mid ∧
        ¬ ∃ (cells : List Int) (rest : List Char),
          cells.length = cellCount rows cols ∧ IsFields mid cells rest) ∧
    (∀ P, SudokuPuzzle.load hugeInput = some P ↔
      ∃ (rows cols : Int) (mid : List Char) (cells : List Int) (rest : List Char),
        IsFields hugeInput [rows, cols] mid ∧ cells.length = cellCount rows cols ∧
        IsFields mid cells rest ∧
        P.rows = rows ∧ P.cols = cols ∧ P.N = rows * cols ∧
        P.graph = SudokuGraph.new rows cols ∧ P.cells = cells)) ∧
    SudokuPuzzle.load hugeInput = none :=
  have hfit : ∀ (rows cols : Int) (mid : List Char), IsFields hugeInput [rows, cols] mid →
      intMin ≤ rows * cols ∧ rows * cols ≤ intMax := by
    intro rows cols mid h
    have h0 : IsFields hugeInput [1, 1] (hugeInput.drop 3) :=
      (shape_spec _ _ _ _).1 ⟨hugeInput.drop 1, by rfl, by rfl⟩
    obtain ⟨e, _⟩ := isFields_unique h h0 rfl
    simp only [List.cons.injEq, and_true] at e
    rw [e.1, e.2]
    decide
  ⟨hfit, C15_load_fields hugeInput hfit, by rfl⟩

/-! ## The driver `main` -/

theorem main_of_load_none {input : List Char} (fuel : Nat)
    (h : SudokuPuzzle.load input = none) : main fuel input = some ⟨-1, none, none, none⟩ := by
  unfold main
  rw [h]

theorem main_of_check_false {input : List Char} {P : SudokuPuzzle} (fuel : Nat)
    (h : SudokuPuzzle.load input = some P) (hc : checkPuzzle P = some false) :
    main fuel input = some ⟨0, some false, none, none⟩ := by
  unfold main
  rw [h]
  show Option.bind (checkPuzzle P) _ = _
  rw [hc]
  rfl

theorem main_of_check_true {input : List Char} {P : SudokuPuzzle} (fuel : Nat)
    (h : SudokuPuzzle.load input = some P) (hc : checkPuzzle P = some true) :
    main fuel input = (printPuzzle P).bind (fun echoed =>
      ((PuzzleSolver.new P).solveFuel fuel).bind (fun T =>
        some ⟨0, some true, some echoed, some T⟩)) := by
  unfold main
  rw [h]
  show Option.bind (checkPuzzle P) _ = _
  rw [hc]
  rfl

/-- Two different cells of one row that hold the same non-zero value are a conflict. -/
theorem hasConflict_of_row {P : SudokuPuzzle} (hP : P.Shaped) {a b : Cell}
    (ha : a.inRange P.N) (hb : b.inRange P.N) (hrow : b.row = a.row) (hne : b ≠ a)
    {v : Int} (hv : v ≠ 0) (hav : P.atCell a.row a.col = some v)
    (hbv : P.atCell b.row b.col = some v) : P.hasConflict := by
  refine ⟨a, ha, v, hv, hav, _, neighbors_shaped hP ha, b, ?_, hbv⟩
  rw [mem_specPeers_iff hP.rows_pos hP.cols_pos (by rw [← hP.N_eq]; exact hb)]
  exact ⟨hne, Or.inl hrow⟩

/-- Claim C11. On a puzzle of valid shape with `N * N` cell values, `checkPuzzle` returns;
it returns `false` exactly when some non-empty cell has a cell in its neighbor list holding
the same value, and `true` otherwise.  In particular it returns `false` when two different
cells of one row hold the same non-zero value, and `main`, when it has loaded such a
puzzle, reports it as not OK and returns without invoking the solver. -/
theorem C11_checkPuzzle_iff (P : SudokuPuzzle) (hP : P.Shaped) :
    (∃ ok, checkPuzzle P = some ok ∧ (ok = false ↔ P.hasConflict) ∧
      (ok = true ↔ ¬ P.hasConflict)) ∧
    (∀ (a b : Cell) (v : Int), a.inRange P.N → b.inRange P.N → b.row = a.row → b ≠ a →
      v ≠ 0 → P.atCell a.row a.col = some v → P.atCell b.row b.col = some v →
      checkPuzzle P = some false ∧
      ∀ (fuel : Nat) (input : List Char), SudokuPuzzle.load input = some P →
        main fuel input = some ⟨0, some false, none, none⟩) := by
  obtain ⟨ok, hok, hiff⟩ := checkPuzzle_spec hP
  refine ⟨⟨ok, hok, hiff, ?_⟩, fun a b v ha hb hrow hne hv hav hbv => ?_⟩
  · rw [← hiff]
    cases ok <;> simp
  · have hconf := hasConflict_of_row hP ha hb hrow hne hv hav hbv
    have hfalse : checkPuzzle P = some false := by
      rw [hok, hiff.2 hconf]
    exact ⟨hfalse, fun fuel input hload => main_of_check_false fuel hload hfalse⟩

theorem C11_witness :
    conflictPuzzle.Shaped ∧
    (checkPuzzle conflictPuzzle = some false ∧
      ∀ (fuel : Nat) (input : List Char),
        SudokuPuzzle.load input = some conflictPuzzle →
        main fuel input = some ⟨0, some false, none, none⟩) ∧
    SudokuPuzzle.load conflictInput = some conflictPuzzle :=
  ⟨⟨by decide, by decide, rfl, rfl, by decide⟩,
   (C11_checkPuzzle_iff conflictPuzzle ⟨by decide, by decide, rfl, rfl, by decide⟩).2
     ⟨0, 0⟩ ⟨0, 2⟩ 3 (by decide) (by decide) rfl (by decide) (by decide) (by decide)
     (by decide),
   by rfl⟩

/-! ## Single calls of `solve` -/

/-- The three ways a call of `solve` on a well-formed solver proceeds: it returns at a dead
end (some empty cell has no candidate), it reports the grid (no cell is empty), or it
branches on an empty in-range cell, running the callback over the candidate values. -/
theorem solveFuel_cases {S : PuzzleSolver} (hS : S.WF) :
    (S.scan = some Scan.deadEnd ∧
      (∃ a : Cell, a.inRange S.candidate.N ∧ S.candidate.atCell a.row a.col = some 0 ∧
        S.candidate.numCandidates a = 0) ∧
      ∀ fuel, S.solveFuel (fuel + 1) = some { S with nodes := S.nodes + 1 }) ∨
    ((∃ lc, S.scan = some (Scan.running lc (-1) (-1))) ∧ (∀ v ∈ S.candidate.cells, v ≠ 0) ∧
      ∀ fuel, S.solveFuel (fuel + 1) = some { S with
        s := S.s + 1
        nodes := 0
        out := S.out ++
          [⟨S.s + 1, S.nodes, S.candidate.rows, S.candidate.cols, S.candidate.cells⟩] }) ∨
    (∃ (lc : Int) (a : Cell), S.scan = some (Scan.running lc a.row a.col) ∧
      a.inRange S.candidate.N ∧ S.candidate.atCell a.row a.col = some 0 ∧
      (∀ b : Cell, b.inRange S.candidate.N → S.candidate.atCell b.row b.col = some 0 →
        1 ≤ S.candidate.numCandidates b ∧
        S.candidate.numCandidates a ≤ S.candidate.numCandidates b) ∧
      ∀ fuel, S.solveFuel (fuel + 1) =
        (S.candidate.candidates
          (specPeers S.candidate.rows S.candidate.cols a.row a.col)).foldlM
          (fun st v => PuzzleSolver.tryValue (PuzzleSolver.solveFuel fuel) a.row a.col v st)
          S) := by
  have hP := hS.cand
  obtain ⟨st, hscan, hinv⟩ := scan_spec hS
  cases st with
  | deadEnd =>
    obtain ⟨a, ha, h0, hnum⟩ := hinv
    refine Or.inl ⟨hscan, ⟨a, mem_allCells.1 ha, h0, hnum⟩, fun fuel => ?_⟩
    rw [solveFuel_succ, hscan, Option.some_bind]
  | running lc row col =>
    rcases hinv.2 with ⟨h1, h2, _, h4⟩ | ⟨h1, h2, h3⟩
    · subst h1 h2
      refine Or.inr (Or.inl ⟨⟨lc, hscan⟩, no_zero_of_scan hP h4, fun fuel => ?_⟩)
      rw [solveFuel_succ, hscan, Option.some_bind]
      simp only [and_self, if_true]
      rw [printPuzzle_eq hP, Option.some_bind]
    · have ha : (⟨row, col⟩ : Cell).inRange S.candidate.N := mem_allCells.1 h1
      refine Or.inr (Or.inr ⟨lc, ⟨row, col⟩, hscan, ha, h2, fun b hb hb0 => ?_, fun fuel => ?_⟩)
      · have := hinv.1 b (mem_allCells.2 hb) hb0
        refine ⟨this.1, ?_⟩
        have h5 := this.2
        rw [h3] at h5
        exact_mod_cast h5
      · have hne : ¬ (row = -1 ∧ col = -1) := fun e => by
          have := ha.1
          simp only at this
          omega
        rw [solveFuel_succ, hscan, Option.some_bind]
        simp only [hne, if_false]
        rw [forAllPossibleValuesOf_eq hP ⟨ha.1, ha.2.1⟩ ⟨ha.2.2.1, ha.2.2.2⟩]

/-! ## The log of invocations -/

theorem solveLog_succ (fuel : Nat) (S : PuzzleSolver) (log : List Call) :
    PuzzleSolver.solveLog (fuel + 1) (S, log) = S.scan.bind (fun sc =>
      match sc with
      | .deadEnd => some ({ S with nodes := S.nodes + 1 }, log ++ [Call.deadEnd])
      | .running _ row col =>
        if row = -1 ∧ col = -1 then
          (printPuzzle S.candidate).bind (fun grid =>
            some ({ S with
              s := S.s + 1
              nodes := 0
              out := S.out ++
                [⟨S.s + 1, S.nodes, S.candidate.rows, S.candidate.cols, grid⟩] },
              log ++ [Call.solution S.nodes]))
        else
          S.candidate.forAllPossibleValuesOf row col
            (PuzzleSolver.tryValueLog (PuzzleSolver.solveLog fuel) row col)
            (S, log ++ [Call.branch])) := rfl

theorem tryValueLog_eq (rec : PuzzleSolver × List Call → Option (PuzzleSolver × List Call))
    (row col val : Int) (st : PuzzleSolver × List Call) :
    PuzzleSolver.tryValueLog rec row col val st =
      (st.1.candidate.setCell row col val).bind (fun cand =>
        (rec ({ st.1 with candidate := cand }, st.2)).bind (fun st2 =>
          (st2.1.candidate.setCell row col 0).bind (fun cand =>
            some ({ st2.1 with candidate := cand }, st2.2)))) := rfl

/-- Erasing the log from a fold: if every step of `f` projects to the step of `g`, so does
the fold. -/
theorem foldlM_erase {α σ τ : Type} (p : σ → τ) {f : σ → α → Option σ}
    {g : τ → α → Option τ} (hfg : ∀ st a, (f st a).map p = g (p st) a) (l : List α) (st : σ) :
    (l.foldlM f st).map p = l.foldlM g (p st) := by
  induction l generalizing st with
  | nil => rfl
  | cons a l ih =>
    rw [List.foldlM_cons, List.foldlM_cons, ← hfg st a]
    cases h : f st a with
    | none => rfl
    | some st1 =>
      show (l.foldlM f st1).map p = Option.bind (Option.map p (some st1)) _
      rw [Option.map_some', Option.some_bind]
      exact ih st1

theorem forAllPossibleValuesOf_erase {σ τ : Type} (p : σ → τ) {f : Int → σ → Option σ}
    {g : Int → τ → Option τ} (hfg : ∀ v st, (f v st).map p = g v (p st)) (P : SudokuPuzzle)
    (row col : Int) (st : σ) :
    (P.forAllPossibleValuesOf row col f st).map p
      = P.forAllPossibleValuesOf row col g (p st) := by
  unfold SudokuPuzzle.forAllPossibleValuesOf
  cases P.graph.neighbors row col with
  | none => rfl
  | some nb =>
    show Option.map p (Option.bind (some nb) _) = Option.bind (some nb) _
    rw [Option.some_bind, Option.some_bind]
    cases P.eliminate nb (List.replicate P.N.toNat true) with
    | none => rfl
    | some possible =>
      show Option.map p (Option.bind (some possible) _) = Option.bind (some possible) _
      rw [Option.some_bind, Option.some_bind]
      apply foldlM_erase p
      intro st1 val
      cases vget possible (val - 1) with
      | none => rfl
      | some b =>
        show Option.map p (Option.bind (some b) _) = Option.bind (some b) _
        rw [Option.some_bind, Option.some_bind]
        cases b with
        | true => exact hfg val st1
        | false => rfl

/-- The instrumented `solve` computes the state of `solve`. -/
theorem solveLog_erase (fuel : Nat) : ∀ (S : PuzzleSolver) (log : List Call),
    (PuzzleSolver.solveLog fuel (S, log)).map Prod.fst = S.solveFuel fuel := by
  induction fuel with
  | zero => intro S log; rfl
  | succ fuel ih =>
    intro S log
    rw [solveLog_succ, solveFuel_succ]
    cases S.scan with
    | none => rfl
    | some sc =>
      rw [Option.some_bind, Option.some_bind]
      cases sc with
      | deadEnd => rfl
      | running lc row col =>
        by_cases hcond : row = -1 ∧ col = -1
        · simp only [hcond, and_self, if_true]
          cases printPuzzle S.candidate <;> rfl
        · simp only [hcond, if_false]
          apply forAllPossibleValuesOf_erase Prod.fst
          intro v st
          rw [tryValueLog_eq, tryValue_eq]
          cases st.1.candidate.setCell row col v with
          | none => rfl
          | some cand =>
            rw [Option.some_bind, Option.some_bind, ← ih]
            cases PuzzleSolver.solveLog fuel ({ st.1 with candidate := cand }, st.2) with
            | none => rfl
            | some st2 =>
              rw [Option.some_bind, Option.map_some', Option.some_bind]
              cases st2.1.candidate.setCell row col 0 <;> rfl

theorem logStep_refl (st : PuzzleSolver × List Call) : LogStep st st :=
  ⟨[], by simp, rfl⟩

theorem logStep_trans {st st2 st3 : PuzzleSolver × List Call} (h1 : LogStep st st2)
    (h2 : LogStep st2 st3) : LogStep st st3 := by
  obtain ⟨ev1, hlog1, hrep1⟩ := h1
  obtain ⟨ev2, hlog2, hrep2⟩ := h2
  refine ⟨ev1 ++ ev2, by rw [hlog2, hlog1, List.append_assoc], ?_⟩
  rw [hrep2, hrep1, List.foldl_append]

/-- A fold whose steps all satisfy a reflexive, transitive relation satisfies it. -/
theorem foldlM_rel {α σ : Type} (R : σ → σ → Prop) (hrefl : ∀ st, R st st)
    (htrans : ∀ st st2 st3, R st st2 → R st2 st3 → R st st3) {f : σ → α → Option σ}
    (hf : ∀ st a st2, f st a = some st2 → R st st2) (l : List α) (st st2 : σ)
    (h : l.foldlM f st = some st2) : R st st2 := by
  induction l generalizing st with
  | nil =>
    have : st = st2 := Option.some.inj h
    rw [this]
    exact hrefl st2
  | cons a l ih =>
    rw [List.foldlM_cons] at h
    obtain ⟨st1, h1, h2⟩ := Option.bind_eq_some.1 h
    exact htrans _ _ _ (hf st a st1 h1) (ih st1 h2)

theorem forAllPossibleValuesOf_rel {σ : Type} (R : σ → σ → Prop) (hrefl : ∀ st, R st st)
    (htrans : ∀ st st2 st3, R st st2 → R st2 st3 → R st st3) {f : Int → σ → Option σ}
    (hf : ∀ v st st2, f v st = some st2 → R st st2) (P : SudokuPuzzle) (row col : Int)
    (st st2 : σ) (h : P.forAllPossibleValuesOf row col f st = some st2) : R st st2 := by
  unfold SudokuPuzzle.forAllPossibleValuesOf at h
  obtain ⟨nb, _, h⟩ := Option.bind_eq_some.1 h
  obtain ⟨p, _, h⟩ := Option.bind_eq_some.1 h
  refine foldlM_rel R hrefl htrans ?_ _ st st2 h
  intro st1 val st3 hstep
  obtain ⟨b, _, hstep⟩ := Option.bind_eq_some.1 hstep
  cases b with
  | true => exact hf val st1 st3 hstep
  | false =>
    have : st1 = st3 := Option.some.inj hstep
    rw [this]
    exact hrefl st3

/-- Every returning call of the instrumented `solve` appends its invocations to the log,
and the node counter and the printed node counts follow the replay of these. -/
theorem solveLog_logStep (fuel : Nat) : ∀ (S : PuzzleSolver) (log : List Call)
    (st2 : PuzzleSolver × List Call),
    PuzzleSolver.solveLog fuel (S, log) = some st2 → LogStep (S, log) st2 := by
  induction fuel with
  | zero => intro S log st2 h; exact absurd h (by simp [PuzzleSolver.solveLog])
  | succ fuel ih =>
    intro S log st2 h
    rw [solveLog_succ] at h
    obtain ⟨sc, _, h⟩ := Option.bind_eq_some.1 h
    cases sc with
    | deadEnd =>
      have e : st2 = ({ S with nodes := S.nodes + 1 }, log ++ [Call.deadEnd]) :=
        (Option.some.inj h).symm
      rw [e]
      exact ⟨[Call.deadEnd], rfl, rfl⟩
    | running lc row col =>
      by_cases hcond : row = -1 ∧ col = -1
      · simp only [hcond, and_self, if_true] at h
        obtain ⟨grid, _, h⟩ := Option.bind_eq_some.1 h
        have e := (Option.some.inj h).symm
        rw [e]
        refine ⟨[Call.solution S.nodes], rfl, ?_⟩
        simp [Call.replay]
      · simp only [hcond, if_false] at h
        have h1 : LogStep (S, log) (S, log ++ [Call.branch]) := ⟨[Call.branch], rfl, rfl⟩
        refine logStep_trans h1 ?_
        refine forAllPossibleValuesOf_rel LogStep logStep_refl
          (fun _ _ _ => logStep_trans) ?_ _ _ _ _ _ h
        intro v st st3 hv
        rw [tryValueLog_eq] at hv
        obtain ⟨cand, _, hv⟩ := Option.bind_eq_some.1 hv
        obtain ⟨st4, h4, hv⟩ := Option.bind_eq_some.1 hv
        obtain ⟨cand2, _, hv⟩ := Option.bind_eq_some.1 hv
        have e := (Option.some.inj hv).symm
        rw [e]
        obtain ⟨ev, hev, hrep⟩ := ih { st.1 with candidate := cand } st.2 st4 h4
        exact ⟨ev, hev, hrep⟩

/-- The run of the instrumented solver on a well-formed puzzle: it returns with the state
of the plain solver, and the node counts printed are the dead-end counts of the log. -/
theorem solveLog_new {P : SudokuPuzzle} (hP : P.WF) {fuel : Nat}
    (hfuel : emptyCount P.cells < fuel) :
    ∃ T log, PuzzleSolver.solveLog fuel (PuzzleSolver.new P, []) = some (T, log) ∧
      (PuzzleSolver.new P).solveFuel fuel = some T ∧
      T.out.map Report.nodes = (log.foldl Call.replay (0, [])).2 ∧
      T.nodes = (log.foldl Call.replay (0, [])).1 := by
  obtain ⟨T, hT, _⟩ := solve_spec fuel (PuzzleSolver.new P) (new_wf hP) hfuel
  have herase := solveLog_erase fuel (PuzzleSolver.new P) []
  rw [hT, Option.map_eq_some'] at herase
  obtain ⟨⟨T2, log⟩, hrun, hfst⟩ := herase
  simp only at hfst
  subst hfst
  obtain ⟨ev, hev, hrep⟩ := solveLog_logStep fuel _ _ _ hrun
  simp only [List.nil_append] at hev
  subst hev
  have hrep2 : (T2.nodes, T2.out.map Report.nodes) = log.foldl Call.replay (0, []) := hrep
  refine ⟨T2, log, hrun, hT, ?_, ?_⟩
  · rw [← hrep2]
  · rw [← hrep2]

/-- Claim C13 fails as stated: on the 1×1 puzzle with its cell empty the first invocation
of `solve` branches and the second reports the solution, so one invocation precedes the
report (two with the reporting one), but the node count printed is 0. -/
theorem C13_counterexample :
    (PuzzleSolver.solveLog 2 (PuzzleSolver.new unitPuzzle, [])).map
        (fun st => (st.1.out.map Report.nodes, st.2))
      = some ([0], [Call.branch, Call.solution 0]) ∧
    ([Call.branch, Call.solution 0].foldl Call.replayAll (0, [])).2 = [1] := by
  constructor <;> decide

/-- Claim C13, amended. For each solution reported by `solve`, the node count printed with
it is the number of invocations of `solve` that ended at a dead end since the previous
solution was reported (since the start, for the first solution); invocations that branch
or report are not counted.  Stated for the run on a well-formed puzzle with more fuel than
empty cells: the instrumented run returns the state of the plain run, and the printed node
counts are those obtained by replaying the log of invocations. -/
theorem C13_nodes_count_dead_ends (P : SudokuPuzzle) (fuel : Nat) (hP : P.WF)
    (hfuel : emptyCount P.cells < fuel) :
    ∃ T log, PuzzleSolver.solveLog fuel (PuzzleSolver.new P, []) = some (T, log) ∧
      (PuzzleSolver.new P).solveFuel fuel = some T ∧
      T.out.map Report.nodes = (log.foldl Call.replay (0, [])).2 ∧
      T.nodes = (log.foldl Call.replay (0, [])).1 :=
  solveLog_new hP hfuel

theorem C13_witness :
    ∃ T log, PuzzleSolver.solveLog 12 (PuzzleSolver.new examplePuzzle, []) = some (T, log) ∧
      (PuzzleSolver.new examplePuzzle).solveFuel 12 = some T ∧
      T.out.map Report.nodes = (log.foldl Call.replay (0, [])).2 ∧
      T.nodes = (log.foldl Call.replay (0, [])).1 :=
  C13_nodes_count_dead_ends examplePuzzle 12 examplePuzzle_wf (by decide)

theorem unitPuzzle_run :
    (PuzzleSolver.new unitPuzzle).solveFuel 2 = some
      { PuzzleSolver.new unitPuzzle with s := 1, nodes := 0, out := [⟨1, 0, 1, 1, [1]⟩] } := by
  rfl

/-- Claim C14. For the shape (1, 1) and the grid `[0]`, `solve` (with any fuel from 2 on)
reports exactly one solution, the grid `[1]`, labelled with index 1 and node count 0; the
node counter is 0 at the end, and the log of invocations holds one branching and one
reporting invocation and no dead end. -/
theorem C14_unit_puzzle (fuel : Nat) :
    (∃ T, (PuzzleSolver.new unitPuzzle).solveFuel (fuel + 2) = some T ∧
      T.out = [⟨1, 0, 1, 1, [1]⟩] ∧ T.grids = [[1]] ∧ T.nodes = 0 ∧ T.s = 1) ∧
    (PuzzleSolver.solveLog 2 (PuzzleSolver.new unitPuzzle, [])).map Prod.snd
      = some [Call.branch, Call.solution 0] := by
  refine ⟨⟨_, solveFuel_mono (by omega) _ _ unitPuzzle_run, rfl, rfl, rfl, rfl⟩, by decide⟩

/-! ## Dead ends, complete grids, termination -/

theorem zero_mem_of_atCell {P : SudokuPuzzle} {a : Cell} (ha : a.inRange P.N)
    (h0 : P.atCell a.row a.col = some 0) : (0 : Int) ∈ P.cells := by
  rw [atCell_eq_index ha] at h0
  obtain ⟨hi, hget⟩ := List.getElem?_eq_some_iff.1 h0
  rw [← hget]
  exact List.getElem_mem hi

/-- A call of `solve` on a grid with an empty cell that has no candidate value. -/
theorem solve_dead_end {S : PuzzleSolver} (hS : S.WF) {a : Cell}
    (ha : a.inRange S.candidate.N) (h0 : S.candidate.atCell a.row a.col = some 0)
    (hc : S.candidate.countPossibleValuesOf a.row a.col = some 0) (fuel : Nat)
    (log : List Call) :
    S.solveFuel (fuel + 1) = some { S with nodes := S.nodes + 1 } ∧
    PuzzleSolver.solveLog (fuel + 1) (S, log)
      = some ({ S with nodes := S.nodes + 1 }, log ++ [Call.deadEnd]) := by
  have hnum : S.candidate.numCandidates a = 0 := by
    rw [countPossibleValuesOf_eq hS.cand ⟨ha.1, ha.2.1⟩ ⟨ha.2.2.1, ha.2.2.2⟩,
      Option.some.injEq] at hc
    unfold SudokuPuzzle.numCandidates
    exact_mod_cast hc
  rcases solveFuel_cases hS with ⟨hscan, _, hrun⟩ | ⟨_, hz, _⟩ | ⟨_, _, _, _, _, hmin, _⟩
  · refine ⟨hrun fuel, ?_⟩
    rw [solveLog_succ, hscan, Option.some_bind]
  · exact absurd rfl (hz 0 (zero_mem_of_atCell ha h0))
  · have := (hmin a ha h0).1
    omega

/-- Claim C18. When `solve` is called on a grid of `N * N` values in `[0, N]` in which some
empty cell has zero candidates, the call returns (already with fuel for a single
invocation, so it makes no recursive call), the state it returns differs from the one at
the call only in the node counter, which is larger by one (so nothing is reported and the
working grid and the solution index `s` are unchanged), and the log of invocations gets
the single entry of a dead end. -/
theorem C18_dead_end (S : PuzzleSolver) (a : Cell) (fuel : Nat) (log : List Call)
    (hS : S.WF) (ha : a.inRange S.candidate.N)
    (h0 : S.candidate.atCell a.row a.col = some 0)
    (hc : S.candidate.countPossibleValuesOf a.row a.col = some 0) :
    S.solveFuel (fuel + 1) = some { S with nodes := S.nodes + 1 } ∧
    PuzzleSolver.solveLog (fuel + 1) (S, log)
      = some ({ S with nodes := S.nodes + 1 }, log ++ [Call.deadEnd]) :=
  solve_dead_end hS ha h0 hc fuel log

/-- A call of `solve` on a grid without empty cell. -/
theorem solve_complete {S : PuzzleSolver} (hS : S.WF) (hz : ∀ v ∈ S.candidate.cells, v ≠ 0)
    (fuel : Nat) (log : List Call) :
    S.solveFuel (fuel + 1) = some { S with
      s := S.s + 1
      nodes := 0
      out := S.out ++
        [⟨S.s + 1, S.nodes, S.candidate.rows, S.candidate.cols, S.candidate.cells⟩] } ∧
    PuzzleSolver.solveLog (fuel + 1) (S, log) = some ({ S with
      s := S.s + 1
      nodes := 0
      out := S.out ++
        [⟨S.s + 1, S.nodes, S.candidate.rows, S.candidate.cols, S.candidate.cells⟩] },
      log ++ [Call.solution S.nodes]) := by
  rcases solveFuel_cases hS with ⟨_, ⟨a, ha, h0, _⟩, _⟩ | ⟨⟨lc, hscan⟩, _, hrun⟩ |
    ⟨_, a, _, ha, h0, _, _⟩
  · exact absurd rfl (hz 0 (zero_mem_of_atCell ha h0))
  · refine ⟨hrun fuel, ?_⟩
    rw [solveLog_succ, hscan, Option.some_bind]
    simp only [and_self, if_true]
    rw [printPuzzle_eq hS.cand, Option.some_bind]
  · exact absurd rfl (hz 0 (zero_mem_of_atCell ha h0))

/-- Claim C19. When `solve` is called on a grid of `N * N` values without empty cell, the
call returns (already with fuel for a single invocation); it appends exactly one report,
which carries the index `s + 1`, the current node counter and the grid itself; afterwards
`s` is larger by one, the node counter is zero, and everything else, the working grid
included, is unchanged. -/
theorem C19_complete_grid (S : PuzzleSolver) (fuel : Nat) (log : List Call) (hS : S.WF)
    (hz : ∀ v ∈ S.candidate.cells, v ≠ 0) :
    S.solveFuel (fuel + 1) = some { S with
      s := S.s + 1
      nodes := 0
      out := S.out ++
        [⟨S.s + 1, S.nodes, S.candidate.rows, S.candidate.cols, S.candidate.cells⟩] } ∧
    PuzzleSolver.solveLog (fuel + 1) (S, log) = some ({ S with
      s := S.s + 1
      nodes := 0
      out := S.out ++
        [⟨S.s + 1, S.nodes, S.candidate.rows, S.candidate.cols, S.candidate.cells⟩] },
      log ++ [Call.solution S.nodes]) :=
  solve_complete hS hz fuel log

theorem deadPuzzle_wf : deadPuzzle.WF :=
  ⟨by decide, by decide, rfl, rfl, by decide, by decide⟩

theorem solvedPuzzle_wf : solvedPuzzle.WF :=
  ⟨by decide, by decide, rfl, rfl, by decide, by decide⟩

theorem C18_witness :
    (PuzzleSolver.new deadPuzzle).solveFuel (0 + 1)
      = some { PuzzleSolver.new deadPuzzle with
          nodes := (PuzzleSolver.new deadPuzzle).nodes + 1 } ∧
    PuzzleSolver.solveLog (0 + 1) (PuzzleSolver.new deadPuzzle, [])
      = some ({ PuzzleSolver.new deadPuzzle with
          nodes := (PuzzleSolver.new deadPuzzle).nodes + 1 }, [] ++ [Call.deadEnd]) :=
  C18_dead_end (PuzzleSolver.new deadPuzzle) ⟨0, 0⟩ 0 [] (new_wf deadPuzzle_wf) (by decide)
    (by decide) (by decide)

theorem C19_witness :
    (PuzzleSolver.new solvedPuzzle).solveFuel (0 + 1) = some
      { PuzzleSolver.new solvedPuzzle with
        s := (PuzzleSolver.new solvedPuzzle).s + 1
        nodes := 0
        out := (PuzzleSolver.new solvedPuzzle).out ++
          [⟨(PuzzleSolver.new solvedPuzzle).s + 1, (PuzzleSolver.new solvedPuzzle).nodes,
            (PuzzleSolver.new solvedPuzzle).candidate.rows,
            (PuzzleSolver.new solvedPuzzle).candidate.cols,
            (PuzzleSolver.new solvedPuzzle).candidate.cells⟩] } ∧
    PuzzleSolver.solveLog (0 + 1) (PuzzleSolver.new solvedPuzzle, []) = some
      ({ PuzzleSolver.new solvedPuzzle with
        s := (PuzzleSolver.new solvedPuzzle).s + 1
        nodes := 0
        out := (PuzzleSolver.new solvedPuzzle).out ++
          [⟨(PuzzleSolver.new solvedPuzzle).s + 1, (PuzzleSolver.new solvedPuzzle).nodes,
            (PuzzleSolver.new solvedPuzzle).candidate.rows,
            (PuzzleSolver.new solvedPuzzle).candidate.cols,
            (PuzzleSolver.new solvedPuzzle).candidate.cells⟩] },
        [] ++ [Call.solution (PuzzleSolver.new solvedPuzzle).nodes]) :=
  C19_complete_grid (PuzzleSolver.new solvedPuzzle) 0 [] (new_wf solvedPuzzle_wf) (by decide)

/-- The recursive call of the callback is made on the grid with the value written, which
has exactly one empty cell less. -/
theorem tryValue_recursive_call {S : PuzzleSolver} (hS : S.WF) {a : Cell}
    (ha : a.inRange S.candidate.N) (h0 : S.candidate.atCell a.row a.col = some 0)
    {v : Int} (hv : 1 ≤ v ∧ v ≤ S.candidate.N) :
    ∃ S1 : PuzzleSolver, S1.WF ∧
      emptyCount S1.candidate.cells + 1 = emptyCount S.candidate.cells ∧
      ∀ rec : PuzzleSolver → Option PuzzleSolver,
        PuzzleSolver.tryValue rec a.row a.col v S =
          (rec S1).bind (fun T =>
            (T.candidate.setCell a.row a.col 0).bind (fun cand =>
              some { T with candidate := cand })) := by
  have hP := hS.cand
  rw [atCell_eq_index ha] at h0
  refine ⟨{ S with candidate := S.candidate.withCell a v },
    ⟨withCell_wf hP a ⟨by omega, hv.2⟩, hS.N_eq⟩,
    emptyCount_withCell h0 (by omega), fun rec => ?_⟩
  rw [tryValue_eq, setCell_eq hP ha, Option.some_bind]

/-- Termination of `solve`. -/
theorem solve_terminates {S : PuzzleSolver} (hS : S.WF) :
    (∃ T, S.solveFuel (emptyCount S.candidate.cells + 1) = some T ∧
      ∀ fuel, emptyCount S.candidate.cells < fuel → S.solveFuel fuel = some T) ∧
    (∀ fuel, S.solveFuel (fuel + 1) = some { S with nodes := S.nodes + 1 } ∨
      S.solveFuel (fuel + 1) = some { S with
        s := S.s + 1
        nodes := 0
        out := S.out ++
          [⟨S.s + 1, S.nodes, S.candidate.rows, S.candidate.cols, S.candidate.cells⟩] } ∨
      ∃ (a : Cell) (vs : List Int), a.inRange S.candidate.N ∧
        S.candidate.atCell a.row a.col = some 0 ∧ (∀ v ∈ vs, 1 ≤ v ∧ v ≤ S.candidate.N) ∧
        S.solveFuel (fuel + 1) = vs.foldlM
          (fun st v => PuzzleSolver.tryValue (PuzzleSolver.solveFuel fuel) a.row a.col v st)
          S) ∧
    (∀ (a : Cell) (v : Int), a.inRange S.candidate.N →
      S.candidate.atCell a.row a.col = some 0 → 1 ≤ v ∧ v ≤ S.candidate.N →
      ∃ S1 : PuzzleSolver, S1.WF ∧
        emptyCount S1.candidate.cells + 1 = emptyCount S.candidate.cells ∧
        ∀ rec : PuzzleSolver → Option PuzzleSolver,
          PuzzleSolver.tryValue rec a.row a.col v S =
            (rec S1).bind (fun T =>
              (T.candidate.setCell a.row a.col 0).bind (fun cand =>
                some { T with candidate := cand }))) := by
  refine ⟨?_, fun fuel => ?_, fun a v ha h0 hv => tryValue_recursive_call hS ha h0 hv⟩
  · obtain ⟨T, hT, _⟩ := solve_spec (emptyCount S.candidate.cells + 1) S hS (by omega)
    exact ⟨T, hT, fun fuel hfuel => solveFuel_mono (by omega) S T hT⟩
  · rcases solveFuel_cases hS with ⟨_, _, hrun⟩ | ⟨_, _, hrun⟩ | ⟨_, a, _, ha, h0, _, hrun⟩
    · exact Or.inl (hrun fuel)
    · exact Or.inr (Or.inl (hrun fuel))
    · exact Or.inr (Or.inr ⟨a, _, ha, h0,
        fun v hv => ⟨(mem_candidates.1 hv).1, (mem_candidates.1 hv).2.1⟩, hrun fuel⟩)

/-- Claim C16. On every board with `blockRows, blockCols ≥ 1` and every grid of `N * N`
values in `[0, N]`, `solve` terminates: run with fuel for a recursion depth of one more
than the number of empty cells it returns, and more fuel does not change the result.  A
call either returns at a dead end, or reports and returns, or runs the callback over
values of `[1, N]` at an empty in-range cell; and the recursive call made by the callback
is on a grid with exactly one empty cell less than the grid of the caller. -/
theorem C16_solve_terminates (S : PuzzleSolver) (hS : S.WF) :
    (∃ T, S.solveFuel (emptyCount S.candidate.cells + 1) = some T ∧
      ∀ fuel, emptyCount S.candidate.cells < fuel → S.solveFuel fuel = some T) ∧
    (∀ fuel, S.solveFuel (fuel + 1) = some { S with nodes := S.nodes + 1 } ∨
      S.solveFuel (fuel + 1) = some { S with
        s := S.s + 1
        nodes := 0
        out := S.out ++
          [⟨S.s + 1, S.nodes, S.candidate.rows, S.candidate.cols, S.candidate.cells⟩] } ∨
      ∃ (a : Cell) (vs : List Int), a.inRange S.candidate.N ∧
        S.candidate.atCell a.row a.col = some 0 ∧ (∀ v ∈ vs, 1 ≤ v ∧ v ≤ S.candidate.N) ∧
        S.solveFuel (fuel + 1) = vs.foldlM
          (fun st v => PuzzleSolver.tryValue (PuzzleSolver.solveFuel fuel) a.row a.col v st)
          S) ∧
    (∀ (a : Cell) (v : Int), a.inRange S.candidate.N →
      S.candidate.atCell a.row a.col = some 0 → 1 ≤ v ∧ v ≤ S.candidate.N →
      ∃ S1 : PuzzleSolver, S1.WF ∧
        emptyCount S1.candidate.cells + 1 = emptyCount S.candidate.cells ∧
        ∀ rec : PuzzleSolver → Option PuzzleSolver,
          PuzzleSolver.tryValue rec a.row a.col v S =
            (rec S1).bind (fun T =>
              (T.candidate.setCell a.row a.col 0).bind (fun cand =>
                some { T with candidate := cand }))) :=
  solve_terminates hS

theorem C16_witness :
    ∃ T, (PuzzleSolver.new examplePuzzle).solveFuel
        (emptyCount (PuzzleSolver.new examplePuzzle).candidate.cells + 1) = some T ∧
      ∀ fuel, emptyCount (PuzzleSolver.new examplePuzzle).candidate.cells < fuel →
        (PuzzleSolver.new examplePuzzle).solveFuel fuel = some T :=
  (C16_solve_terminates (PuzzleSolver.new examplePuzzle) (new_wf examplePuzzle_wf)).1

/-! ## The choice of the branching cell -/

/-- The cell at position `i` of `allCells N` has index `i`. -/
theorem cellIndex_getElem_allCells {N : Int} (hN : 1 ≤ N) {i : Nat} {a : Cell}
    (h : (allCells N)[i]? = some a) : cellIndex N a = i := by
  have hi : i < (allCells N).length := (List.getElem?_eq_some_iff.1 h).1
  rw [length_allCells, ← toNat_mul_self (by omega)] at hi
  obtain ⟨b, hb, hbi⟩ := exists_cell_of_index hN hi
  have := getElem?_allCells hb
  rw [hbi, h, Option.some.injEq] at this
  rw [this]
  exact hbi

/-- In a split of `allCells N`, the cells before the split have smaller indices. -/
theorem cellIndex_lt_of_split {N : Int} (hN : 1 ≤ N) {pre rest : List Cell} {a b : Cell}
    (hl : allCells N = pre ++ a :: rest) (hb : b ∈ pre) :
    cellIndex N b < cellIndex N a := by
  have ha : (allCells N)[pre.length]? = some a := by
    rw [hl, List.getElem?_append_right (le_refl _)]
    simp
  obtain ⟨j, hj, hget⟩ := List.getElem_of_mem hb
  have hbj : (allCells N)[j]? = some b := by
    rw [hl, List.getElem?_append_left hj, List.getElem?_eq_getElem hj, hget]
  rw [cellIndex_getElem_allCells hN ha, cellIndex_getElem_allCells hN hbj]
  exact hj

/-- A loop invariant indexed by the split of the list at the current element. -/
theorem foldlM_invariant_split {α σ : Type} (step : σ → α → Option σ)
    (Inv : List α → σ → Prop) (l : List α)
    (hstep : ∀ pre a rest st, l = pre ++ a :: rest → Inv pre st →
      ∃ st2, step st a = some st2 ∧ Inv (pre ++ [a]) st2)
    (pre : List α) (init : σ) (h0 : Inv pre init) (rest : List α) (hl : l = pre ++ rest) :
    ∃ st, rest.foldlM step init = some st ∧ Inv l st := by
  induction rest generalizing pre init with
  | nil =>
    rw [List.append_nil] at hl
    rw [hl]
    exact ⟨init, rfl, h0⟩
  | cons a rest ih =>
    obtain ⟨st2, h2, hinv⟩ := hstep pre a rest init hl h0
    obtain ⟨st, h3, hinv3⟩ := ih (pre ++ [a]) st2 hinv (by rw [hl]; simp)
    refine ⟨st, ?_, hinv3⟩
    rw [List.foldlM_cons, h2]
    exact h3

theorem scanStep_first {S : PuzzleSolver} (hS : S.WF) (pre : List Cell) (a : Cell)
    (rest : List Cell) (st : Scan) (hl : allCells S.candidate.N = pre ++ a :: rest)
    (hinv : ScanInv S.candidate pre st ∧ ScanFirst S.candidate pre st) :
    ∃ st2, S.scanStep a.row a.col st = some st2 ∧
      ScanInv S.candidate (pre ++ [a]) st2 ∧ ScanFirst S.candidate (pre ++ [a]) st2 := by
  have hP := hS.cand
  have hmem : a ∈ allCells S.candidate.N := by rw [hl]; simp
  obtain ⟨st2, hstep, hinv2⟩ := scanStep_inv hS pre a st hmem hinv.1
  refine ⟨st2, hstep, hinv2, ?_⟩
  have ha := mem_allCells.1 hmem
  have hr : 0 ≤ a.row ∧ a.row < S.candidate.N := ⟨ha.1, ha.2.1⟩
  have hc : 0 ≤ a.col ∧ a.col < S.candidate.N := ⟨ha.2.2.1, ha.2.2.2⟩
  cases st with
  | deadEnd =>
    have : st2 = Scan.deadEnd := (Option.some.inj hstep).symm
    rw [this]
    trivial
  | running lc row col =>
    obtain ⟨⟨hmin, hsel⟩, hfirst⟩ := hinv
    obtain ⟨v, hv, _, _⟩ := atCell_some hP hr hc
    rw [scanStep_running, hv, Option.some_bind] at hstep
    have hle := numCandidates_le S.candidate a
    have hN := wf_N_pos hP
    by_cases hv0 : v = 0
    · subst hv0
      rw [if_pos rfl, countPossibleValuesOf_eq hP hr hc, Option.some_bind] at hstep
      have hnum : (S.candidate.candidates
          (specPeers S.candidate.rows S.candidate.cols a.row a.col)).length
          = S.candidate.numCandidates a := rfl
      rw [hnum] at hstep
      by_cases h0 : (S.candidate.numCandidates a : Int) = 0
      · rw [if_pos h0] at hstep
        have : st2 = Scan.deadEnd := (Option.some.inj hstep).symm
        rw [this]
        trivial
      · rw [if_neg h0] at hstep
        by_cases hlt : lc > (S.candidate.numCandidates a : Int)
        · rw [if_pos hlt] at hstep
          have : st2 = Scan.running (S.candidate.numCandidates a) a.row a.col :=
            (Option.some.inj hstep).symm
          rw [this]
          intro b hb hb0 hbn
          rcases List.mem_append.1 hb with hb | hb
          · have := (hmin b hb hb0).2
            omega
          · rw [List.mem_singleton] at hb
            rw [hb]
        · rw [if_neg hlt] at hstep
          have : st2 = Scan.running lc row col := (Option.some.inj hstep).symm
          rw [this]
          intro b hb hb0 hbn
          rcases List.mem_append.1 hb with hb | hb
          · exact hfirst b hb hb0 hbn
          · rw [List.mem_singleton] at hb
            subst hb
            rcases hsel with ⟨_, _, h3, _⟩ | ⟨h1, _, _⟩
            · omega
            · exact Nat.le_of_lt (cellIndex_lt_of_split hN hl h1)
    · rw [if_neg hv0] at hstep
      have : st2 = Scan.running lc row col := (Option.some.inj hstep).symm
      rw [this]
      intro b hb hb0 hbn
      rcases List.mem_append.1 hb with hb | hb
      · exact hfirst b hb hb0 hbn
      · rw [List.mem_singleton] at hb
        subst hb
        rw [hv, Option.some.injEq] at hb0
        exact absurd hb0 hv0

/-- The scan returns with both invariants established for all cells of the board. -/
theorem scan_first {S : PuzzleSolver} (hS : S.WF) :
    ∃ st, S.scan = some st ∧ ScanInv S.candidate (allCells S.candidate.N) st ∧
      ScanFirst S.candidate (allCells S.candidate.N) st := by
  unfold PuzzleSolver.scan
  rw [foldlM_nested (fun r c st => S.scanStep r c st), hS.N_eq]
  have := foldlM_invariant_split (fun st (a : Cell) => S.scanStep a.row a.col st)
    (fun pre st => ScanInv S.candidate pre st ∧ ScanFirst S.candidate pre st)
    (allCells S.candidate.N)
    (fun pre a rest st hl hinv => scanStep_first hS pre a rest st hl hinv) []
    (Scan.running (S.candidate.N + 1) (-1) (-1))
    ⟨⟨by simp, Or.inl ⟨rfl, rfl, rfl, by simp⟩⟩, by intro b hb; simp at hb⟩
    (allCells S.candidate.N) rfl
  simpa [allCells] using this

/-- The cell `solve` branches on: the first, in row-major order, of the empty cells with
the fewest candidates. -/
theorem solve_branches_on_first_min {S : PuzzleSolver} (hS : S.WF)
    (hex : ∃ b : Cell, b.inRange S.candidate.N ∧ S.candidate.atCell b.row b.col = some 0)
    (hlive : ∀ b : Cell, b.inRange S.candidate.N → S.candidate.atCell b.row b.col = some 0 →
      S.candidate.countPossibleValuesOf b.row b.col ≠ some 0) :
    ∃ (lc : Int) (a : Cell), S.scan = some (Scan.running lc a.row a.col) ∧
      a.inRange S.candidate.N ∧ S.candidate.atCell a.row a.col = some 0 ∧
      S.candidate.countPossibleValuesOf a.row a.col = some lc ∧
      (∀ b : Cell, b.inRange S.candidate.N → S.candidate.atCell b.row b.col = some 0 →
        ∃ m : Int, S.candidate.countPossibleValuesOf b.row b.col = some m ∧ lc ≤ m ∧
          (m = lc → cellIndex S.candidate.N a ≤ cellIndex S.candidate.N b)) ∧
      ∀ fuel, S.solveFuel (fuel + 1) =
        S.candidate.forAllPossibleValuesOf a.row a.col
          (PuzzleSolver.tryValue (PuzzleSolver.solveFuel fuel) a.row a.col) S := by
  have hP := hS.cand
  have hcount : ∀ b : Cell, b.inRange S.candidate.N →
      S.candidate.countPossibleValuesOf b.row b.col
        = some (S.candidate.numCandidates b : Int) := fun b hb =>
    countPossibleValuesOf_eq hP ⟨hb.1, hb.2.1⟩ ⟨hb.2.2.1, hb.2.2.2⟩
  obtain ⟨st, hscan, hinv, hfirst⟩ := scan_first hS
  cases st with
  | deadEnd =>
    obtain ⟨a, ha, h0, hnum⟩ := hinv
    have := hlive a (mem_allCells.1 ha) h0
    rw [hcount a (mem_allCells.1 ha), hnum] at this
    exact absurd rfl this
  | running lc row col =>
    rcases hinv.2 with ⟨_, _, _, h4⟩ | ⟨h1, h2, h3⟩
    · obtain ⟨b, hb, hb0⟩ := hex
      exact absurd hb0 (h4 b (mem_allCells.2 hb))
    · have ha : (⟨row, col⟩ : Cell).inRange S.candidate.N := mem_allCells.1 h1
      refine ⟨lc, ⟨row, col⟩, hscan, ha, h2, by rw [hcount _ ha, h3], fun b hb hb0 => ?_,
        fun fuel => ?_⟩
      · refine ⟨_, hcount b hb, (hinv.1 b (mem_allCells.2 hb) hb0).2, fun hm => ?_⟩
        exact hfirst b (mem_allCells.2 hb) hb0 hm
      · have hne : ¬ (row = -1 ∧ col = -1) := fun e => by
          have := ha.1
          simp only at this
          omega
        rw [solveFuel_succ, hscan, Option.some_bind]
        simp only [hne, if_false]

/-- Claim C17. When the working grid (of `N * N` values in `[0, N]`) has at least one empty
cell and no empty cell has zero candidates, the scan of `solve` ends with an empty in-range
cell `a` and its candidate count `lc`, and `solve` runs the branching loop on `a`; every
empty cell has a candidate count of at least `lc`, and every empty cell with count `lc` has
a row-major index of at least that of `a`. -/
theorem C17_branching_cell (S : PuzzleSolver) (hS : S.WF)
    (hex : ∃ b : Cell, b.inRange S.candidate.N ∧ S.candidate.atCell b.row b.col = some 0)
    (hlive : ∀ b : Cell, b.inRange S.candidate.N → S.candidate.atCell b.row b.col = some 0 →
      S.candidate.countPossibleValuesOf b.row b.col ≠ some 0) :
    ∃ (lc : Int) (a : Cell), S.scan = some (Scan.running lc a.row a.col) ∧
      a.inRange S.candidate.N ∧ S.candidate.atCell a.row a.col = some 0 ∧
      S.candidate.countPossibleValuesOf a.row a.col = some lc ∧
      (∀ b : Cell, b.inRange S.candidate.N → S.candidate.atCell b.row b.col = some 0 →
        ∃ m : Int, S.candidate.countPossibleValuesOf b.row b.col = some m ∧ lc ≤ m ∧
          (m = lc → cellIndex S.candidate.N a ≤ cellIndex S.candidate.N b)) ∧
      ∀ fuel, S.solveFuel (fuel + 1) =
        S.candidate.forAllPossibleValuesOf a.row a.col
          (PuzzleSolver.tryValue (PuzzleSolver.solveFuel fuel) a.row a.col) S :=
  solve_branches_on_first_min hS hex hlive

theorem examplePuzzle_live :
    ∀ b ∈ allCells 4, examplePuzzle.atCell b.row b.col = some 0 →
      examplePuzzle.countPossibleValuesOf b.row b.col ≠ some 0 := by
  decide

theorem C17_witness :
    (∃ (lc : Int) (a : Cell),
      (PuzzleSolver.new examplePuzzle).scan = some (Scan.running lc a.row a.col) ∧
      a.inRange (PuzzleSolver.new examplePuzzle).candidate.N ∧
      (PuzzleSolver.new examplePuzzle).candidate.atCell a.row a.col = some 0 ∧
      (PuzzleSolver.new examplePuzzle).candidate.countPossibleValuesOf a.row a.col
        = some lc ∧
      (∀ b : Cell, b.inRange (PuzzleSolver.new examplePuzzle).candidate.N →
        (PuzzleSolver.new examplePuzzle).candidate.atCell b.row b.col = some 0 →
        ∃ m : Int,
          (PuzzleSolver.new examplePuzzle).candidate.countPossibleValuesOf b.row b.col
            = some m ∧ lc ≤ m ∧
          (m = lc → cellIndex (PuzzleSolver.new examplePuzzle).candidate.N a
            ≤ cellIndex (PuzzleSolver.new examplePuzzle).candidate.N b)) ∧
      ∀ fuel, (PuzzleSolver.new examplePuzzle).solveFuel (fuel + 1) =
        (PuzzleSolver.new examplePuzzle).candidate.forAllPossibleValuesOf a.row a.col
          (PuzzleSolver.tryValue (PuzzleSolver.solveFuel fuel) a.row a.col)
          (PuzzleSolver.new examplePuzzle)) ∧
    (PuzzleSolver.new examplePuzzle).scan = some (Scan.running 1 1 0) :=
  ⟨C17_branching_cell (PuzzleSolver.new examplePuzzle) (new_wf examplePuzzle_wf)
    ⟨⟨0, 1⟩, by decide, by decide⟩
    (fun b hb => examplePuzzle_live b (mem_allCells.2 hb)),
   by decide⟩

/-! ## Absence of out-of-range accesses -/

theorem length_new_g (rows cols : Int) :
    (SudokuGraph.new rows cols).g.length = (rows * cols).toNat * (rows * cols).toNat := by
  rw [new_g]
  simp [List.length_flatMap, Function.comp_def, length_intRange]

theorem inRange_of_mem_new_g {rows cols : Int} (hrows : 1 ≤ rows) (hcols : 1 ≤ cols)
    {nb : List Cell} (hnb : nb ∈ (SudokuGraph.new rows cols).g) {b : Cell} (hb : b ∈ nb) :
    b.inRange (rows * cols) := by
  rw [new_g] at hnb
  simp only [List.mem_flatMap, List.mem_map] at hnb
  obtain ⟨r, hr, c, hc, rfl⟩ := hnb
  rw [mem_intRange] at hr hc
  rw [cellsFor_eq hrows hcols hr.1 hc.1] at hb
  exact inRange_of_mem_specPeers hrows hcols hr hc hb

/-- On a well-formed puzzle no operation of the program faults. -/
theorem no_fault {P : SudokuPuzzle} (hP : P.WF) :
    P.graph.g.length = (P.N * P.N).toNat ∧
    (∀ nb ∈ P.graph.g, ∀ b ∈ nb, 0 ≤ b.row ∧ b.row < P.N ∧ 0 ≤ b.col ∧ b.col < P.N) ∧
    (∀ a : Cell, a.inRange P.N →
      (0 ≤ P.N * a.row + a.col ∧ P.N * a.row + a.col < P.N * P.N) ∧
      (∃ v, P.atCell a.row a.col = some v) ∧
      (∃ nb, P.graph.neighbors a.row a.col = some nb ∧
        ∀ b ∈ nb, ∃ val, P.atCell b.row b.col = some val ∧
          (val > 0 → 0 ≤ val - 1 ∧ val - 1 < P.N)) ∧
      (∃ n, P.countPossibleValuesOf a.row a.col = some n) ∧
      (∃ vs, P.visited a.row a.col = some vs ∧ ∀ val ∈ vs, 0 ≤ val - 1 ∧ val - 1 < P.N)) ∧
    (∃ ok, checkPuzzle P = some ok) ∧
    (∀ fuel, emptyCount P.cells < fuel →
      ∃ T, (PuzzleSolver.new P).solveFuel fuel = some T) := by
  have hN := wf_N_pos hP
  refine ⟨?_, ?_, fun a ha => ?_, ?_, fun fuel hfuel => ?_⟩
  · rw [hP.graph_eq, length_new_g, ← hP.N_eq, toNat_mul_self (by omega)]
  · intro nb hnb b hb
    rw [hP.graph_eq] at hnb
    have := inRange_of_mem_new_g hP.rows_pos hP.cols_pos hnb hb
    rw [← hP.N_eq] at this
    exact this
  · have hr : 0 ≤ a.row ∧ a.row < P.N := ⟨ha.1, ha.2.1⟩
    have hc : 0 ≤ a.col ∧ a.col < P.N := ⟨ha.2.2.1, ha.2.2.2⟩
    refine ⟨index_lt hr hc, ?_, ?_, ⟨_, countPossibleValuesOf_eq hP hr hc⟩,
      ⟨_, visited_eq hP hr hc, fun val hval => ?_⟩⟩
    · obtain ⟨v, hv, _⟩ := atCell_some hP hr hc
      exact ⟨v, hv⟩
    · refine ⟨_, neighbors_wf hP hr hc, fun b hb => ?_⟩
      obtain ⟨val, hval, _, h2⟩ := atCell_peer hP hr hc hb
      exact ⟨val, hval, fun hpos => by omega⟩
    · have := mem_candidates.1 hval
      omega
  · obtain ⟨ok, hok, _⟩ := checkPuzzle_spec (shaped_of_wf hP)
    exact ⟨ok, hok⟩
  · obtain ⟨T, hT, _⟩ := solve_new hP hfuel
    exact ⟨T, hT⟩

/-- Claim C20. For `blockRows, blockCols ≥ 1` and a grid of exactly `N * N` values in
`[0, N]`: the graph has `N * N` adjacency lists; every coordinate stored in it lies in
`[0, N)`; for every in-range cell the index `N * row + col` lies in `[0, N * N)`, the cell
and its neighbor list can be read, every neighbor can be read and a positive value `val`
read from it has `0 ≤ val - 1 < N` (the accesses `possible[val - 1]` of the elimination
loops), `countPossibleValuesOf` and `forAllPossibleValuesOf` return, the latter visiting
only values with `0 ≤ val - 1 < N`; `checkPuzzle` returns; and `solve` returns.  (In the
embedding a failed assertion or an out-of-range access makes the operation return
`none`.) -/
theorem C20_no_out_of_bounds (P : SudokuPuzzle) (hP : P.WF) :
    P.graph.g.length = (P.N * P.N).toNat ∧
    (∀ nb ∈ P.graph.g, ∀ b ∈ nb, 0 ≤ b.row ∧ b.row < P.N ∧ 0 ≤ b.col ∧ b.col < P.N) ∧
    (∀ a : Cell, a.inRange P.N →
      (0 ≤ P.N * a.row + a.col ∧ P.N * a.row + a.col < P.N * P.N) ∧
      (∃ v, P.atCell a.row a.col = some v) ∧
      (∃ nb, P.graph.neighbors a.row a.col = some nb ∧
        ∀ b ∈ nb, ∃ val, P.atCell b.row b.col = some val ∧
          (val > 0 → 0 ≤ val - 1 ∧ val - 1 < P.N)) ∧
      (∃ n, P.countPossibleValuesOf a.row a.col = some n) ∧
      (∃ vs, P.visited a.row a.col = some vs ∧ ∀ val ∈ vs, 0 ≤ val - 1 ∧ val - 1 < P.N)) ∧
    (∃ ok, checkPuzzle P = some ok) ∧
    (∀ fuel, emptyCount P.cells < fuel →
      ∃ T, (PuzzleSolver.new P).solveFuel fuel = some T) :=
  no_fault hP

theorem C20_witness :
    examplePuzzle.graph.g.length = (examplePuzzle.N * examplePuzzle.N).toNat ∧
    (∀ nb ∈ examplePuzzle.graph.g, ∀ b ∈ nb,
      0 ≤ b.row ∧ b.row < examplePuzzle.N ∧ 0 ≤ b.col ∧ b.col < examplePuzzle.N) :=
  ⟨(C20_no_out_of_bounds examplePuzzle examplePuzzle_wf).1,
   (C20_no_out_of_bounds examplePuzzle examplePuzzle_wf).2.1⟩

/-! ## Counting the solutions of the empty 4×4 board -/

theorem offsets22_eq : (List.range' 0 16).map (peerOffsets 2 2) = offsets22 := by
  decide

theorem cellOf_spec {N : Int} (hN : 1 ≤ N) {k : Nat} (hk : k < (N * N).toNat) :
    (cellOf N k).inRange N ∧ cellIndex N (cellOf N k) = k := by
  have hn : (N.toNat : Int) = N := Int.toNat_of_nonneg (by omega)
  rw [toNat_mul_self (by omega)] at hk
  have hpos : 0 < N.toNat := by omega
  have hq : k / N.toNat < N.toNat := Nat.div_lt_of_lt_mul hk
  have hm : k % N.toNat < N.toNat := Nat.mod_lt _ hpos
  have hdm : N.toNat * (k / N.toNat) + k % N.toNat = k := Nat.div_add_mod k N.toNat
  unfold cellOf
  generalize k / N.toNat = q at hq hdm
  generalize k % N.toNat = m at hm hdm
  constructor
  · unfold Cell.inRange
    dsimp only
    omega
  · unfold cellIndex
    dsimp only
    have : N * (q : Int) + (m : Int) = ((N.toNat * q + m : Nat) : Int) := by
      push_cast; rw [hn]
    rw [this, Int.toNat_ofNat]
    exact hdm

/-- Reading the grid "filled prefix, then zeros" at any position. -/
theorem getD_prefix_grid (acc : List Int) (m j : Nat) :
    (acc.reverse ++ List.replicate m 0).getD j 0
      = if j < acc.length then acc.getD (acc.length - 1 - j) 0 else 0 := by
  rw [List.getD_eq_getElem?_getD, List.getD_eq_getElem?_getD]
  by_cases hj : j < acc.length
  · rw [if_pos hj, List.getElem?_append_left (by simpa using hj),
      List.getElem?_reverse hj]
  · rw [if_neg hj, List.getElem?_append_right (by simpa using hj)]
    by_cases hj2 : j - acc.reverse.length < m
    · rw [List.getElem?_replicate, if_pos hj2]
      rfl
    · rw [List.getElem?_replicate, if_neg hj2]
      rfl

theorem set_prefix_grid (acc : List Int) (m : Nat) (v : Int) :
    (acc.reverse ++ List.replicate (m + 1) 0).set acc.length v
      = (v :: acc).reverse ++ List.replicate m 0 := by
  have h : acc.length = acc.reverse.length := by simp
  rw [h, List.set_append_right _ _ (le_refl _), Nat.sub_self, List.replicate_succ,
    List.set_cons_zero, List.reverse_cons, List.append_assoc]
  rfl

/-- Enumerations of the grids obtained by writing each value of `vs` into an empty cell
combine to an enumeration of the solutions with a value of `vs` in that cell. -/
theorem branchEnumerates_flatMap {P : SudokuPuzzle} (hP : P.WF) {a : Cell}
    (ha : a.inRange P.N) (h0 : P.cells[cellIndex P.N a]? = some 0)
    (F : Int → List (List Int)) (vs : List Int)
    (hvs : ∀ v ∈ vs, v ∈ P.candidates (specPeers P.rows P.cols a.row a.col))
    (hnd : vs.Nodup) (H : ∀ v ∈ vs, Enumerates (P.withCell a v) (F v)) :
    BranchEnumerates P a vs (vs.flatMap F) := by
  induction vs with
  | nil =>
    exact ⟨fun h _ _ hex => by simp at hex, fun _ hh => by simp at hh,
      fun _ _ hh => by simp at hh, List.nodup_nil⟩
  | cons v vs ih =>
    have hvmem := hvs v (List.mem_cons_self _ _)
    have hvr := mem_candidates.1 hvmem
    have henum1 := H v (List.mem_cons_self _ _)
    have henum2 := ih (fun w hw => hvs w (List.mem_cons_of_mem _ hw))
      (List.nodup_cons.1 hnd).2 (fun w hw => H w (List.mem_cons_of_mem _ hw))
    have hia := wf_cellIndex_lt hP ha
    rw [List.flatMap_cons]
    refine ⟨fun h hs hag hex => ?_, fun h hh => ?_, fun hcons h hh => ?_, ?_⟩
    · obtain ⟨w, hw, hget⟩ := hex
      rcases List.mem_cons.1 hw with hw | hw
      · subst hw
        exact List.mem_append_left _ (henum1.complete h hs (agrees_set hag hget))
      · exact List.mem_append_right _ (henum2.complete h hs hag ⟨w, hw, hget⟩)
    · rcases List.mem_append.1 hh with hh | hh
      · have hag := henum1.agrees h hh
        exact ⟨agrees_of_set h0 hag, v, List.mem_cons_self _ _,
          agrees_set_value hia (by omega) hag⟩
      · obtain ⟨hag, w, hw, hget⟩ := henum2.agrees h hh
        exact ⟨hag, w, List.mem_cons_of_mem _ hw, hget⟩
    · rcases List.mem_append.1 hh with hh | hh
      · exact henum1.sound (consistent_withCell hP ha hcons hvmem) h hh
      · exact henum2.sound hcons h hh
    · refine List.Nodup.append henum1.nodup henum2.nodup ?_
      intro h hh1 hh2
      have e1 := agrees_set_value hia (by omega) (henum1.agrees h hh1)
      obtain ⟨_, w, hw, hget⟩ := henum2.agrees h hh2
      rw [e1, Option.some.injEq] at hget
      subst hget
      exact (List.nodup_cons.1 hnd).1 hw

/-- Two enumerations of the solutions of a consistent grid have the same length. -/
theorem enumerates_length_eq {P : SudokuPuzzle} (hcons : Consistent P.rows P.cols P.cells)
    {l₁ l₂ : List (List Int)} (h₁ : Enumerates P l₁) (h₂ : Enumerates P l₂) :
    l₁.length = l₂.length := by
  apply List.Perm.length_eq
  rw [List.perm_ext_iff_of_nodup h₁.nodup h₂.nodup]
  intro h
  constructor
  · intro hh
    exact h₂.complete h (h₁.sound hcons h hh) (h₁.agrees h hh)
  · intro hh
    exact h₁.complete h (h₂.sound hcons h hh) (h₂.agrees h hh)

/-- The candidate test of the reference enumeration agrees with the candidate values of
the puzzle whose grid is the filled prefix followed by zeros. -/
theorem prefix_filter_eq {P : SudokuPuzzle} (hP : P.WF) (acc : List Int) (m : Nat)
    (hcells : P.cells = acc.reverse ++ List.replicate (m + 1) 0) :
    ((intRange P.N).map (fun i => i + 1)).filter (fun v =>
        (peerOffsets P.rows P.cols acc.length).all (fun o => acc.getD o 0 != v))
      = P.candidates (specPeers P.rows P.cols (cellOf P.N acc.length).row
          (cellOf P.N acc.length).col) := by
  have hk : acc.length < (P.N * P.N).toNat := by
    rw [← hP.length_eq, hcells]
    simp
  obtain ⟨ha, hidx⟩ := cellOf_spec (wf_N_pos hP) hk
  unfold SudokuPuzzle.candidates
  apply List.filter_congr
  intro v hv
  rw [mem_oneToN] at hv
  rw [Bool.eq_iff_iff, List.all_eq_true, decide_eq_true_iff]
  unfold peerOffsets SudokuPuzzle.unheld
  rw [← hP.N_eq]
  have hread : ∀ b ∈ specPeers P.rows P.cols (cellOf P.N acc.length).row
      (cellOf P.N acc.length).col,
      P.atCell b.row b.col = some (if cellIndex P.N b < acc.length
        then acc.getD (acc.length - 1 - cellIndex P.N b) 0 else 0) := by
    intro b hb
    have hbr : b.inRange P.N := inRange_peer_shaped (shaped_of_wf hP) ha hb
    rw [atCell_getD hP hbr, hcells, getD_prefix_grid]
  constructor
  · intro H b hb
    rw [hread b hb]
    by_cases hlt : cellIndex P.N b < acc.length
    · rw [if_pos hlt]
      have := H (acc.length - 1 - cellIndex P.N b) (by
        simp only [List.mem_map, List.mem_filter, decide_eq_true_eq]
        exact ⟨cellIndex P.N b, ⟨⟨b, hb, rfl⟩, hlt⟩, rfl⟩)
      simpa using this
    · rw [if_neg hlt]
      intro e
      rw [Option.some.injEq] at e
      omega
  · intro H o ho
    simp only [List.mem_map, List.mem_filter, decide_eq_true_eq] at ho
    obtain ⟨j, ⟨⟨b, hb, rfl⟩, hlt⟩, rfl⟩ := ho
    have := H b hb
    rw [hread b hb, if_pos hlt] at this
    simpa using this

theorem prefix_grid_wf {P0 : SudokuPuzzle} (hP0 : P0.WF) (acc : List Int) (m : Nat)
    (hlen : acc.length + m = (P0.N * P0.N).toNat) (hacc : ∀ v ∈ acc, 1 ≤ v ∧ v ≤ P0.N) :
    ({ P0 with cells := acc.reverse ++ List.replicate m 0 } : SudokuPuzzle).WF := by
  refine ⟨hP0.rows_pos, hP0.cols_pos, hP0.N_eq, hP0.graph_eq, ?_, ?_⟩
  · show (acc.reverse ++ List.replicate m 0).length = _
    rw [List.length_append, List.length_reverse, List.length_replicate]
    exact hlen
  · intro v hv
    have hN := wf_N_pos hP0
    have hv2 : v ∈ acc.reverse ++ List.replicate m 0 := hv
    rcases List.mem_append.1 hv2 with h | h
    · have := hacc v (List.mem_reverse.1 h)
      show 0 ≤ v ∧ v ≤ P0.N
      omega
    · rw [(List.mem_replicate.1 h).2]
      show (0 : Int) ≤ 0 ∧ 0 ≤ P0.N
      omega

/-- The reference enumeration enumerates the solutions of the grid "filled prefix, then
zeros". -/
theorem enumPrefix_enumerates {P0 : SudokuPuzzle} (hP0 : P0.WF) :
    ∀ (m : Nat) (acc : List Int), acc.length + m = (P0.N * P0.N).toNat →
      (∀ v ∈ acc, 1 ≤ v ∧ v ≤ P0.N) →
      Enumerates { P0 with cells := acc.reverse ++ List.replicate m 0 }
        (enumPrefix ((intRange P0.N).map (fun i => i + 1))
          ((List.range' acc.length m).map (peerOffsets P0.rows P0.cols)) acc) := by
  intro m
  induction m with
  | zero =>
    intro acc hlen hacc
    have hP := prefix_grid_wf hP0 acc 0 hlen hacc
    have hz : ∀ v ∈ acc.reverse ++ List.replicate 0 0, v ≠ 0 := by
      intro v hv
      simp only [List.replicate_zero, List.append_nil, List.mem_reverse] at hv
      have := hacc v hv
      omega
    have := enumerates_singleton hP hz
    simpa [enumPrefix] using this
  | succ m ih =>
    intro acc hlen hacc
    have hP := prefix_grid_wf hP0 acc (m + 1) hlen hacc
    have hk : acc.length < (P0.N * P0.N).toNat := by omega
    obtain ⟨ha, hidx⟩ := cellOf_spec (wf_N_pos hP0) hk
    have h0 : (acc.reverse ++ List.replicate (m + 1) 0)[cellIndex P0.N
        (cellOf P0.N acc.length)]? = some 0 := by
      rw [hidx, List.getElem?_append_right (by simp)]
      simp [List.replicate_succ]
    have hfilter := prefix_filter_eq hP acc m rfl
    rw [List.range'_succ, List.map_cons]
    show Enumerates _ ((List.filter _ _).flatMap _)
    rw [hfilter]
    apply enumerates_of_branch hP ha
    apply branchEnumerates_flatMap hP ha h0 _ _ (fun _ h => h)
      (pairwise_candidates _ _).nodup
    intro v hv
    have hvr := mem_candidates.1 hv
    have hstep := ih (v :: acc) (by simp only [List.length_cons]; omega) (by
      intro w hw
      rcases List.mem_cons.1 hw with hw | hw
      · rw [hw]; exact ⟨hvr.1, hvr.2.1⟩
      · exact hacc w hw)
    have hcell : ({ P0 with cells := acc.reverse ++ List.replicate (m + 1) 0 } :
        SudokuPuzzle).withCell (cellOf P0.N acc.length) v
        = { P0 with cells := (v :: acc).reverse ++ List.replicate m 0 } := by
      unfold SudokuPuzzle.withCell
      simp only
      rw [hidx, set_prefix_grid]
    rw [hcell]
    exact hstep

theorem emptyPuzzle22_wf : emptyPuzzle22.WF :=
  ⟨by decide, by decide, rfl, rfl, by decide, by decide⟩

set_option maxRecDepth 100000 in
theorem enumPrefix22_length :
    (enumPrefix [1, 2, 3, 4] offsets22 []).length = 288 := by
  decide!

/-- The solver on the empty 4×4 board reports 288 grids, without repetition. -/
theorem solve_empty22 (fuel : Nat) :
    ∃ T, (PuzzleSolver.new emptyPuzzle22).solveFuel (fuel + 17) = some T ∧
      T.out.length = 288 ∧ T.grids.Nodup ∧
      ∀ h, h ∈ T.grids ↔ IsSolution 2 2 h := by
  obtain ⟨T, hT, _, henum⟩ := solve_new emptyPuzzle22_wf
    (show emptyCount emptyPuzzle22.cells < fuel + 17 by
      have : emptyCount emptyPuzzle22.cells = 16 := by decide
      omega)
  have hcons : Consistent emptyPuzzle22.rows emptyPuzzle22.cols emptyPuzzle22.cells :=
    consistent_of_checkPuzzle emptyPuzzle22_wf (by decide)
  have href := enumPrefix_enumerates emptyPuzzle22_wf 16 [] (by decide) (by simp)
  have hvals : (intRange emptyPuzzle22.N).map (fun i => i + 1) = [1, 2, 3, 4] := by decide
  have hoffs : (List.range' ([] : List Int).length 16).map
      (peerOffsets emptyPuzzle22.rows emptyPuzzle22.cols) = offsets22 := offsets22_eq
  rw [hvals, hoffs] at href
  have hlen := enumerates_length_eq hcons henum href
  rw [enumPrefix22_length] at hlen
  refine ⟨T, hT, ?_, henum.nodup, fun h => ⟨fun hh => henum.sound hcons h hh, fun hs => ?_⟩⟩
  · unfold PuzzleSolver.grids at hlen
    rw [List.length_map] at hlen
    exact hlen
  · exact henum.complete h hs ⟨by rw [hs.length_eq]; rfl, fun i v hi hv => by
      have hi2 : emptyPuzzle22.cells[i]? = some v := hi
      obtain ⟨hlt, hget⟩ := List.getElem?_eq_some_iff.1 hi2
      have hmem : v ∈ emptyPuzzle22.cells := hget ▸ List.getElem_mem hlt
      have hv0 : v = 0 := (List.mem_replicate.1 hmem).2
      exact absurd hv0 hv⟩

/-- Claim C12. For the shape (2, 2) and the grid of 16 zeros, `solve` (with any fuel from
17 on, one more than the number of empty cells) returns having reported exactly 288
solutions, pairwise distinct; they are exactly the valid complete 4×4 grids. -/
theorem C12_empty_board_288 (fuel : Nat) :
    ∃ T, (PuzzleSolver.new emptyPuzzle22).solveFuel (fuel + 17) = some T ∧
      T.out.length = 288 ∧ T.grids.Nodup ∧
      ∀ h, h ∈ T.grids ↔ IsSolution 2 2 h :=
  solve_empty22 fuel

end Sudoku
